import Mathlib

/-!
# blockchain_go: a shallow embedding of the ledger core

The Go sources (`block.go`, `merkle_tree.go`, `proofofwork.go`, `transaction.go`,
`transaction_input.go`, `blockchain.go`, `blockchain_iterator.go`, `utxo_set.go`)
are embedded as pure Lean functions.

Conventions.
* A Go `[]byte` and a Go `string` are both a `Bytes` (a list of byte values).  A nil
  slice and an empty one are identified, except for `Transaction.ID`, the only slice
  the code compares with `nil`; it is an `Option Bytes`, `none` being nil.
* A Go `int` / `int64` is an `Int`; loop counters that only count upwards from zero
  are `Nat`.
* `log.Panic`, an out-of-range index and a nil dereference all abort the program:
  a function that can abort returns an `Option`, `none` being the abort.
* `hex.EncodeToString` is a bijection between byte strings and their hexadecimal
  spelling (`hex.DecodeString` is its inverse), so a map keyed by the hexadecimal
  string of an id is represented as a map keyed by the id itself.
* Library code (SHA-256, gob, fmt, ECDSA) and the parts of the repository that are
  used but not part of the sources at hand (`HashPubKey`, address decoding) are the
  fields of an `Env`.  General theorems are universally quantified over it; theorems
  about one concrete input evaluate the definitions in the environment `demoEnv`.
* A bolt bucket is an association list kept in key order.  `Get` of a missing key is
  nil; `Put` returns an error for an empty key and for a key longer than `MaxKeySize`
  (every caller panics on it); values are kept decoded, so the size of their encoding,
  which `Put` and gob also bound, is not modelled; `Delete` does not fail.
* A slice that `Get` returns is valid for the life of its bolt transaction only.  Of
  the functions embedded here, `MineBlock` keeps such a slice beyond it (the field
  `PrevBlockHash` of the block it returns); what that field reads afterwards is a
  parameter of the model, see `MineBlock`.  A ledger state is taken with the bytes its
  in-memory tip reads when the function is called.
-/

namespace BlockchainGo

/-- A Go byte slice or string. -/
abbrev Bytes := List Nat

/-! ## Data model -/

/-- The struct `TXInput` of `transaction_input.go`. -/
structure TXInput where
  Txid : Bytes
  Vout : Int
  Signature : Bytes
  PubKey : Bytes
deriving DecidableEq, Repr

/-- Modelled from the spec: the struct `TXOutput` (its declaring file is not among the
sources): a value and the hash of the public key the output is locked to. -/
structure TXOutput where
  Value : Int
  PubKeyHash : Bytes
deriving DecidableEq, Repr

/-- Modelled from the spec: the struct `TXOutputs`, the list of outputs stored under
one transaction id in the UTXO bucket. -/
structure TXOutputs where
  Outputs : List TXOutput
deriving DecidableEq, Repr

/-- The struct `Transaction` of `transaction.go`; `ID = none` is the nil slice. -/
structure Transaction where
  ID : Option Bytes
  Vin : List TXInput
  Vout : List TXOutput
deriving DecidableEq, Repr

/-- The struct `Block` of `block.go`. -/
structure Block where
  Timestamp : Int
  Transactions : List Transaction
  PrevBlockHash : Bytes
  Hash : Bytes
  Nonce : Int
  Height : Int
deriving DecidableEq, Repr

/-- The struct `ecdsa.PrivateKey`: the public point and the secret scalar. -/
structure PrivateKey where
  X : Nat
  Y : Nat
  D : Nat
deriving DecidableEq, Repr

/-- Library functions and repository functions that are not among the sources. -/
structure Env where
  /-- The function `sha256.Sum256`. -/
  sha256 : Bytes → Bytes
  /-- The gob encoding of a transaction, as produced by `Transaction.Serialize`. -/
  gobTx : Transaction → Bytes
  /-- The bytes of `fmt.Sprintf("%x\n", txCopy)`. -/
  sprintfTx : Transaction → Bytes
  /-- The function `HashPubKey` of the wallet. -/
  HashPubKey : Bytes → Bytes
  /-- The public key hash carried by an address (base58 decoding, version byte and
  checksum removed), as `TXOutput.Lock` computes it. -/
  addressKeyHash : Bytes → Bytes
  /-- The function `ecdsa.Sign`; the `Nat` argument is what is drawn from `rand.Reader`. -/
  ecdsaSign : PrivateKey → Nat → Bytes → Nat × Nat
  /-- The function `ecdsa.Verify` on the curve P-256, given the point `(x, y)`. -/
  ecdsaVerify : Nat → Nat → Bytes → Nat → Nat → Bool

/-! ## Big integers and fixed-width encodings -/

/-- The method `big.Int.SetBytes`: the unsigned big-endian value of a byte string. -/
def SetBytes (b : Bytes) : Nat :=
  b.foldl (fun acc x => acc * 256 + x) 0

/-- Big-endian digits of `n` in base 256, most significant first, for `fuel` rounds. -/
def natBytesAux : Nat → Nat → Bytes → Bytes
  | 0, _, acc => acc
  | fuel + 1, n, acc => if n = 0 then acc else natBytesAux fuel (n / 256) ((n % 256) :: acc)

/-- The method `big.Int.Bytes`: the minimal big-endian bytes of a natural number
(no leading zero byte; zero is the empty string). -/
def natBytes (n : Nat) : Bytes :=
  natBytesAux n n []

/-- Exactly `w` big-endian bytes of `n` (the low `w` bytes). -/
def bigEndian : Nat → Nat → Bytes
  | 0, _ => []
  | w + 1, n => bigEndian w (n / 256) ++ [n % 256]

/-- Modelled from the spec: `IntToHex` (its declaring file is not among the sources),
the big-endian encoding of an `int64`: eight bytes, two's complement. -/
def IntToHex (n : Int) : Bytes :=
  bigEndian 8 (n % 18446744073709551616).toNat

/-! ## merkle_tree.go -/

/-- The struct `MerkleNode`.  A leaf has `Left = Right = nil`; an inner node has both
children (`NewMerkleNode` aborts on a node with exactly one child). -/
inductive MerkleNode where
  | leaf (Data : Bytes)
  | node (Left Right : MerkleNode) (Data : Bytes)
deriving DecidableEq, Repr

/-- The field `MerkleNode.Data`. -/
def MerkleNode.Data : MerkleNode → Bytes
  | .leaf d => d
  | .node _ _ d => d

/-- The struct `MerkleTree`. -/
structure MerkleTree where
  RootNode : MerkleNode
deriving DecidableEq, Repr

/-- The function `NewMerkleNode(left, right, data)`.  With both pointers nil it hashes
`data`; otherwise it reads `left.Data` and `right.Data`, a nil dereference when exactly
one pointer is nil. -/
def NewMerkleNode (env : Env) : Option MerkleNode → Option MerkleNode → Bytes → Option MerkleNode
  | none, none, data => some (.leaf (env.sha256 data))
  | some l, some r, _ => some (.node l r (env.sha256 (l.Data ++ r.Data)))
  | _, _, _ => none

/-- The leaf loop of `NewMerkleTree`: `for _, datum := range data`. -/
def merkleLeaves (env : Env) : List Bytes → Option (List MerkleNode)
  | [] => some []
  | datum :: rest =>
    match NewMerkleNode env none none datum, merkleLeaves env rest with
    | some n, some ns => some (n :: ns)
    | _, _ => none

/-- The inner loop of `NewMerkleTree`:
`for j := 0; j < len(nodes); j += 2 { NewMerkleNode(&nodes[j], &nodes[j+1], nil) }`.
When one node is left over, `nodes[j+1]` is out of range. -/
def merkleLevel (env : Env) : List MerkleNode → Option (List MerkleNode)
  | [] => some []
  | [_] => none
  | a :: b :: rest =>
    match NewMerkleNode env (some a) (some b) [], merkleLevel env rest with
    | some n, some ns => some (n :: ns)
    | _, _ => none

/-- The outer loop of `NewMerkleTree`: `for i := 0; i < len(data)/2; i++`, the first
argument being the number of rounds still to run. -/
def merkleRounds (env : Env) : Nat → List MerkleNode → Option (List MerkleNode)
  | 0, nodes => some nodes
  | k + 1, nodes =>
    match merkleLevel env nodes with
    | none => none
    | some newLevel => merkleRounds env k newLevel

/-- The padding step of `NewMerkleTree`: an odd-length input gets its last element
appended once more. -/
def merklePad (data : List Bytes) : List Bytes :=
  if data.length % 2 ≠ 0 then
    match data.getLast? with
    | some last => data ++ [last]
    | none => data
  else data

/-- The function `NewMerkleTree`; `none` is an out-of-range access. -/
def NewMerkleTree (env : Env) (data : List Bytes) : Option MerkleTree :=
  let data := merklePad data
  match merkleLeaves env data with
  | none => none
  | some nodes =>
    match merkleRounds env (data.length / 2) nodes with
    | none => none
    | some nodes =>
      match nodes.head? with
      | none => none
      | some root => some ⟨root⟩

/-! ## block.go and proofofwork.go -/

/-- The variable `maxNonce = math.MaxInt64`. -/
def maxNonce : Nat := 9223372036854775807

/-- The constant `targetBits`. -/
def targetBits : Nat := 16

/-- The field `ProofOfWork.target` set by `NewProofOfWork`: `1 << (256 - targetBits)`. -/
def target : Nat := 2 ^ (256 - targetBits)

/-- The method `Block.HashTransactions`. -/
def HashTransactions (env : Env) (b : Block) : Option Bytes :=
  match NewMerkleTree env (b.Transactions.map env.gobTx) with
  | none => none
  | some mTree => some mTree.RootNode.Data

/-- The method `ProofOfWork.prepareData`, `bytes.Join` with an empty separator. -/
def prepareData (env : Env) (b : Block) (nonce : Int) : Option Bytes :=
  match HashTransactions env b with
  | none => none
  | some root =>
    some (b.PrevBlockHash ++ root ++ IntToHex b.Timestamp ++ IntToHex (targetBits : Int)
      ++ IntToHex nonce)

/-- The loop of `ProofOfWork.Run`, `for nonce < maxNonce`, started at `nonce` with the
last digest computed in `hash`; `fuel` bounds the number of rounds. -/
def RunLoop (env : Env) (b : Block) : Nat → Nat → Bytes → Option (Nat × Bytes)
  | 0, nonce, hash => some (nonce, hash)
  | fuel + 1, nonce, hash =>
    if nonce < maxNonce then
      match prepareData env b (nonce : Int) with
      | none => none
      | some data =>
        let hash := env.sha256 data
        if SetBytes hash < target then some (nonce, hash)
        else RunLoop env b fuel (nonce + 1) hash
    else some (nonce, hash)

/-- The method `ProofOfWork.Run`: the loop from nonce 0, `hash` initially the zero
array.  The loop runs at most `maxNonce` rounds, so that much fuel never runs out. -/
def Run (env : Env) (b : Block) : Option (Nat × Bytes) :=
  RunLoop env b maxNonce 0 (List.replicate 32 0)

/-- The method `ProofOfWork.Validate`. -/
def Validate (env : Env) (b : Block) : Option Bool :=
  match prepareData env b b.Nonce with
  | none => none
  | some data => some (decide (SetBytes (env.sha256 data) < target))

/-- The function `NewBlock`; `now` is the value of `time.Now().Unix()`. -/
def NewBlock (env : Env) (now : Int) (transactions : List Transaction) (prevBlockHash : Bytes)
    (height : Int) : Option Block :=
  let block : Block := ⟨now, transactions, prevBlockHash, [], 0, height⟩
  match Run env block with
  | none => none
  | some (nonce, hash) => some { block with Hash := hash, Nonce := (nonce : Int) }

/-! ## Go maps and bolt buckets -/

/-- A Go map with byte-string keys, as an association list with distinct keys. -/
abbrev GoMap (α : Type) := List (Bytes × α)

/-- Reading `m[k]` with the comma-ok form: `none` when the key is absent. -/
def mapLookup {α : Type} : GoMap α → Bytes → Option α
  | [], _ => none
  | (k', v) :: rest, k => if k' = k then some v else mapLookup rest k

/-- The assignment `m[k] = v`. -/
def mapInsert {α : Type} : GoMap α → Bytes → α → GoMap α
  | [], k, v => [(k, v)]
  | (k', v') :: rest, k, v =>
    if k' = k then (k, v) :: rest else (k', v') :: mapInsert rest k v

/-- The function `bytes.Compare(a, b) < 0`: lexicographic order on byte strings, the
order in which a bolt cursor visits keys. -/
def bytesLt : Bytes → Bytes → Bool
  | _, [] => false
  | [], _ :: _ => true
  | a :: as, b :: bs => if a < b then true else if a = b then bytesLt as bs else false

/-- A bolt bucket: its key/value pairs in cursor order. -/
abbrev Bucket (α : Type) := List (Bytes × α)

/-- The method `Bucket.Get`: `none` is the nil returned for a missing key. -/
def bucketGet {α : Type} : Bucket α → Bytes → Option α
  | [], _ => none
  | (k', v) :: rest, k => if k' = k then some v else bucketGet rest k

/-- What `Bucket.Put` does once it has accepted the key: it replaces the value of an
existing key, or inserts the pair at its place in key order. -/
def insertEntry {α : Type} : Bucket α → Bytes → α → Bucket α
  | [], k, v => [(k, v)]
  | (k', v') :: rest, k, v =>
    if k' = k then (k, v) :: rest
    else if bytesLt k k' then (k, v) :: (k', v') :: rest
    else (k', v') :: insertEntry rest k v

/-- The constant `MaxKeySize` of bolt. -/
def MaxKeySize : Nat := 32768

/-- The method `Bucket.Put`: `none` is the error it returns for an empty key
(`ErrKeyRequired`) and for a key longer than `MaxKeySize` (`ErrKeyTooLarge`); every call
in the sources is followed by `log.Panic` on an error. -/
def bucketPut {α : Type} (b : Bucket α) (k : Bytes) (v : α) : Option (Bucket α) :=
  if k.length = 0 then none
  else if MaxKeySize < k.length then none
  else some (insertEntry b k v)

/-- The method `Bucket.Delete`. -/
def bucketDelete {α : Type} (b : Bucket α) (k : Bytes) : Bucket α :=
  b.filter (fun p => decide (p.1 ≠ k))

/-- Indexing a slice with a Go `int`: `none` is the out-of-range abort. -/
def indexInt {α : Type} (l : List α) (i : Int) : Option α :=
  if i < 0 then none else l[i.toNat]?

/-- Wrap-around of `int` arithmetic (64-bit two's complement). -/
def wrapInt64 (x : Int) : Int :=
  (x + 9223372036854775808) % 18446744073709551616 - 9223372036854775808

/-! ## transaction.go and transaction_input.go -/

/-- The method `Transaction.IsCoinbase`. -/
def IsCoinbase (tx : Transaction) : Bool :=
  match tx.Vin with
  | [vin] => decide (vin.Txid.length = 0) && decide (vin.Vout = -1)
  | _ => false

/-- The method `TXInput.UsesKey`. -/
def UsesKey (env : Env) (vin : TXInput) (pubKeyHash : Bytes) : Bool :=
  decide (env.HashPubKey vin.PubKey = pubKeyHash)

/-- Modelled from the spec: `TXOutput.IsLockedWithKey` (its declaring file is not among
the sources): the output is locked to the given public key hash. -/
def IsLockedWithKey (out : TXOutput) (pubKeyHash : Bytes) : Bool :=
  decide (out.PubKeyHash = pubKeyHash)

/-- Modelled from the spec: `NewTXOutput(value, address)` (its declaring file is not
among the sources): an output of that value whose locking hash is the hash payload the
address decodes to. -/
def NewTXOutput (env : Env) (value : Int) (address : Bytes) : TXOutput :=
  ⟨value, env.addressKeyHash address⟩

/-- The method `Transaction.Serialize`. -/
def Serialize (env : Env) (tx : Transaction) : Bytes :=
  env.gobTx tx

/-- The method `Transaction.Hash`: the digest of the transaction with `ID` set to the
empty (non-nil) slice. -/
def Hash (env : Env) (tx : Transaction) : Bytes :=
  env.sha256 (Serialize env { tx with ID := some [] })

/-- The method `Transaction.TrimmedCopy`. -/
def TrimmedCopy (tx : Transaction) : Transaction :=
  { ID := tx.ID
    Vin := tx.Vin.map (fun vin => ⟨vin.Txid, vin.Vout, [], []⟩)
    Vout := tx.Vout.map (fun vout => ⟨vout.Value, vout.PubKeyHash⟩) }

/-- Reading `prevTXs[key]`: the zero `Transaction` when the key is absent. -/
def prevTxOf (prevTXs : GoMap Transaction) (key : Bytes) : Transaction :=
  match mapLookup prevTXs key with
  | some t => t
  | none => ⟨none, [], []⟩

/-- The guard loop shared by `Sign` and `Verify`: true when some input's previous
transaction has a nil `ID`, which is the `log.Panic` case. -/
def prevMissing (tx : Transaction) (prevTXs : GoMap Transaction) : Bool :=
  tx.Vin.any (fun vin => decide ((prevTxOf prevTXs vin.Txid).ID = none))

/-- The assignment `txCopy.Vin[inID].Signature = sig`. -/
def setSignature (tx : Transaction) (inID : Nat) (sig : Bytes) : Transaction :=
  { tx with Vin := tx.Vin.enum.map (fun p => if p.1 = inID then { p.2 with Signature := sig } else p.2) }

/-- The assignment `txCopy.Vin[inID].PubKey = pk`. -/
def setPubKey (tx : Transaction) (inID : Nat) (pk : Bytes) : Transaction :=
  { tx with Vin := tx.Vin.enum.map (fun p => if p.1 = inID then { p.2 with PubKey := pk } else p.2) }

/-- The signing loop of `Transaction.Sign`, over the inputs of `txCopy` still to be
processed (each with its index `inID`); `tx` is the transaction being signed and
`rand inID` the randomness `ecdsa.Sign` draws for that input. -/
def SignLoop (env : Env) (privKey : PrivateKey) (prevTXs : GoMap Transaction) (rand : Nat → Nat) :
    Transaction → Transaction → List (Nat × TXInput) → Option Transaction
  | tx, _, [] => some tx
  | tx, txCopy, (inID, vin) :: rest =>
    let prevTx := prevTxOf prevTXs vin.Txid
    let txCopy := setSignature txCopy inID []
    match indexInt prevTx.Vout vin.Vout with
    | none => none
    | some out =>
      let txCopy := setPubKey txCopy inID out.PubKeyHash
      let dataToSign := env.sprintfTx txCopy
      let rs := env.ecdsaSign privKey (rand inID) dataToSign
      let signature := natBytes rs.1 ++ natBytes rs.2
      let tx := setSignature tx inID signature
      let txCopy := setPubKey txCopy inID []
      SignLoop env privKey prevTXs rand tx txCopy rest

/-- The method `Transaction.Sign`: the signed transaction, or `none` on abort. -/
def Sign (env : Env) (privKey : PrivateKey) (prevTXs : GoMap Transaction) (rand : Nat → Nat)
    (tx : Transaction) : Option Transaction :=
  if IsCoinbase tx then some tx
  else if prevMissing tx prevTXs then none
  else
    let txCopy := TrimmedCopy tx
    SignLoop env privKey prevTXs rand tx txCopy txCopy.Vin.enum

/-- The verification loop of `Transaction.Verify`, over the inputs of `tx` still to be
checked (each with its index `inID`). -/
def VerifyLoop (env : Env) (prevTXs : GoMap Transaction) :
    Transaction → List (Nat × TXInput) → Option Bool
  | _, [] => some true
  | txCopy, (inID, vin) :: rest =>
    let prevTx := prevTxOf prevTXs vin.Txid
    let txCopy := setSignature txCopy inID []
    match indexInt prevTx.Vout vin.Vout with
    | none => none
    | some out =>
      let txCopy := setPubKey txCopy inID out.PubKeyHash
      let sigLen := vin.Signature.length
      let r := SetBytes (vin.Signature.take (sigLen / 2))
      let s := SetBytes (vin.Signature.drop (sigLen / 2))
      let keyLen := vin.PubKey.length
      let x := SetBytes (vin.PubKey.take (keyLen / 2))
      let y := SetBytes (vin.PubKey.drop (keyLen / 2))
      let dataToVerify := env.sprintfTx txCopy
      if env.ecdsaVerify x y dataToVerify r s = false then some false
      else VerifyLoop env prevTXs (setPubKey txCopy inID []) rest

/-- The method `Transaction.Verify`: `none` is an abort. -/
def Verify (env : Env) (tx : Transaction) (prevTXs : GoMap Transaction) : Option Bool :=
  if IsCoinbase tx then some true
  else if prevMissing tx prevTXs then none
  else VerifyLoop env prevTXs (TrimmedCopy tx) tx.Vin.enum

/-- The constant `subsidy`. -/
def subsidy : Int := 10

/-- The function `NewCoinbaseTX(to, data)`; `randHex` is the text substituted for an
empty `data` (twenty random bytes printed in hexadecimal). -/
def NewCoinbaseTX (env : Env) (toAddr data randHex : Bytes) : Transaction :=
  let data := if data = [] then randHex else data
  let txin : TXInput := ⟨[], -1, [], data⟩
  let txout := NewTXOutput env subsidy toAddr
  let tx : Transaction := ⟨none, [txin], [txout]⟩
  { tx with ID := some (Hash env tx) }

/-! ## blockchain.go and blockchain_iterator.go -/

/-- A value of the bucket `blocks`: the gob encoding of a block, kept as the block it
decodes to, or raw bytes (the tip hash stored under the key `l`). -/
inductive BlockValue where
  | block (b : Block)
  | hash (h : Bytes)
deriving DecidableEq, Repr

/-- The bolt database: the bucket `blocks` and the bucket `chainstate`, the latter
`none` until `Reindex` creates it. -/
structure DB where
  blocks : Bucket BlockValue
  chainstate : Option (Bucket TXOutputs)
deriving DecidableEq, Repr

/-- The struct `Blockchain`. -/
structure Blockchain where
  tip : Bytes
  db : DB
deriving DecidableEq, Repr

/-- The key `[]byte("l")`. -/
def lastKey : Bytes := [108]

/-- The constant `genesisCoinbaseData`. -/
def genesisCoinbaseData : Bytes :=
  [84, 104, 101, 32, 84, 105, 109, 101, 115, 32, 48, 51, 47, 74, 97, 110, 47, 50, 48,
   48, 57, 32, 67, 104, 97, 110, 99, 101, 108, 108, 111, 114, 32, 111, 110, 32, 98, 114,
   105, 110, 107, 32, 111, 102, 32, 115, 101, 99, 111, 110, 100, 32, 98, 97, 105, 108,
   111, 117, 116, 32, 102, 111, 114, 32, 98, 97, 110, 107, 115]

/-- The function `DeserializeBlock` applied to what `Bucket.Get` returned: it aborts on
nil and on bytes that are not the encoding of a block. -/
def DeserializeBlock : Option BlockValue → Option Block
  | some (.block b) => some b
  | _ => none

/-- The reads `lastHash := b.Get("l")` and `DeserializeBlock(b.Get(lastHash))` that
`AddBlock`, `MineBlock` and `GetBestHeight` share: the tip hash and the tip block.  A
key `l` that is absent, or that holds something else than a stored block's hash, makes
the decoding abort. -/
def tipBlock (blocks : Bucket BlockValue) : Option (Bytes × Block) :=
  match bucketGet blocks lastKey with
  | some (.hash lastHash) =>
    match DeserializeBlock (bucketGet blocks lastHash) with
    | some b => some (lastHash, b)
    | none => none
  | _ => none

/-- The function `NewGenesisBlock`. -/
def NewGenesisBlock (env : Env) (now : Int) (coinbase : Transaction) : Option Block :=
  NewBlock env now [coinbase] [] 0

/-- The function `CreateBlockchain`; `dbExists` is the outcome of the file check, and
the process exits when it is true. -/
def CreateBlockchain (env : Env) (now : Int) (dbExists : Bool) (address : Bytes) :
    Option Blockchain :=
  if dbExists then none
  else
    let cbtx := NewCoinbaseTX env address genesisCoinbaseData []
    match NewGenesisBlock env now cbtx with
    | none => none
    | some genesis =>
      match bucketPut [] genesis.Hash (.block genesis) with
      | none => none
      | some b =>
        match bucketPut b lastKey (.hash genesis.Hash) with
        | none => none
        | some b => some ⟨genesis.Hash, ⟨b, none⟩⟩

/-- The method `Blockchain.AddBlock`; an error of `Put` is a `log.Panic` inside the
`Update`, which stores nothing. -/
def AddBlock (bc : Blockchain) (block : Block) : Option Blockchain :=
  match bucketGet bc.db.blocks block.Hash with
  | some _ => some bc
  | none =>
    match bucketPut bc.db.blocks block.Hash (.block block) with
    | none => none
    | some b =>
      match tipBlock b with
      | none => none
      | some (_, lastBlock) =>
        if block.Height > lastBlock.Height then
          match bucketPut b lastKey (.hash block.Hash) with
          | none => none
          | some b' => some ⟨block.Hash, ⟨b', bc.db.chainstate⟩⟩
        else some ⟨bc.tip, ⟨b, bc.db.chainstate⟩⟩

/-- The method `BlockchainIterator.Next`: the block stored under `currentHash` and the
new value of `currentHash`. -/
def Next (db : DB) (currentHash : Bytes) : Option (Block × Bytes) :=
  match DeserializeBlock (bucketGet db.blocks currentHash) with
  | none => none
  | some block => some (block, block.PrevBlockHash)

/-- The blocks an iterator started at `currentHash` returns until one with an empty
`PrevBlockHash` has been returned; `fuel` bounds the number of calls of `Next`. -/
def iterBlocks (db : DB) : Nat → Bytes → Option (List Block)
  | 0, _ => none
  | fuel + 1, currentHash =>
    match Next db currentHash with
    | none => none
    | some (block, prev) =>
      if block.PrevBlockHash.length = 0 then some [block]
      else
        match iterBlocks db fuel prev with
        | none => none
        | some rest => some (block :: rest)

/-- The loop of `Blockchain.FindTransaction` from the iterator position `currentHash`:
`some (some tx)` is a found transaction, `some none` the error `Transaction is not
found`, `none` an abort or a walk longer than `fuel`. -/
def FindTransactionLoop (db : DB) (ID : Bytes) : Nat → Bytes → Option (Option Transaction)
  | 0, _ => none
  | fuel + 1, currentHash =>
    match Next db currentHash with
    | none => none
    | some (block, prev) =>
      match block.Transactions.find? (fun tx => decide (tx.ID.getD [] = ID)) with
      | some tx => some (some tx)
      | none =>
        if block.PrevBlockHash.length = 0 then some none
        else FindTransactionLoop db ID fuel prev

/-- The method `Blockchain.FindTransaction`. -/
def FindTransaction (fuel : Nat) (bc : Blockchain) (ID : Bytes) : Option (Option Transaction) :=
  FindTransactionLoop bc.db ID fuel bc.tip

/-- The loop that `SignTransaction` and `VerifyTransaction` share: it fills `prevTXs`
with the transaction found for each input; a transaction that is not found aborts. -/
def collectPrevTXs (fuel : Nat) (bc : Blockchain) :
    GoMap Transaction → List TXInput → Option (GoMap Transaction)
  | prevTXs, [] => some prevTXs
  | prevTXs, vin :: rest =>
    match FindTransaction fuel bc vin.Txid with
    | some (some prevTX) =>
      collectPrevTXs fuel bc (mapInsert prevTXs (prevTX.ID.getD []) prevTX) rest
    | _ => none

/-- The method `Blockchain.SignTransaction`. -/
def SignTransaction (env : Env) (fuel : Nat) (bc : Blockchain) (privKey : PrivateKey)
    (rand : Nat → Nat) (tx : Transaction) : Option Transaction :=
  match collectPrevTXs fuel bc [] tx.Vin with
  | none => none
  | some prevTXs => Sign env privKey prevTXs rand tx

/-- The method `Blockchain.VerifyTransaction`. -/
def VerifyTransaction (env : Env) (fuel : Nat) (bc : Blockchain) (tx : Transaction) :
    Option Bool :=
  if IsCoinbase tx then some true
  else
    match collectPrevTXs fuel bc [] tx.Vin with
    | none => none
    | some prevTXs => Verify env tx prevTXs

/-- The method `Blockchain.MineBlock` up to the end of its `Update`: the new ledger
state, and the new block as `NewBlock` built it and as it was serialized into the
store.  Between the `View` that read `lastHash` and the `Put` that serializes the block
no write transaction runs, so the block is built and stored with the bytes of the tip
hash. -/
def MineBlock.stored (env : Env) (fuel : Nat) (now : Int) (bc : Blockchain)
    (transactions : List Transaction) : Option (Blockchain × Block) :=
  if transactions.all (fun tx => decide (VerifyTransaction env fuel bc tx = some true)) then
    match tipBlock bc.db.blocks with
    | none => none
    | some (lastHash, block) =>
      let lastHeight := block.Height
      match NewBlock env now transactions lastHash (wrapInt64 (lastHeight + 1)) with
      | none => none
      | some newBlock =>
        match bucketPut bc.db.blocks newBlock.Hash (.block newBlock) with
        | none => none
        | some b =>
          match bucketPut b lastKey (.hash newBlock.Hash) with
          | none => none
          | some b => some (⟨newBlock.Hash, ⟨b, bc.db.chainstate⟩⟩, newBlock)
  else none

/-- The method `Blockchain.MineBlock`: the new ledger state and the block returned.
`lastHash` is the slice that `b.Get("l")` returned inside the `View`; bolt keeps its
bytes valid for the life of that transaction only, and the code stores the slice,
uncopied, as the `PrevBlockHash` of the new block.  What that field of the returned
block reads once the `Update` has committed is not determined by the program (the
page may have been reused): it is the parameter `stale`.  The other fields of the
returned block are those of the stored one. -/
def MineBlock (env : Env) (fuel : Nat) (now : Int) (bc : Blockchain)
    (transactions : List Transaction) (stale : Bytes) : Option (Blockchain × Block) :=
  match MineBlock.stored env fuel now bc transactions with
  | none => none
  | some (bc', newBlock) => some (bc', { newBlock with PrevBlockHash := stale })

/-- The test `Was the output spent?` of `FindUTXO`: whether the position `outIdx` is
listed under `txID` in `spentTXOs`. -/
def isSpentOutput (spentTXOs : GoMap (List Int)) (txID : Bytes) (outIdx : Int) : Bool :=
  match mapLookup spentTXOs txID with
  | none => false
  | some l => l.any (fun spentOutIdx => decide (spentOutIdx = outIdx))

/-- The output loop of `FindUTXO` for one transaction: every output whose position is
not listed under `txID` in `spentTXOs` is appended to `UTXO[txID]`. -/
def addUnspent (spentTXOs : GoMap (List Int)) (txID : Bytes) :
    GoMap TXOutputs → List (Nat × TXOutput) → GoMap TXOutputs
  | UTXO, [] => UTXO
  | UTXO, (outIdx, out) :: rest =>
    if isSpentOutput spentTXOs txID (outIdx : Int) then addUnspent spentTXOs txID UTXO rest
    else
      let outs : TXOutputs := (mapLookup UTXO txID).getD ⟨[]⟩
      addUnspent spentTXOs txID (mapInsert UTXO txID ⟨outs.Outputs ++ [out]⟩) rest

/-- The input loop of `FindUTXO` for one transaction:
`spentTXOs[inTxID] = append(spentTXOs[inTxID], in.Vout)`. -/
def addSpent : GoMap (List Int) → List TXInput → GoMap (List Int)
  | spentTXOs, [] => spentTXOs
  | spentTXOs, vin :: rest =>
    addSpent (mapInsert spentTXOs vin.Txid ((mapLookup spentTXOs vin.Txid).getD [] ++ [vin.Vout])) rest

/-- The body of the transaction loop of `FindUTXO`, on the pair `(UTXO, spentTXOs)`. -/
def utxoStep (st : GoMap TXOutputs × GoMap (List Int)) (tx : Transaction) :
    GoMap TXOutputs × GoMap (List Int) :=
  let txID := tx.ID.getD []
  let UTXO := addUnspent st.2 txID st.1 tx.Vout.enum
  let spentTXOs := if IsCoinbase tx = false then addSpent st.2 tx.Vin else st.2
  (UTXO, spentTXOs)

/-- The block loop of `Blockchain.FindUTXO` from the iterator position `currentHash`. -/
def FindUTXOLoop (db : DB) :
    Nat → Bytes → GoMap TXOutputs × GoMap (List Int) → Option (GoMap TXOutputs)
  | 0, _, _ => none
  | fuel + 1, currentHash, st =>
    match Next db currentHash with
    | none => none
    | some (block, prev) =>
      let st := block.Transactions.foldl utxoStep st
      if block.PrevBlockHash.length = 0 then some st.1
      else FindUTXOLoop db fuel prev st

/-- The method `Blockchain.FindUTXO`. -/
def Blockchain.FindUTXO (fuel : Nat) (bc : Blockchain) : Option (GoMap TXOutputs) :=
  FindUTXOLoop bc.db fuel bc.tip ([], [])

/-! ## utxo_set.go

A `UTXOSet` is a pointer to a `Blockchain`, so its methods take the `Blockchain`. -/

/-- Modelled from the spec: `DeserializeOutputs` (its declaring file is not among the
sources) applied to what `Bucket.Get` returned: an undecodable value, nil included, is
fatal; a stored list decodes to itself. -/
def DeserializeOutputs : Option TXOutputs → Option TXOutputs
  | some outs => some outs
  | none => none

/-- The inner loop of `UTXOSet.FindSpendableOutputs` over the outputs stored under one
key, on the pair `(accumulated, unspentOutputs)`. -/
def spendableOuts (pubkeyHash : Bytes) (amount : Int) (txID : Bytes) :
    Int × GoMap (List Int) → List (Nat × TXOutput) → Int × GoMap (List Int)
  | st, [] => st
  | st, (outIdx, out) :: rest =>
    if IsLockedWithKey out pubkeyHash && decide (st.1 < amount) then
      spendableOuts pubkeyHash amount txID
        (wrapInt64 (st.1 + out.Value),
          mapInsert st.2 txID ((mapLookup st.2 txID).getD [] ++ [(outIdx : Int)])) rest
    else spendableOuts pubkeyHash amount txID st rest

/-- The cursor loop of `UTXOSet.FindSpendableOutputs`. -/
def spendableScan (pubkeyHash : Bytes) (amount : Int) :
    Int × GoMap (List Int) → List (Bytes × TXOutputs) → Int × GoMap (List Int)
  | st, [] => st
  | st, (k, v) :: rest =>
    spendableScan pubkeyHash amount (spendableOuts pubkeyHash amount k st v.Outputs.enum) rest

/-- The method `UTXOSet.FindSpendableOutputs`; a missing bucket is a nil dereference. -/
def UTXOSet.FindSpendableOutputs (bc : Blockchain) (pubkeyHash : Bytes) (amount : Int) :
    Option (Int × GoMap (List Int)) :=
  match bc.db.chainstate with
  | none => none
  | some b => some (spendableScan pubkeyHash amount (0, []) b)

/-- The method `UTXOSet.FindUTXO`. -/
def UTXOSet.FindUTXO (bc : Blockchain) (pubKeyHash : Bytes) : Option (List TXOutput) :=
  match bc.db.chainstate with
  | none => none
  | some b =>
    some ((b.map (fun kv => kv.2.Outputs.filter (fun out => IsLockedWithKey out pubKeyHash))).flatten)

/-- The method `UTXOSet.CountTransactions`. -/
def UTXOSet.CountTransactions (bc : Blockchain) : Option Int :=
  match bc.db.chainstate with
  | none => none
  | some b => some (b.length : Int)

/-- The second transaction of `UTXOSet.Reindex`: every entry of the map is written to
the bucket.  Go ranges over the map in an unspecified order; the keys being distinct,
the bucket obtained does not depend on it. -/
def reindexFill : Bucket TXOutputs → List (Bytes × TXOutputs) → Option (Bucket TXOutputs)
  | b, [] => some b
  | b, (txID, outs) :: rest =>
    match bucketPut b txID outs with
    | none => none
    | some b => reindexFill b rest

/-- The method `UTXOSet.Reindex`: the bucket is dropped and created anew, the chain is
replayed by `Blockchain.FindUTXO`, and the result is written to the bucket. -/
def UTXOSet.Reindex (fuel : Nat) (bc : Blockchain) : Option Blockchain :=
  let bc : Blockchain := { bc with db := { bc.db with chainstate := some [] } }
  match Blockchain.FindUTXO fuel bc with
  | none => none
  | some UTXO =>
    match reindexFill [] UTXO with
    | none => none
    | some b => some { bc with db := { bc.db with chainstate := some b } }

/-- The body of the input loop of `UTXOSet.Update` for one input. -/
def updateInput (b : Bucket TXOutputs) (vin : TXInput) : Option (Bucket TXOutputs) :=
  match DeserializeOutputs (bucketGet b vin.Txid) with
  | none => none
  | some outs =>
    let updatedOuts : List TXOutput :=
      (outs.Outputs.enum.filter (fun p => decide ((p.1 : Int) ≠ vin.Vout))).map (fun p => p.2)
    if updatedOuts.length = 0 then some (bucketDelete b vin.Txid)
    else bucketPut b vin.Txid ⟨updatedOuts⟩

/-- The input loop of `UTXOSet.Update` for one transaction. -/
def updateInputs : Bucket TXOutputs → List TXInput → Option (Bucket TXOutputs)
  | b, [] => some b
  | b, vin :: rest =>
    match updateInput b vin with
    | none => none
    | some b => updateInputs b rest

/-- The body of the transaction loop of `UTXOSet.Update`. -/
def updateTx (b : Bucket TXOutputs) (tx : Transaction) : Option (Bucket TXOutputs) :=
  match (if IsCoinbase tx = false then updateInputs b tx.Vin else some b) with
  | none => none
  | some b => bucketPut b (tx.ID.getD []) ⟨tx.Vout⟩

/-- The transaction loop of `UTXOSet.Update`. -/
def updateTxs : Bucket TXOutputs → List Transaction → Option (Bucket TXOutputs)
  | b, [] => some b
  | b, tx :: rest =>
    match updateTx b tx with
    | none => none
    | some b => updateTxs b rest

/-- The method `UTXOSet.Update`; a missing bucket is a nil dereference. -/
def UTXOSet.Update (bc : Blockchain) (block : Block) : Option Blockchain :=
  match bc.db.chainstate with
  | none => none
  | some b =>
    match updateTxs b block.Transactions with
    | none => none
    | some b => some { bc with db := { bc.db with chainstate := some b } }

/-! ## Notions the properties are stated with -/

/-- The transactions of a chain in the order the walk from the tip visits them: block
after block from the tip to genesis, each block's transactions in block order. -/
def chainTxs (chain : List Block) : List Transaction :=
  (chain.map (fun b => b.Transactions)).flatten

/-- Whether the pair `(id, pos)` is referenced by an input of a non-coinbase
transaction of `txs`. -/
def referencedIn (txs : List Transaction) (id : Bytes) (pos : Int) : Bool :=
  txs.any (fun tx =>
    !IsCoinbase tx && tx.Vin.any (fun vin => decide (vin.Txid = id ∧ vin.Vout = pos)))

/-- The outputs of `tx`, in order, whose `(id, position)` pair is not referenced by an
input of a non-coinbase transaction of `txs`. -/
def unreferencedOutputs (txs : List Transaction) (tx : Transaction) : List TXOutput :=
  (tx.Vout.enum.filter (fun p => !referencedIn txs (tx.ID.getD []) (p.1 : Int))).map
    (fun p => p.2)

/-- The entry a map holds for a list of outputs: no key for the empty list. -/
def entryOf (outs : List TXOutput) : Option TXOutputs :=
  if outs = [] then none else some ⟨outs⟩

/-- What the walk leaves under the key `k`: for each transaction with id `k`, in visit
order, its outputs not referenced by the transactions visited before it (`before` being
those visited before the first of `txs`). -/
def unspentAtVisit (before : List Transaction) : List Transaction → Bytes → List TXOutput
  | [], _ => []
  | tx :: rest, k =>
    (if tx.ID.getD [] = k then unreferencedOutputs before tx else [])
      ++ unspentAtVisit (before ++ [tx]) rest k

/-- SHA-256 taken as collision-free: distinct inputs have distinct digests, and every
digest has 32 bytes. -/
def CollisionFree (env : Env) : Prop :=
  (∀ a b, env.sha256 a = env.sha256 b → a = b) ∧ ∀ a, (env.sha256 a).length = 32

/-- The root digest `NewMerkleTree` computes for `data`, if it computes one. -/
def merkleRoot (env : Env) (data : List Bytes) : Option Bytes :=
  (NewMerkleTree env data).map (fun t => t.RootNode.Data)

/-! ## A concrete environment and a concrete ledger

Small stand-ins for the library functions, on which the definitions above can be
evaluated, and a ledger built with them through `CreateBlockchain`, `Reindex`,
`SignTransaction`, `MineBlock` and `Update`. -/

/-- One byte for an integer. -/
def demoInt (i : Int) : Bytes := [(i % 256).toNat]

/-- A flat rendering of a transaction. -/
def demoTxBytes (tx : Transaction) : Bytes :=
  tx.ID.getD []
    ++ (tx.Vin.map (fun i => i.Txid ++ demoInt i.Vout ++ i.Signature ++ i.PubKey)).flatten
    ++ (tx.Vout.map (fun o => demoInt o.Value ++ o.PubKeyHash)).flatten

/-- A two-byte checksum standing for SHA-256. -/
def demoSha (b : Bytes) : Bytes :=
  let h := b.foldl (fun acc x => (acc * 31 + x + 7) % 65521) 1
  [h / 256 % 256, h % 256]

/-- A signature scheme standing for ECDSA: `r` is the random draw, `s` binds the public
point, the message and `r`. -/
def demoSign (k : PrivateKey) (rnd : Nat) (msg : Bytes) : Nat × Nat :=
  (rnd, (k.X + k.Y + SetBytes (demoSha msg) + rnd) % 251 + 1)

/-- Verification for `demoSign`. -/
def demoVerify (x y : Nat) (msg : Bytes) (r s : Nat) : Bool :=
  decide (s = (x + y + SetBytes (demoSha msg) + r) % 251 + 1)

/-- The concrete environment. -/
def demoEnv : Env :=
  { sha256 := demoSha
    gobTx := demoTxBytes
    sprintfTx := demoTxBytes
    HashPubKey := demoSha
    addressKeyHash := fun a => a
    ecdsaSign := demoSign
    ecdsaVerify := demoVerify }

/-- Three key pairs. -/
def aliceKey : PrivateKey := ⟨11, 12, 1⟩

/-- The second key pair. -/
def bobKey : PrivateKey := ⟨21, 22, 2⟩

/-- The third key pair. -/
def carolKey : PrivateKey := ⟨31, 32, 3⟩

/-- The public key bytes of a wallet: the two coordinates, one after the other. -/
def pubKeyBytes (k : PrivateKey) : Bytes := natBytes k.X ++ natBytes k.Y

/-- The public key hash of a key pair, which is also its address in `demoEnv`. -/
def keyHashOf (k : PrivateKey) : Bytes := demoEnv.HashPubKey (pubKeyBytes k)

/-- Sets `ID` to the transaction's hash, as the constructors of transactions do. -/
def withHash (tx : Transaction) : Transaction := { tx with ID := some (Hash demoEnv tx) }

/-- `MineBlock` followed by `Update` on the block it returned.  `Update` reads the
transactions of the block only, so that what the `PrevBlockHash` of the returned block
reads does not matter; it is taken to be empty here. -/
def mineAndUpdate (now : Int) (bc : Blockchain) (txs : List Transaction) : Option Blockchain :=
  match MineBlock demoEnv 10 now bc txs [] with
  | none => none
  | some (bc, blk) => UTXOSet.Update bc blk

/-- The id of the genesis coinbase transaction paying Alice. -/
def genesisTxID : Bytes :=
  (NewCoinbaseTX demoEnv (keyHashOf aliceKey) genesisCoinbaseData []).ID.getD []

/-- The genesis ledger, its UTXO index built by `Reindex`. -/
def ledger0 : Option Blockchain :=
  (CreateBlockchain demoEnv 1000 false (keyHashOf aliceKey)).bind (UTXOSet.Reindex 10)

/-- Alice spends the genesis output: 4 to Bob (position 0), 6 back to herself
(position 1).  Unsigned. -/
def payBobRaw : Transaction :=
  withHash ⟨none, [⟨genesisTxID, 0, [], pubKeyBytes aliceKey⟩],
    [⟨4, keyHashOf bobKey⟩, ⟨6, keyHashOf aliceKey⟩]⟩

/-- The id of `payBobRaw`. -/
def payBobID : Bytes := payBobRaw.ID.getD []

/-- The transaction `payBobRaw` signed by Alice. -/
def payBob : Option Transaction :=
  ledger0.bind (fun bc => SignTransaction demoEnv 10 bc aliceKey (fun _ => 5) payBobRaw)

/-- The ledger after the first mined block. -/
def ledger1 : Option Blockchain :=
  ledger0.bind (fun bc => payBob.bind (fun t => mineAndUpdate 1001 bc [t]))

/-- Bob spends his output, position 0 of `payBob`: 4 to Carol.  Unsigned. -/
def bobPaysRaw : Transaction :=
  withHash ⟨none, [⟨payBobID, 0, [], pubKeyBytes bobKey⟩], [⟨4, keyHashOf carolKey⟩]⟩

/-- The transaction `bobPaysRaw` signed by Bob. -/
def bobPays : Option Transaction :=
  ledger1.bind (fun bc => SignTransaction demoEnv 10 bc bobKey (fun _ => 5) bobPaysRaw)

/-- The ledger after the second mined block. -/
def ledger2 : Option Blockchain :=
  ledger1.bind (fun bc => bobPays.bind (fun t => mineAndUpdate 1002 bc [t]))

/-- Alice spends her change, position 1 of `payBob`: 6 to Carol.  Unsigned. -/
def alicePaysRaw : Transaction :=
  withHash ⟨none, [⟨payBobID, 1, [], pubKeyBytes aliceKey⟩], [⟨6, keyHashOf carolKey⟩]⟩

/-- The transaction `alicePaysRaw` signed by Alice. -/
def alicePays : Option Transaction :=
  ledger2.bind (fun bc => SignTransaction demoEnv 10 bc aliceKey (fun _ => 5) alicePaysRaw)

/-- The ledger after the third mined block. -/
def ledger3 : Option Blockchain :=
  ledger2.bind (fun bc => alicePays.bind (fun t => mineAndUpdate 1003 bc [t]))

/-- Carol claims Alice's change, position 1 of `payBob`, with her own public key in the
input.  Unsigned. -/
def carolTakesRaw : Transaction :=
  withHash ⟨none, [⟨payBobID, 1, [], pubKeyBytes carolKey⟩], [⟨6, keyHashOf carolKey⟩]⟩

/-- The transaction `carolTakesRaw` signed by Carol with her own private key. -/
def carolTakes : Option Transaction :=
  ledger2.bind (fun bc => SignTransaction demoEnv 10 bc carolKey (fun _ => 5) carolTakesRaw)

/-- The transaction `payBobRaw` signed by Alice when `ecdsa.Sign` draws 256, so that
`r` has two bytes and `s` one. -/
def payBobLongR : Option Transaction :=
  ledger0.bind (fun bc => SignTransaction demoEnv 10 bc aliceKey (fun _ => 256) payBobRaw)

/-- A ledger holding, above genesis, one block in which the second transaction spends
an output of the first; the block is handed to `AddBlock`. -/
def sameBlockLedger : Option Blockchain :=
  (CreateBlockchain demoEnv 1000 false (keyHashOf aliceKey)).bind (fun bc =>
    (NewBlock demoEnv 1001 [payBobRaw, bobPaysRaw] bc.tip 1).bind (AddBlock bc))

/-- The ledger with no block, the value of a ledger that failed to build. -/
def emptyLedger : Blockchain := ⟨[], ⟨[], none⟩⟩

/-- The ledger `sameBlockLedger` as a state. -/
def sameBlockState : Blockchain := sameBlockLedger.getD emptyLedger

/-- The blocks of `sameBlockState` from the tip to genesis. -/
def sameBlockChain : List Block :=
  (iterBlocks sameBlockState.db 10 sameBlockState.tip).getD []

/-- The genesis ledger as a state. -/
def genesisState : Blockchain :=
  (CreateBlockchain demoEnv 1000 false (keyHashOf aliceKey)).getD emptyLedger

/-- The genesis block of `genesisState`. -/
def genesisBlock : Block :=
  ((NewGenesisBlock demoEnv 1000
    (NewCoinbaseTX demoEnv (keyHashOf aliceKey) genesisCoinbaseData [])).getD ⟨0, [], [], [], 0, 0⟩)

/-- A block of height 1 above genesis, with no transaction and the hash `[9, 9]`. -/
def higherBlock : Block := ⟨1001, [], genesisBlock.Hash, [9, 9], 0, 1⟩

/-- The genesis coinbase transaction of the concrete ledger. -/
def genesisTx : Transaction :=
  NewCoinbaseTX demoEnv (keyHashOf aliceKey) genesisCoinbaseData []

/-- The map of previous transactions for a transaction that spends the genesis output. -/
def genesisPrevTXs : GoMap Transaction := [(genesisTxID, genesisTx)]

/-- The signature `Sign` stores for the input `p` of the trimmed copy `T`. -/
def storedSignature (env : Env) (privKey : PrivateKey) (prevTXs : GoMap Transaction)
    (rand : Nat → Nat) (T : Transaction) (p : Nat × TXInput) : Bytes :=
  match indexInt (prevTxOf prevTXs p.2.Txid).Vout p.2.Vout with
  | none => []
  | some out =>
    let rs := env.ecdsaSign privKey (rand p.1)
      (env.sprintfTx (setPubKey (setSignature T p.1 []) p.1 out.PubKeyHash))
    natBytes rs.1 ++ natBytes rs.2

/-- The stored bytes of a signature `(r, s)` split at their midpoint give `(r, s)` back. -/
def SplitsBack (rs : Nat × Nat) : Prop :=
  SetBytes ((natBytes rs.1 ++ natBytes rs.2).take ((natBytes rs.1 ++ natBytes rs.2).length / 2))
      = rs.1 ∧
    SetBytes ((natBytes rs.1 ++ natBytes rs.2).drop ((natBytes rs.1 ++ natBytes rs.2).length / 2))
      = rs.2

/-- Whether a signature splits back is decided by evaluating both sides. -/
instance instDecidableSplitsBack (rs : Nat × Nat) : Decidable (SplitsBack rs) := by
  unfold SplitsBack
  exact inferInstance

/-- The input with its signature and public key cleared, as `TrimmedCopy` makes it. -/
def trimInput (vin : TXInput) : TXInput := ⟨vin.Txid, vin.Vout, [], []⟩

/-- The ledger `ledger2` as a state. -/
def ledger2State : Blockchain := ledger2.getD emptyLedger

/-- The keys of a Go map. -/
def mapKeys {α : Type} (m : GoMap α) : List Bytes := m.map Prod.fst

/-- SHA-256 digests are not short: every digest has at least two bytes (it has 32), so
that a digest is neither empty nor the one-byte key `l`. -/
def DigestsLong (env : Env) : Prop := ∀ x, 2 ≤ (env.sha256 x).length

/-- SHA-256 digests are keys the store accepts: no digest is longer than `MaxKeySize`
(it has 32 bytes). -/
def DigestsFit (env : Env) : Prop := ∀ x, (env.sha256 x).length ≤ MaxKeySize

/-- The blocks reachable from the hash `tip` in a block store, each with the key it is
stored under: the block stored under `tip`, and the block stored under the non-empty
`PrevBlockHash` of a reachable block. -/
inductive Reachable (blocks : Bucket BlockValue) (tip : Bytes) : Bytes → Block → Prop
  | tip (b : Block) : bucketGet blocks tip = some (.block b) → Reachable blocks tip tip b
  | prev (k : Bytes) (b b' : Block) : Reachable blocks tip k b →
      b.PrevBlockHash.length ≠ 0 → bucketGet blocks b.PrevBlockHash = some (.block b') →
      Reachable blocks tip b.PrevBlockHash b'

/-- The link invariant of a block store from the hash `tip`: every block reachable from
`tip`, other than one with an empty `PrevBlockHash`, has a `PrevBlockHash` equal to the
hash of a block present in the store. -/
def LinkInvAt (blocks : Bucket BlockValue) (tip : Bytes) : Prop :=
  ∀ k b, Reachable blocks tip k b → b.PrevBlockHash.length ≠ 0 →
    ∃ b', bucketGet blocks b.PrevBlockHash = some (.block b') ∧ b'.Hash = b.PrevBlockHash

/-- The link invariant of a ledger, from its in-memory tip. -/
def LinkInv (bc : Blockchain) : Prop := LinkInvAt bc.db.blocks bc.tip

/-- Every stored block is stored under its own `Hash`. -/
def KeyIsHash (blocks : Bucket BlockValue) : Prop :=
  ∀ k b, bucketGet blocks k = some (.block b) → b.Hash = k

/-- The ledger invariant: the key `l` holds the in-memory tip, the tip names a stored
block, every stored block is stored under its own hash, and the link invariant holds. -/
def LedgerInv (bc : Blockchain) : Prop :=
  bucketGet bc.db.blocks lastKey = some (.hash bc.tip) ∧
    (∃ tb, bucketGet bc.db.blocks bc.tip = some (.block tb)) ∧
    KeyIsHash bc.db.blocks ∧ LinkInv bc

/-- A block of height 1 whose `PrevBlockHash` names no stored block. -/
def danglingBlock : Block := ⟨1001, [], [7, 7], [9, 9], 0, 1⟩

/-- The genesis ledger after `AddBlock` of `danglingBlock`. -/
def danglingState : Blockchain := (AddBlock genesisState danglingBlock).getD emptyLedger

/-- The genesis ledger after `AddBlock` of `higherBlock`. -/
def higherState : Blockchain := (AddBlock genesisState higherBlock).getD emptyLedger

/-! ## Walking and extending the chain -/

/-- The method `Blockchain.GetBestHeight`. -/
def GetBestHeight (bc : Blockchain) : Option Int :=
  match tipBlock bc.db.blocks with
  | none => none
  | some (_, lastBlock) => some lastBlock.Height

/-- The method `Blockchain.GetBlock`: `some none` is the error `Block is not found.` -/
def GetBlock (bc : Blockchain) (blockHash : Bytes) : Option (Option Block) :=
  match bucketGet bc.db.blocks blockHash with
  | none => some none
  | some v =>
    match DeserializeBlock (some v) with
    | none => none
    | some block => some (some block)

/-- The loop of `Blockchain.GetBlockHashes` from the iterator position `currentHash`,
with the hashes collected so far. -/
def GetBlockHashesLoop (db : DB) : Nat → Bytes → List Bytes → Option (List Bytes)
  | 0, _, _ => none
  | fuel + 1, currentHash, blocks =>
    match Next db currentHash with
    | none => none
    | some (block, prev) =>
      let blocks := blocks ++ [block.Hash]
      if block.PrevBlockHash.length = 0 then some blocks
      else GetBlockHashesLoop db fuel prev blocks

/-- The method `Blockchain.GetBlockHashes`. -/
def GetBlockHashes (fuel : Nat) (bc : Blockchain) : Option (List Bytes) :=
  GetBlockHashesLoop bc.db fuel bc.tip []

/-- A block of the largest height an `int` holds, above genesis. -/
def maxHeightBlock : Block := ⟨1001, [], genesisBlock.Hash, [9, 9], 0, 9223372036854775807⟩

/-- A transaction without inputs and with a nil `ID` that pays 5 to Carol. -/
def nilIdTx : Transaction := ⟨none, [], [⟨5, keyHashOf carolKey⟩]⟩

/-- The genesis ledger after `MineBlock` of `nilIdTx`. -/
def nilIdState : Blockchain :=
  ((MineBlock demoEnv 10 1001 genesisState [nilIdTx] []).map (fun r => r.1)).getD emptyLedger

/-- A block with an empty `Hash`, of height 1, above genesis. -/
def emptyHashBlock : Block := ⟨1001, [], genesisBlock.Hash, [], 0, 1⟩

/-- The genesis ledger after `AddBlock` of `maxHeightBlock`. -/
def maxHeightState : Blockchain := (AddBlock genesisState maxHeightBlock).getD emptyLedger

/-- `MineBlock` called once for each element of `calls` (the time and the transactions
of the call), in order: the final ledger and the blocks the calls stored, the newest
first, followed by `made`.  The ledger after a call does not depend on what the
`PrevBlockHash` of the returned block reads, and the stored block is the returned one
but for that field. -/
def mineAll (env : Env) (fuel : Nat) :
    Blockchain → List Block → List (Int × List Transaction) → Option (Blockchain × List Block)
  | bc, made, [] => some (bc, made)
  | bc, made, (now, txs) :: rest =>
    match MineBlock.stored env fuel now bc txs with
    | none => none
    | some (bc', blk) => mineAll env fuel bc' (blk :: made) rest

/-- The list `chain` is what a walk of the store from the hash `h` finds: each block is
stored under its own hash, links to the next by `PrevBlockHash`, and only the last
has an empty `PrevBlockHash`. -/
def IsChain (blocks : Bucket BlockValue) : Bytes → List Block → Prop
  | _, [] => False
  | h, [b] => bucketGet blocks h = some (.block b) ∧ b.Hash = h ∧ b.PrevBlockHash.length = 0
  | h, b :: c :: rest =>
    bucketGet blocks h = some (.block b) ∧ b.Hash = h ∧ b.PrevBlockHash.length ≠ 0 ∧
      IsChain blocks b.PrevBlockHash (c :: rest)

/-- The heights `n, n - 1, ..., 0`. -/
def heightsDown : Nat → List Int
  | 0 => [0]
  | n + 1 => ((n + 1 : Nat) : Int) :: heightsDown n

/-- The state of a ledger whose walk from the tip is `chain`, with heights
`m, m - 1, ..., 0`: the key `l` holds the tip, and the hashes are digests. -/
def ChainState (bc : Blockchain) (chain : List Block) (m : Nat) : Prop :=
  bucketGet bc.db.blocks lastKey = some (.hash bc.tip) ∧ IsChain bc.db.blocks bc.tip chain ∧
    (∀ b ∈ chain, 2 ≤ b.Hash.length) ∧ chain.map (fun b => b.Height) = heightsDown m ∧
    chain.length = m + 1

/-- Three calls of `MineBlock`, each with one coinbase transaction. -/
def threeCalls : List (Int × List Transaction) :=
  [(1001, [genesisTx]), (1002, [genesisTx]), (1003, [genesisTx])]

/-- The genesis ledger after `threeCalls`, and the blocks mined. -/
def threeMined : Blockchain × List Block :=
  (mineAll demoEnv 10 genesisState [] threeCalls).getD (emptyLedger, [])



/-! ## Notions for the selection of spendable outputs -/

/-- The outputs of a UTXO bucket in the order `FindSpendableOutputs` scans them: the
keys in cursor order, under each key the stored list in order; each output with its key
and its position in the stored list. -/
def scanOutputs (b : Bucket TXOutputs) : List (Bytes × Nat × TXOutput) :=
  (b.map (fun kv => kv.2.Outputs.enum.map (fun p => (kv.1, p.1, p.2)))).flatten

/-- The sum of the values of a list of scanned outputs, as a mathematical integer. -/
def totalValue (es : List (Bytes × Nat × TXOutput)) : Int :=
  (es.map (fun e => e.2.2.Value)).sum

/-- The selection in the words of the specification: the outputs are taken in scan
order, and an output is selected when it is locked to `keyHash` and the running total
`acc`, the sum of the values selected before it, is still below `amount`. -/
def selectWhileBelow (keyHash : Bytes) (amount : Int) :
    Int → List (Bytes × Nat × TXOutput) → List (Bytes × Nat × TXOutput)
  | _, [] => []
  | acc, e :: rest =>
    if IsLockedWithKey e.2.2 keyHash && decide (acc < amount) then
      e :: selectWhileBelow keyHash amount (acc + e.2.2.Value) rest
    else selectWhileBelow keyHash amount acc rest

/-- The positions of the outputs of `es` that stand under the key `k`, in order. -/
def positionsAt (es : List (Bytes × Nat × TXOutput)) (k : Bytes) : List Int :=
  (es.filter (fun e => decide (e.1 = k))).map (fun e => (e.2.1 : Int))

/-- The map `unspentOutputs` that lists the selection `es`: a key is present when an
output under it was selected, with the positions selected under it. -/
def selectionAt (es : List (Bytes × Nat × TXOutput)) (k : Bytes) : Option (List Int) :=
  if positionsAt es k = [] then none else some (positionsAt es k)

/-- The pair `(accumulated, unspentOutputs)` stands for the selection `es`. -/
def Tracks (st : Int × GoMap (List Int)) (es : List (Bytes × Nat × TXOutput)) : Prop :=
  st.1 = totalValue es ∧ ∀ k, mapLookup st.2 k = selectionAt es k

/-- An index with two outputs of `2^62` each, locked to Alice. -/
def overflowIndex : Bucket TXOutputs :=
  [([1], ⟨[⟨4611686018427387904, keyHashOf aliceKey⟩, ⟨4611686018427387904, keyHashOf aliceKey⟩]⟩)]

/-- A ledger state with the index `overflowIndex`. -/
def overflowState : Blockchain := ⟨[], ⟨[], some overflowIndex⟩⟩

/-! ## `NewUTXOTransaction` -/

/-- Modelled from the spec: the struct `Wallet` (its declaring file is not among the
sources), as far as `NewUTXOTransaction` reads it: the private key, the public key
bytes, and the address that the method `GetAddress` returns. -/
structure Wallet where
  PrivateKey : PrivateKey
  PublicKey : Bytes
  GetAddress : Bytes
deriving DecidableEq, Repr

/-- The input loop of `NewUTXOTransaction`: one input for each position listed in
`validOutputs`, with a nil signature and the wallet's public key.  Go ranges over the
map in an unspecified order; the order of insertion is taken here.  The outputs of the
transaction do not depend on it. -/
def utxoInputs (pubKey : Bytes) (validOutputs : GoMap (List Int)) : List TXInput :=
  (validOutputs.map (fun kv => kv.2.map (fun out => (⟨kv.1, out, [], pubKey⟩ : TXInput)))).flatten

/-- The function `NewUTXOTransaction(wallet, to, amount, UTXOSet)`: `none` is an abort,
`Not enough funds` or one of `SignTransaction`; `rand` is the randomness of the
signatures. -/
def NewUTXOTransaction (env : Env) (fuel : Nat) (rand : Nat → Nat) (wallet : Wallet)
    (toAddr : Bytes) (amount : Int) (bc : Blockchain) : Option Transaction :=
  let pubKeyHash := env.HashPubKey wallet.PublicKey
  match UTXOSet.FindSpendableOutputs bc pubKeyHash amount with
  | none => none
  | some (acc, validOutputs) =>
    if acc < amount then none
    else
      let inputs := utxoInputs wallet.PublicKey validOutputs
      let fromAddr := wallet.GetAddress
      let outputs := [NewTXOutput env amount toAddr] ++
        (if acc > amount then [NewTXOutput env (wrapInt64 (acc - amount)) fromAddr] else [])
      let tx : Transaction := ⟨none, inputs, outputs⟩
      let tx := { tx with ID := some (Hash env tx) }
      SignTransaction env fuel bc wallet.PrivateKey rand tx

/-- The ledger `ledger0` as a state: genesis pays 10 to Alice, and the index holds
that output. -/
def ledger0State : Blockchain := ledger0.getD emptyLedger

/-- The wallet of Alice. -/
def aliceWallet : Wallet := ⟨aliceKey, pubKeyBytes aliceKey, keyHashOf aliceKey⟩

/-- The genesis ledger with an index that holds an output of 10 locked to Alice under
a key that is the id of no transaction on the chain. -/
def strayIndexState : Blockchain :=
  ⟨genesisState.tip, ⟨genesisState.db.blocks, some [([1], ⟨[⟨10, keyHashOf aliceKey⟩]⟩)]⟩⟩

/-! ## The gob encoding of transactions and blocks

`Serialize` and the `Deserialize` functions hand the value to the library
`encoding/gob`, whose documentation says of struct fields: "If a field has the zero
value for its type (except for arrays), it is omitted from the transmission."  The
encoder takes a slice of length 0 for zero, nil or not.  The decoder is given the zero
value of the struct (`var transaction Transaction`, `var block Block`) and assigns the
fields that were sent.

The model of this section tells a nil slice (`none`) from an empty one (`some []`),
which the rest of the development does not need to do.  What is transmitted is kept as
a tree rather than as bytes: a struct is the sequence of the fields sent, each with its
field number. -/

/-- What gob transmits for a field: an integer, a byte slice, or a slice of structs,
each element in its transmitted form `σ`. -/
inductive Gob.Value (σ : Type) where
  | int (i : Int)
  | bytes (b : Bytes)
  | elems (l : List σ)

/-- What gob transmits for a struct: the fields sent, each with its field number. -/
abbrev Gob.Struct (σ : Type) := List (Nat × Gob.Value σ)

/-- An integer field: sent unless it is 0. -/
def Gob.sendInt {σ : Type} (field : Nat) (i : Int) : Gob.Struct σ :=
  if i = 0 then [] else [(field, .int i)]

/-- A `[]byte` field: sent unless its length is 0. -/
def Gob.sendBytes {σ : Type} (field : Nat) (b : Option Bytes) : Gob.Struct σ :=
  match b with
  | none => []
  | some x => if x.length = 0 then [] else [(field, .bytes x)]

/-- A field that is a slice of structs: sent unless its length is 0, every element in
the form `enc` gives it. -/
def Gob.sendSlice {α σ : Type} (enc : α → σ) (field : Nat) (l : Option (List α)) :
    Gob.Struct σ :=
  match l with
  | none => []
  | some x => if x.length = 0 then [] else [(field, .elems (x.map enc))]

/-- The decoder on the fields of a struct: each field sent is assigned by `set`, in
order; `none` is a decoding error. -/
def Gob.decodeFields {α σ : Type} (set : α → Nat × Gob.Value σ → Option α) :
    α → Gob.Struct σ → Option α
  | v, [] => some v
  | v, f :: rest =>
    match set v f with
    | none => none
    | some v' => Gob.decodeFields set v' rest

/-- The decoder on the elements of a slice, in order. -/
def Gob.decodeAll {α σ : Type} (dec : σ → Option α) : List σ → Option (List α)
  | [] => some []
  | x :: rest =>
    match dec x with
    | none => none
    | some v =>
      match Gob.decodeAll dec rest with
      | none => none
      | some vs => some (v :: vs)

/-- The struct `TXInput` as a Go value: `none` is a nil slice. -/
structure Gob.TXInput where
  Txid : Option Bytes
  Vout : Int
  Signature : Option Bytes
  PubKey : Option Bytes
deriving DecidableEq, Repr

/-- Modelled from the spec: the struct `TXOutput` (its declaring file is not among the
sources) as a Go value. -/
structure Gob.TXOutput where
  Value : Int
  PubKeyHash : Option Bytes
deriving DecidableEq, Repr

/-- The struct `Transaction` as a Go value. -/
structure Gob.Transaction where
  ID : Option Bytes
  Vin : Option (List Gob.TXInput)
  Vout : Option (List Gob.TXOutput)
deriving DecidableEq, Repr

/-- The struct `Block` as a Go value; the elements of `Transactions` are the
transactions pointed to (gob refuses a nil pointer in a slice). -/
structure Gob.Block where
  Timestamp : Int
  Transactions : Option (List Gob.Transaction)
  PrevBlockHash : Option Bytes
  Hash : Option Bytes
  Nonce : Int
  Height : Int
deriving DecidableEq, Repr

/-- What gob transmits for a `TXInput`. -/
def Gob.TXInput.encode (v : Gob.TXInput) : Gob.Struct Empty :=
  Gob.sendBytes 0 v.Txid ++ Gob.sendInt 1 v.Vout ++ Gob.sendBytes 2 v.Signature
    ++ Gob.sendBytes 3 v.PubKey

/-- The assignment of one transmitted field to a `TXInput`. -/
def Gob.TXInput.assign (v : Gob.TXInput) : Nat × Gob.Value Empty → Option Gob.TXInput
  | (0, .bytes b) => some { v with Txid := some b }
  | (1, .int i) => some { v with Vout := i }
  | (2, .bytes b) => some { v with Signature := some b }
  | (3, .bytes b) => some { v with PubKey := some b }
  | _ => none

/-- The decoder for a `TXInput`, into the zero value. -/
def Gob.TXInput.decode (w : Gob.Struct Empty) : Option Gob.TXInput :=
  Gob.decodeFields Gob.TXInput.assign ⟨none, 0, none, none⟩ w

/-- What gob transmits for a `TXOutput`. -/
def Gob.TXOutput.encode (v : Gob.TXOutput) : Gob.Struct Empty :=
  Gob.sendInt 0 v.Value ++ Gob.sendBytes 1 v.PubKeyHash

/-- The assignment of one transmitted field to a `TXOutput`. -/
def Gob.TXOutput.assign (v : Gob.TXOutput) : Nat × Gob.Value Empty → Option Gob.TXOutput
  | (0, .int i) => some { v with Value := i }
  | (1, .bytes b) => some { v with PubKeyHash := some b }
  | _ => none

/-- The decoder for a `TXOutput`, into the zero value. -/
def Gob.TXOutput.decode (w : Gob.Struct Empty) : Option Gob.TXOutput :=
  Gob.decodeFields Gob.TXOutput.assign ⟨0, none⟩ w

/-- What gob transmits for a `Transaction`. -/
def Gob.Transaction.encode (tx : Gob.Transaction) : Gob.Struct (Gob.Struct Empty) :=
  Gob.sendBytes 0 tx.ID ++ Gob.sendSlice Gob.TXInput.encode 1 tx.Vin
    ++ Gob.sendSlice Gob.TXOutput.encode 2 tx.Vout

/-- The assignment of one transmitted field to a `Transaction`. -/
def Gob.Transaction.assign (tx : Gob.Transaction) :
    Nat × Gob.Value (Gob.Struct Empty) → Option Gob.Transaction
  | (0, .bytes b) => some { tx with ID := some b }
  | (1, .elems l) =>
    (Gob.decodeAll Gob.TXInput.decode l).map (fun vin => { tx with Vin := some vin })
  | (2, .elems l) =>
    (Gob.decodeAll Gob.TXOutput.decode l).map (fun vout => { tx with Vout := some vout })
  | _ => none

/-- The decoder for a `Transaction`, into the zero value. -/
def Gob.Transaction.decode (w : Gob.Struct (Gob.Struct Empty)) : Option Gob.Transaction :=
  Gob.decodeFields Gob.Transaction.assign ⟨none, none, none⟩ w

/-- The method `Transaction.Serialize`: the gob encoding of the transaction. -/
def Gob.Transaction.Serialize (tx : Gob.Transaction) : Gob.Struct (Gob.Struct Empty) :=
  Gob.Transaction.encode tx

/-- The function `DeserializeTransaction`: `none` is the `log.Panic` on an error. -/
def Gob.DeserializeTransaction (data : Gob.Struct (Gob.Struct Empty)) :
    Option Gob.Transaction :=
  Gob.Transaction.decode data

/-- What gob transmits for a `Block`. -/
def Gob.Block.encode (b : Gob.Block) : Gob.Struct (Gob.Struct (Gob.Struct Empty)) :=
  Gob.sendInt 0 b.Timestamp ++ Gob.sendSlice Gob.Transaction.encode 1 b.Transactions
    ++ Gob.sendBytes 2 b.PrevBlockHash ++ Gob.sendBytes 3 b.Hash ++ Gob.sendInt 4 b.Nonce
    ++ Gob.sendInt 5 b.Height

/-- The assignment of one transmitted field to a `Block`. -/
def Gob.Block.assign (b : Gob.Block) :
    Nat × Gob.Value (Gob.Struct (Gob.Struct Empty)) → Option Gob.Block
  | (0, .int i) => some { b with Timestamp := i }
  | (1, .elems l) =>
    (Gob.decodeAll Gob.Transaction.decode l).map (fun txs => { b with Transactions := some txs })
  | (2, .bytes x) => some { b with PrevBlockHash := some x }
  | (3, .bytes x) => some { b with Hash := some x }
  | (4, .int i) => some { b with Nonce := i }
  | (5, .int i) => some { b with Height := i }
  | _ => none

/-- The decoder for a `Block`, into the zero value. -/
def Gob.Block.decode (w : Gob.Struct (Gob.Struct (Gob.Struct Empty))) : Option Gob.Block :=
  Gob.decodeFields Gob.Block.assign ⟨0, none, none, none, 0, 0⟩ w

/-- The method `Block.Serialize`: the gob encoding of the block. -/
def Gob.Block.Serialize (b : Gob.Block) : Gob.Struct (Gob.Struct (Gob.Struct Empty)) :=
  Gob.Block.encode b

/-- The function `DeserializeBlock`: `none` is the `log.Panic` on an error. -/
def Gob.DeserializeBlock (d : Gob.Struct (Gob.Struct (Gob.Struct Empty))) : Option Gob.Block :=
  Gob.Block.decode d

/-- A slice with the empty slice made nil. -/
def Gob.nilIfEmpty {α : Type} : Option (List α) → Option (List α)
  | none => none
  | some l => if l.length = 0 then none else some l

/-- A `TXInput` with every empty slice made nil. -/
def Gob.TXInput.norm (v : Gob.TXInput) : Gob.TXInput :=
  ⟨Gob.nilIfEmpty v.Txid, v.Vout, Gob.nilIfEmpty v.Signature, Gob.nilIfEmpty v.PubKey⟩

/-- A `TXOutput` with every empty slice made nil. -/
def Gob.TXOutput.norm (v : Gob.TXOutput) : Gob.TXOutput :=
  ⟨v.Value, Gob.nilIfEmpty v.PubKeyHash⟩

/-- A `Transaction` with every empty slice made nil, in its inputs and outputs too. -/
def Gob.Transaction.norm (tx : Gob.Transaction) : Gob.Transaction :=
  ⟨Gob.nilIfEmpty tx.ID, Gob.nilIfEmpty (tx.Vin.map (fun l => l.map Gob.TXInput.norm)),
    Gob.nilIfEmpty (tx.Vout.map (fun l => l.map Gob.TXOutput.norm))⟩

/-- A `Block` with every empty slice made nil, in its transactions too. -/
def Gob.Block.norm (b : Gob.Block) : Gob.Block :=
  ⟨b.Timestamp, Gob.nilIfEmpty (b.Transactions.map (fun l => l.map Gob.Transaction.norm)),
    Gob.nilIfEmpty b.PrevBlockHash, Gob.nilIfEmpty b.Hash, b.Nonce, b.Height⟩

/-- The transaction `NewCoinbaseTX` builds, as a Go value: the input
`TXInput{[]byte{}, -1, nil, []byte(data)}`, one output, and the id. -/
def Gob.coinbaseTx (id data keyHash : Bytes) : Gob.Transaction :=
  ⟨some id, some [⟨some [], -1, none, some data⟩], some [⟨10, some keyHash⟩]⟩

/-- A genesis block as `NewBlock` builds it, as a Go value: `PrevBlockHash` is
`[]byte{}`. -/
def Gob.genesisBlock : Gob.Block :=
  ⟨1000, some [Gob.coinbaseTx [1, 2] [7] [5, 5]], some [], some [3, 4], 6, 0⟩

/-! ## Environments for the nonce search -/

/-- An environment in which the digest of data ending in a byte below 3 is the largest
256-bit number and every other digest is the one byte the data ends in: the header
material ends in the low byte of the nonce, so the nonces 0, 1 and 2 miss the target and
the nonce 3 meets it. -/
def slowEnv : Env :=
  { demoEnv with
    sha256 := fun data =>
      if data.getLast?.getD 0 < 3 then List.replicate 32 255 else [data.getLast?.getD 0] }

/-- A block before the nonce search, as `NewBlock` hands it to `Run`: one coinbase
transaction, no parent. -/
def unminedBlock : Block := ⟨1000, [genesisTx], [], [], 0, 0⟩

/-! ## A ledger for the lookup of transactions -/

/-- The blocks of `ledger2State` from the tip to genesis. -/
def ledger2Chain : List Block := (iterBlocks ledger2State.db 10 ledger2State.tip).getD []

/-! ## Values for the claims on signatures, empty inputs and relabelled blocks -/

/-- A transaction without inputs that pays 1000 to Carol. -/
def freeMoneyTx : Transaction := withHash ⟨none, [], [⟨1000, keyHashOf carolKey⟩]⟩

/-- The genesis block with another stored hash and another height. -/
def relabelledBlock : Block := { genesisBlock with Hash := [0], Height := 7 }

/-! # Theorems -/

/-! ## Proof of work -/

/-- The header material depends on the block only through `PrevBlockHash`,
`Transactions` and `Timestamp`. -/
theorem prepareData_congr (env : Env) (b b' : Block) (nonce : Int)
    (h1 : b.PrevBlockHash = b'.PrevBlockHash) (h2 : b.Transactions = b'.Transactions)
    (h3 : b.Timestamp = b'.Timestamp) : prepareData env b nonce = prepareData env b' nonce := by
  simp [prepareData, HashTransactions, h1, h2, h3]

/-- A search that ends below `maxNonce` ended at the `break`: the digest returned is
the digest of the header material for the nonce returned, and it is below the target. -/
theorem RunLoop_found (env : Env) (b : Block) :
    ∀ (fuel nonce : Nat) (hash : Bytes) (n : Nat) (h : Bytes),
      maxNonce ≤ fuel + nonce → RunLoop env b fuel nonce hash = some (n, h) → n < maxNonce →
      ∃ data, prepareData env b (n : Int) = some data ∧ h = env.sha256 data ∧
        SetBytes h < target := by
  intro fuel
  induction fuel with
  | zero =>
    intro nonce hash n h hfuel hrun hn
    simp only [RunLoop, Option.some.injEq, Prod.mk.injEq] at hrun
    omega
  | succ fuel ih =>
    intro nonce hash n h hfuel hrun hn
    unfold RunLoop at hrun
    by_cases hlt : nonce < maxNonce
    · rw [if_pos hlt] at hrun
      cases hd : prepareData env b (nonce : Int) with
      | none => rw [hd] at hrun; simp at hrun
      | some data =>
        rw [hd] at hrun
        simp only at hrun
        by_cases ht : SetBytes (env.sha256 data) < target
        · rw [if_pos ht] at hrun
          simp only [Option.some.injEq, Prod.mk.injEq] at hrun
          obtain ⟨h1, h2⟩ := hrun
          subst h1
          subst h2
          exact ⟨data, hd, rfl, ht⟩
        · rw [if_neg ht] at hrun
          exact ih (nonce + 1) _ n h (by omega) hrun hn
    · rw [if_neg hlt] at hrun
      simp only [Option.some.injEq, Prod.mk.injEq] at hrun
      omega

/-- Claim C1: when the nonce search of `Run` ends below `maxNonce`, `NewBlock` produces a
block with the given transactions, parent hash and height, `Validate` returns true on it,
and the SHA-256 digest of the header material rebuilt from its stored `PrevBlockHash`,
`Transactions`, `Timestamp` and `Nonce` is its stored `Hash`. -/
theorem NewBlock_validates (env : Env) (now : Int) (transactions : List Transaction)
    (prevBlockHash : Bytes) (height : Int) (nonce : Nat) (hash : Bytes)
    (hrun : Run env ⟨now, transactions, prevBlockHash, [], 0, height⟩ = some (nonce, hash))
    (hlt : nonce < maxNonce) :
    ∃ b, NewBlock env now transactions prevBlockHash height = some b ∧
      b.Transactions = transactions ∧ b.PrevBlockHash = prevBlockHash ∧ b.Height = height ∧
      Validate env b = some true ∧
      ∃ data, prepareData env ⟨b.Timestamp, b.Transactions, b.PrevBlockHash, [], b.Nonce, 0⟩
          b.Nonce = some data ∧ env.sha256 data = b.Hash := by
  obtain ⟨data, hd, hh, ht⟩ :=
    RunLoop_found env _ maxNonce 0 _ nonce hash (by omega) hrun hlt
  refine ⟨⟨now, transactions, prevBlockHash, hash, (nonce : Int), height⟩, ?_, rfl, rfl, rfl, ?_, ?_⟩
  · simp [NewBlock, hrun]
  · have hd' : prepareData env ⟨now, transactions, prevBlockHash, hash, (nonce : Int), height⟩
        (nonce : Int) = some data := by
      rw [← hd]; exact prepareData_congr env _ _ _ rfl rfl rfl
    simp only [Validate, hd']
    rw [← hh]
    simp [ht]
  · refine ⟨data, ?_, hh.symm⟩
    rw [← hd]; exact prepareData_congr env _ _ _ rfl rfl rfl

set_option maxRecDepth 100000 in
/-- Claim C1 at a concrete block: one transaction, mined in `demoEnv` at nonce 0. -/
theorem NewBlock_validates_witness :
    ∃ b, NewBlock demoEnv 1000 [payBobRaw] [1, 2] 1 = some b ∧
      b.Transactions = [payBobRaw] ∧ b.PrevBlockHash = [1, 2] ∧ b.Height = 1 ∧
      Validate demoEnv b = some true ∧
      ∃ data, prepareData demoEnv ⟨b.Timestamp, b.Transactions, b.PrevBlockHash, [], b.Nonce, 0⟩
          b.Nonce = some data ∧ demoEnv.sha256 data = b.Hash :=
  NewBlock_validates demoEnv 1000 [payBobRaw] [1, 2] 1 0 [223, 122] (by rfl) (by decide)

/-! ## Merkle tree -/

/-- The leaf loop makes one node per data item. -/
theorem merkleLeaves_length (env : Env) :
    ∀ (data : List Bytes) (nodes : List MerkleNode),
      merkleLeaves env data = some nodes → nodes.length = data.length := by
  intro data
  induction data with
  | nil => intro nodes h; simp [merkleLeaves] at h; subst h; rfl
  | cons d rest ih =>
    intro nodes h
    unfold merkleLeaves at h
    cases hr : merkleLeaves env rest with
    | none => simp [hr, NewMerkleNode] at h
    | some ns =>
      simp [hr, NewMerkleNode] at h
      subst h
      simp [ih ns hr]

/-- A round of pairing that does not abort halves the level. -/
theorem merkleLevel_length (env : Env) :
    ∀ (n : Nat) (nodes newLevel : List MerkleNode), nodes.length ≤ n →
      merkleLevel env nodes = some newLevel → nodes.length = 2 * newLevel.length := by
  intro n
  induction n with
  | zero =>
    intro nodes newLevel hn h
    have : nodes = [] := by simpa using hn
    subst this
    simp [merkleLevel] at h
    subst h; rfl
  | succ n ih =>
    intro nodes newLevel hn h
    match nodes, hn, h with
    | [], _, h => simp [merkleLevel] at h; subst h; rfl
    | [_], _, h => simp [merkleLevel] at h
    | a :: b :: rest, hn, h =>
      unfold merkleLevel at h
      cases hr : merkleLevel env rest with
      | none => simp [hr, NewMerkleNode] at h
      | some ns =>
        simp [hr, NewMerkleNode] at h
        subst h
        have := ih rest ns (by simp at hn; omega) hr
        simp [this]; omega

/-- After `k` rounds that do not abort the level has shrunk by the factor `2 ^ k`. -/
theorem merkleRounds_length (env : Env) :
    ∀ (k : Nat) (nodes r : List MerkleNode),
      merkleRounds env k nodes = some r → nodes.length = 2 ^ k * r.length := by
  intro k
  induction k with
  | zero => intro nodes r h; simp [merkleRounds] at h; subst h; simp
  | succ k ih =>
    intro nodes r h
    unfold merkleRounds at h
    cases hl : merkleLevel env nodes with
    | none => simp [hl] at h
    | some newLevel =>
      simp [hl] at h
      have h1 := merkleLevel_length env nodes.length nodes newLevel (le_refl _) hl
      have h2 := ih newLevel r h
      rw [h1, h2, pow_succ]; ring

/-- From three on, `2 * m` is below `2 ^ m`. -/
theorem two_mul_lt_two_pow : ∀ m : Nat, 3 ≤ m → 2 * m < 2 ^ m := by
  intro m hm
  induction m, hm using Nat.le_induction with
  | base => decide
  | succ n hn ih => rw [pow_succ]; omega

/-- The padded input has even length. -/
theorem merklePad_length_even (L : List Bytes) : (merklePad L).length % 2 = 0 := by
  unfold merklePad
  by_cases hodd : L.length % 2 ≠ 0
  · rw [if_pos hodd]
    cases hl : L.getLast? with
    | none =>
      have : L = [] := by simpa using hl
      subst this; simp at hodd
    | some last => simp; omega
  · rw [if_neg hodd]; omega

/-- Padding does not shorten the input. -/
theorem merklePad_length_ge (L : List Bytes) : L.length ≤ (merklePad L).length := by
  unfold merklePad
  split
  · split <;> simp
  · exact le_refl _

/-- With five data items or more, `NewMerkleTree` runs into an out-of-range access:
the outer loop runs `len(data)/2` rounds, more than the halvings a level of that size
admits. -/
theorem NewMerkleTree_aborts_of_five_le (env : Env) (data : List Bytes) (h : 5 ≤ data.length) :
    NewMerkleTree env data = none := by
  cases hres : NewMerkleTree env data with
  | none => rfl
  | some t =>
    exfalso
    unfold NewMerkleTree at hres
    simp only at hres
    cases hleaves : merkleLeaves env (merklePad data) with
    | none => simp [hleaves] at hres
    | some nodes =>
      simp only [hleaves] at hres
      cases hrounds : merkleRounds env ((merklePad data).length / 2) nodes with
      | none => simp [hrounds] at hres
      | some r =>
        simp only [hrounds] at hres
        cases hhead : r.head? with
        | none => simp [hhead] at hres
        | some root =>
          have hr : 1 ≤ r.length := by
            cases r with
            | nil => simp at hhead
            | cons x xs => simp
          have h1 := merkleLeaves_length env _ _ hleaves
          have h2 := merkleRounds_length env _ _ _ hrounds
          have h3 := merklePad_length_even data
          have h4 := merklePad_length_ge data
          have h5 := two_mul_lt_two_pow ((merklePad data).length / 2) (by omega)
          have h6 : 2 ^ ((merklePad data).length / 2) ≤ nodes.length := by
            rw [h2]; exact Nat.le_mul_of_pos_right _ hr
          omega

/-- With one to four data items, `NewMerkleTree` returns a tree. -/
theorem NewMerkleTree_isSome_small (env : Env) (data : List Bytes) (h1 : 1 ≤ data.length)
    (h4 : data.length ≤ 4) : (NewMerkleTree env data).isSome = true := by
  match data, h1, h4 with
  | [a], _, _ =>
    simp [NewMerkleTree, merklePad, merkleLeaves, merkleRounds, merkleLevel, NewMerkleNode]
  | [a, b], _, _ =>
    simp [NewMerkleTree, merklePad, merkleLeaves, merkleRounds, merkleLevel, NewMerkleNode]
  | [a, b, c], _, _ =>
    simp [NewMerkleTree, merklePad, merkleLeaves, merkleRounds, merkleLevel, NewMerkleNode]
  | [a, b, c, d], _, _ =>
    simp [NewMerkleTree, merklePad, merkleLeaves, merkleRounds, merkleLevel, NewMerkleNode]
  | _ :: _ :: _ :: _ :: _ :: _, _, h4 => simp at h4

/-- Padding an odd-length input appends its last element. -/
theorem merklePad_odd (L : List Bytes) (last : Bytes) (hodd : L.length % 2 = 1)
    (hlast : L.getLast? = some last) : merklePad L = L ++ [last] := by
  simp [merklePad, hodd, hlast]

/-- Padding leaves an even-length input as it is. -/
theorem merklePad_even (L : List Bytes) (heven : L.length % 2 = 0) : merklePad L = L := by
  simp [merklePad, heven]

/-- The tree of an input is the tree of the padded input. -/
theorem NewMerkleTree_pad (env : Env) (L : List Bytes) :
    NewMerkleTree env L = NewMerkleTree env (merklePad L) := by
  have h : merklePad (merklePad L) = merklePad L := by
    by_cases hodd : L.length % 2 = 1
    · cases hl : L.getLast? with
      | none =>
        have : L = [] := by simpa using hl
        subst this; simp at hodd
      | some last =>
        rw [merklePad_odd L last hodd hl]
        apply merklePad_even
        simp; omega
    · have : L.length % 2 = 0 := by omega
      rw [merklePad_even L this, merklePad_even L this]
  unfold NewMerkleTree
  simp only [h]

/-- Equal digests of two concatenations with first parts of equal length. -/
theorem sha_append_inj (env : Env) (hcf : CollisionFree env) (x y x' y' : Bytes)
    (hlen : x.length = x'.length) (h : env.sha256 (x ++ y) = env.sha256 (x' ++ y')) :
    x = x' ∧ y = y' :=
  List.append_inj (hcf.1 _ _ h) hlen

/-- Equal digests of two pairs of digests. -/
theorem sha_pair_inj (env : Env) (hcf : CollisionFree env) (a b c d : Bytes)
    (h : env.sha256 (env.sha256 a ++ env.sha256 b) = env.sha256 (env.sha256 c ++ env.sha256 d)) :
    a = c ∧ b = d := by
  obtain ⟨h1, h2⟩ := sha_append_inj env hcf _ _ _ _ (by rw [hcf.2, hcf.2]) h
  exact ⟨hcf.1 _ _ h1, hcf.1 _ _ h2⟩

/-- The root of one item. -/
theorem merkleRoot_one (env : Env) (a : Bytes) :
    merkleRoot env [a] = some (env.sha256 (env.sha256 a ++ env.sha256 a)) := by
  simp [merkleRoot, NewMerkleTree, merklePad, merkleLeaves, merkleRounds, merkleLevel,
    NewMerkleNode, MerkleNode.Data]

/-- The root of two items. -/
theorem merkleRoot_two (env : Env) (a b : Bytes) :
    merkleRoot env [a, b] = some (env.sha256 (env.sha256 a ++ env.sha256 b)) := by
  simp [merkleRoot, NewMerkleTree, merklePad, merkleLeaves, merkleRounds, merkleLevel,
    NewMerkleNode, MerkleNode.Data]

/-- The root of three items. -/
theorem merkleRoot_three (env : Env) (a b c : Bytes) :
    merkleRoot env [a, b, c] = some (env.sha256 (env.sha256 (env.sha256 a ++ env.sha256 b) ++
      env.sha256 (env.sha256 c ++ env.sha256 c))) := by
  simp [merkleRoot, NewMerkleTree, merklePad, merkleLeaves, merkleRounds, merkleLevel,
    NewMerkleNode, MerkleNode.Data]

/-- The root of four items. -/
theorem merkleRoot_four (env : Env) (a b c d : Bytes) :
    merkleRoot env [a, b, c, d] = some (env.sha256 (env.sha256 (env.sha256 a ++ env.sha256 b) ++
      env.sha256 (env.sha256 c ++ env.sha256 d))) := by
  simp [merkleRoot, NewMerkleTree, merklePad, merkleLeaves, merkleRounds, merkleLevel,
    NewMerkleNode, MerkleNode.Data]

/-- For lists of one to four items and a collision-free SHA-256, two different lists of
the same length, in particular a list and a reordering of it that differs from it, have
different roots. -/
theorem merkleRoot_differs_small (env : Env) (hcf : CollisionFree env) (L L' : List Bytes)
    (h1 : 1 ≤ L.length) (h4 : L.length ≤ 4) (hlen : L'.length = L.length) (hne : L' ≠ L) :
    merkleRoot env L' ≠ merkleRoot env L := by
  intro heq
  apply hne
  match L, L', h1, h4, hlen with
  | [a], [a'], _, _, _ =>
    rw [merkleRoot_one, merkleRoot_one, Option.some.injEq] at heq
    obtain ⟨e1, _⟩ := sha_pair_inj env hcf _ _ _ _ heq
    rw [e1]
  | [a, b], [a', b'], _, _, _ =>
    rw [merkleRoot_two, merkleRoot_two, Option.some.injEq] at heq
    obtain ⟨e1, e2⟩ := sha_pair_inj env hcf _ _ _ _ heq
    rw [e1, e2]
  | [a, b, c], [a', b', c'], _, _, _ =>
    rw [merkleRoot_three, merkleRoot_three, Option.some.injEq] at heq
    obtain ⟨e1, e2⟩ := sha_pair_inj env hcf _ _ _ _ heq
    obtain ⟨e3, e4⟩ := sha_pair_inj env hcf _ _ _ _ (congrArg env.sha256 e1)
    obtain ⟨e5, _⟩ := sha_pair_inj env hcf _ _ _ _ (congrArg env.sha256 e2)
    rw [e3, e4, e5]
  | [a, b, c, d], [a', b', c', d'], _, _, _ =>
    rw [merkleRoot_four, merkleRoot_four, Option.some.injEq] at heq
    obtain ⟨e1, e2⟩ := sha_pair_inj env hcf _ _ _ _ heq
    obtain ⟨e3, e4⟩ := sha_pair_inj env hcf _ _ _ _ (congrArg env.sha256 e1)
    obtain ⟨e5, e6⟩ := sha_pair_inj env hcf _ _ _ _ (congrArg env.sha256 e2)
    rw [e3, e4, e5, e6]

/-- Some environment is collision-free in the sense of `CollisionFree`. -/
theorem collisionFree_satisfiable :
    ∃ env : Env, CollisionFree env := by
  refine ⟨{ demoEnv with sha256 := fun b => Encodable.encode b :: List.replicate 31 0 }, ?_, ?_⟩
  · intro a b h
    simp only [List.cons.injEq, and_true] at h
    exact Encodable.encode_injective h
  · intro a
    simp

/-- Claim C7, at a failing input: for five data items `NewMerkleTree` does not return a
root node; it runs into an out-of-range access (`nodes[j+1]` on a level of three nodes,
in the second of the `len(data)/2 = 3` rounds). -/
theorem NewMerkleTree_five_out_of_range (env : Env) (a b c d e : Bytes) :
    NewMerkleTree env [a, b, c, d, e] = none := by
  simp [NewMerkleTree, merklePad, merkleLeaves, merkleRounds, merkleLevel, NewMerkleNode]

/-- Claim C8, at a failing input: for a list of five items, and for that list with its
last item appended once more, `NewMerkleTree` computes no root (the out-of-range access
of C7), so there is no root of the one to equal the root of the other; for one item and
for three items the roots are computed and are those of the lists with the last item
appended once more, the root of `[t]` being `SHA-256(SHA-256(t) ++ SHA-256(t))`. -/
theorem merkleRoot_odd_five_no_root (env : Env) (a b c d e t : Bytes) :
    merkleRoot env [a, b, c, d, e] = none ∧ merkleRoot env ([a, b, c, d, e] ++ [e]) = none ∧
      merkleRoot env [t] = some (env.sha256 (env.sha256 t ++ env.sha256 t)) ∧
      merkleRoot env ([t] ++ [t]) = merkleRoot env [t] ∧
      (merkleRoot env [a, b, c]).isSome = true ∧
      merkleRoot env ([a, b, c] ++ [c]) = merkleRoot env [a, b, c] := by
  refine ⟨?_, ?_, merkleRoot_one env t, ?_, ?_, ?_⟩
  · simp [merkleRoot, NewMerkleTree_aborts_of_five_le env [a, b, c, d, e] (by simp)]
  · have h := NewMerkleTree_aborts_of_five_le env ([a, b, c, d, e] ++ [e]) (by simp)
    simp only [merkleRoot, h, Option.map_none']
  · rw [merkleRoot_one]
    exact merkleRoot_two env t t
  · rw [merkleRoot_three]
    rfl
  · rw [merkleRoot_three]
    exact merkleRoot_four env a b c c

/-- Claim C9, at a failing input: for a list of five items and the list with its first
two items exchanged, `NewMerkleTree` computes no root, so the two outcomes do not
differ. -/
theorem merkleRoot_reordered_five (env : Env) (a b c d e : Bytes) :
    merkleRoot env [a, b, c, d, e] = none ∧ merkleRoot env [b, a, c, d, e] = none ∧
      ¬ (merkleRoot env [b, a, c, d, e] ≠ merkleRoot env [a, b, c, d, e]) := by
  have h1 : merkleRoot env [a, b, c, d, e] = none := by
    simp [merkleRoot, NewMerkleTree_aborts_of_five_le env [a, b, c, d, e] (by simp)]
  have h2 : merkleRoot env [b, a, c, d, e] = none := by
    simp [merkleRoot, NewMerkleTree_aborts_of_five_le env [b, a, c, d, e] (by simp)]
  exact ⟨h1, h2, by rw [h1, h2]; simp⟩

/-! ## The block store and the tip rule -/

/-- Reading the key just written. -/
theorem bucketGet_put_self {α : Type} (b : Bucket α) (k : Bytes) (v : α) :
    bucketGet (insertEntry b k v) k = some v := by
  induction b with
  | nil => simp [insertEntry, bucketGet]
  | cons p rest ih =>
    obtain ⟨k', v'⟩ := p
    unfold insertEntry
    by_cases h : k' = k
    · simp [h, bucketGet]
    · rw [if_neg h]
      by_cases hlt : bytesLt k k' = true
      · simp [hlt, bucketGet]
      · simp [hlt, bucketGet, h, ih]

/-- Writing a key leaves the other keys as they are. -/
theorem bucketGet_put_ne {α : Type} (b : Bucket α) (k k₂ : Bytes) (v : α) (hne : k₂ ≠ k) :
    bucketGet (insertEntry b k v) k₂ = bucketGet b k₂ := by
  induction b with
  | nil => simp [insertEntry, bucketGet, Ne.symm hne]
  | cons p rest ih =>
    obtain ⟨k', v'⟩ := p
    unfold insertEntry
    by_cases h : k' = k
    · subst h
      simp [bucketGet, Ne.symm hne]
    · rw [if_neg h]
      by_cases hlt : bytesLt k k' = true
      · simp [hlt, bucketGet, Ne.symm hne]
      · simp only [hlt]
        by_cases h2 : k' = k₂
        · simp [bucketGet, h2]
        · simp [bucketGet, h2, ih]

/-- A deleted key is absent. -/
theorem bucketGet_delete_self {α : Type} (b : Bucket α) (k : Bytes) :
    bucketGet (bucketDelete b k) k = none := by
  induction b with
  | nil => simp [bucketDelete, bucketGet]
  | cons p rest ih =>
    obtain ⟨k', v'⟩ := p
    by_cases h : k' = k
    · simpa [bucketDelete, List.filter, h] using ih
    · simp only [bucketDelete, List.filter, h, ne_eq, not_false_eq_true, decide_True, bucketGet,
        if_false]
      simpa [bucketDelete] using ih

/-- Deleting a key leaves the other keys as they are. -/
theorem bucketGet_delete_ne {α : Type} (b : Bucket α) (k k₂ : Bytes) (hne : k₂ ≠ k) :
    bucketGet (bucketDelete b k) k₂ = bucketGet b k₂ := by
  induction b with
  | nil => simp [bucketDelete, bucketGet]
  | cons p rest ih =>
    obtain ⟨k', v'⟩ := p
    by_cases h : k' = k
    · subst h
      simp only [bucketDelete, List.filter, ne_eq, not_true_eq_false, decide_False, bucketGet,
        Ne.symm hne, if_false]
      simpa [bucketDelete] using ih
    · simp only [bucketDelete, List.filter, h, ne_eq, not_false_eq_true, decide_True, bucketGet]
      by_cases h2 : k' = k₂
      · simp [h2]
      · simp only [h2, if_false]
        simpa [bucketDelete] using ih

/-- `Put` accepts a key of one to `MaxKeySize` bytes. -/
theorem bucketPut_of_valid {α : Type} (b : Bucket α) (k : Bytes) (v : α)
    (h1 : k.length ≠ 0) (h2 : k.length ≤ MaxKeySize) :
    bucketPut b k v = some (insertEntry b k v) := by
  have h3 : ¬ MaxKeySize < k.length := by omega
  simp only [bucketPut, h1, h3, if_false]

/-- A `Put` that returned no error was given a key of one to `MaxKeySize` bytes and
wrote the entry. -/
theorem bucketPut_some {α : Type} (b b' : Bucket α) (k : Bytes) (v : α)
    (h : bucketPut b k v = some b') :
    b' = insertEntry b k v ∧ k.length ≠ 0 ∧ k.length ≤ MaxKeySize := by
  unfold bucketPut at h
  by_cases h1 : k.length = 0
  · rw [if_pos h1] at h; cases h
  · rw [if_neg h1] at h
    by_cases h2 : MaxKeySize < k.length
    · rw [if_pos h2] at h; cases h
    · rw [if_neg h2] at h
      simp only [Option.some.injEq] at h
      exact ⟨h.symm, h1, by omega⟩

/-- `Put` refuses a key that is empty or longer than `MaxKeySize`. -/
theorem bucketPut_none {α : Type} (b : Bucket α) (k : Bytes) (v : α)
    (h : k.length = 0 ∨ MaxKeySize < k.length) : bucketPut b k v = none := by
  unfold bucketPut
  by_cases h1 : k.length = 0
  · rw [if_pos h1]
  · rw [if_neg h1]
    have h2 : MaxKeySize < k.length := by
      rcases h with h | h
      · exact absurd h h1
      · exact h
    rw [if_pos h2]

/-- `Put` accepts the key `l`. -/
theorem bucketPut_lastKey {α : Type} (b : Bucket α) (v : α) :
    bucketPut b lastKey v = some (insertEntry b lastKey v) :=
  bucketPut_of_valid b lastKey v (by decide) (by decide)

/-- Claim C10, amended: on a ledger whose key `l` holds the hash of a stored tip block,
for a block whose hash is a key the store accepts (not empty, at most `MaxKeySize`
bytes) and is not yet a key of the store, `AddBlock` stores the block and leaves every
other block entry and the UTXO bucket as they are; if the block's `Height` is strictly
greater than the tip block's, the persisted `l` entry and the in-memory tip become its
hash; if it is less or equal, both are left unchanged; so the persisted tip is the new
block's hash iff its `Height` is strictly greater. -/
theorem AddBlock_tip_rule (bc : Blockchain) (block last : Block) (lastHash : Bytes)
    (hl : bucketGet bc.db.blocks lastKey = some (.hash lastHash))
    (ht : bucketGet bc.db.blocks lastHash = some (.block last))
    (hnew : bucketGet bc.db.blocks block.Hash = none)
    (hk1 : block.Hash.length ≠ 0) (hk2 : block.Hash.length ≤ MaxKeySize) :
    ∃ bc', AddBlock bc block = some bc' ∧
      bucketGet bc'.db.blocks block.Hash = some (.block block) ∧
      (∀ k, k ≠ block.Hash → k ≠ lastKey →
        bucketGet bc'.db.blocks k = bucketGet bc.db.blocks k) ∧
      bc'.db.chainstate = bc.db.chainstate ∧
      (block.Height > last.Height →
        bucketGet bc'.db.blocks lastKey = some (.hash block.Hash) ∧ bc'.tip = block.Hash) ∧
      (block.Height ≤ last.Height →
        bucketGet bc'.db.blocks lastKey = some (.hash lastHash) ∧ bc'.tip = bc.tip) ∧
      (bucketGet bc'.db.blocks lastKey = some (.hash block.Hash) ↔
        block.Height > last.Height) := by
  have hne1 : lastKey ≠ block.Hash := by
    intro h; rw [h] at hl; rw [hl] at hnew; exact Option.noConfusion hnew
  have hne2 : lastHash ≠ block.Hash := by
    intro h; rw [h] at ht; rw [ht] at hnew; exact Option.noConfusion hnew
  have htip : tipBlock (insertEntry bc.db.blocks block.Hash (.block block)) = some (lastHash, last) := by
    simp [tipBlock, bucketGet_put_ne _ _ _ _ hne1, bucketGet_put_ne _ _ _ _ hne2, hl, ht,
      DeserializeBlock]
  by_cases hgt : block.Height > last.Height
  · refine ⟨⟨block.Hash, ⟨insertEntry (insertEntry bc.db.blocks block.Hash (.block block)) lastKey
      (.hash block.Hash), bc.db.chainstate⟩⟩, ?_, ?_, ?_, rfl, ?_, ?_, ?_⟩
    · simp [AddBlock, hnew, bucketPut_of_valid _ _ _ hk1 hk2, bucketPut_lastKey, htip, hgt]
    · simp [bucketGet_put_ne _ _ _ _ (Ne.symm hne1), bucketGet_put_self]
    · intro k hk1 hk2
      simp [bucketGet_put_ne _ _ _ _ hk1, bucketGet_put_ne _ _ _ _ hk2]
    · intro _; exact ⟨bucketGet_put_self _ _ _, rfl⟩
    · intro hle; omega
    · simp [bucketGet_put_self, hgt]
  · refine ⟨⟨bc.tip, ⟨insertEntry bc.db.blocks block.Hash (.block block), bc.db.chainstate⟩⟩,
      ?_, ?_, ?_, rfl, ?_, ?_, ?_⟩
    · simp [AddBlock, hnew, bucketPut_of_valid _ _ _ hk1 hk2, htip, hgt]
    · simp [bucketGet_put_self]
    · intro k hk1 _
      simp [bucketGet_put_ne _ _ _ _ hk1]
    · intro h; exact absurd h hgt
    · intro _
      exact ⟨by simp [bucketGet_put_ne _ _ _ _ hne1, hl], rfl⟩
    · simp only [bucketGet_put_ne _ _ _ _ hne1, hl, Option.some.injEq, BlockValue.hash.injEq]
      constructor
      · intro h; exact absurd h hne2
      · intro h; exact absurd h hgt

set_option maxRecDepth 100000 in
/-- Claim C10, amended, at the genesis ledger of `demoEnv` and a block of height 1. -/
theorem AddBlock_tip_rule_witness :
    ∃ bc', AddBlock genesisState higherBlock = some bc' ∧
      bucketGet bc'.db.blocks higherBlock.Hash = some (.block higherBlock) ∧
      (∀ k, k ≠ higherBlock.Hash → k ≠ lastKey →
        bucketGet bc'.db.blocks k = bucketGet genesisState.db.blocks k) ∧
      bc'.db.chainstate = genesisState.db.chainstate ∧
      (higherBlock.Height > genesisBlock.Height →
        bucketGet bc'.db.blocks lastKey = some (.hash higherBlock.Hash) ∧
          bc'.tip = higherBlock.Hash) ∧
      (higherBlock.Height ≤ genesisBlock.Height →
        bucketGet bc'.db.blocks lastKey = some (.hash genesisBlock.Hash) ∧
          bc'.tip = genesisState.tip) ∧
      (bucketGet bc'.db.blocks lastKey = some (.hash higherBlock.Hash) ↔
        higherBlock.Height > genesisBlock.Height) :=
  AddBlock_tip_rule genesisState higherBlock genesisBlock genesisBlock.Hash (by decide)
    (by decide) (by decide) (by decide) (by decide)

set_option maxRecDepth 100000 in
/-- Claim C10 as stated fails: `emptyHashBlock` has an empty `Hash`, which is not a key
of the genesis ledger, and a larger `Height` than the tip block; `Put` refuses the empty
key and `AddBlock` aborts: the block is not stored and the tip does not move. -/
theorem AddBlock_empty_hash_counterexample :
    bucketGet genesisState.db.blocks lastKey = some (.hash genesisBlock.Hash) ∧
    bucketGet genesisState.db.blocks genesisBlock.Hash = some (.block genesisBlock) ∧
    bucketGet genesisState.db.blocks emptyHashBlock.Hash = none ∧
    emptyHashBlock.Height > genesisBlock.Height ∧
    AddBlock genesisState emptyHashBlock = none := by
  refine ⟨by decide, by decide, by decide, by decide, by decide⟩

/-! ## Replay of the chain by `FindUTXO` -/

/-- Reading the key just assigned. -/
theorem mapLookup_insert_self {α : Type} (m : GoMap α) (k : Bytes) (v : α) :
    mapLookup (mapInsert m k v) k = some v := by
  induction m with
  | nil => simp [mapInsert, mapLookup]
  | cons p rest ih =>
    obtain ⟨k', v'⟩ := p
    by_cases h : k' = k
    · simp [mapInsert, mapLookup, h]
    · simp [mapInsert, mapLookup, h, ih]

/-- Assigning a key leaves the other keys as they are. -/
theorem mapLookup_insert_ne {α : Type} (m : GoMap α) (k k₂ : Bytes) (v : α) (hne : k₂ ≠ k) :
    mapLookup (mapInsert m k v) k₂ = mapLookup m k₂ := by
  induction m with
  | nil => simp [mapInsert, mapLookup, Ne.symm hne]
  | cons p rest ih =>
    obtain ⟨k', v'⟩ := p
    by_cases h : k' = k
    · subst h
      simp [mapInsert, mapLookup, Ne.symm hne]
    · by_cases h2 : k' = k₂
      · subst h2
        simp [mapInsert, mapLookup, h]
      · simp [mapInsert, mapLookup, h, h2, ih]

/-- After the input loop, a position is listed under an id iff it was listed before or
one of the inputs references it. -/
theorem isSpentOutput_addSpent (vins : List TXInput) :
    ∀ (S : GoMap (List Int)) (id : Bytes) (pos : Int),
      isSpentOutput (addSpent S vins) id pos =
        (isSpentOutput S id pos || vins.any (fun vin => decide (vin.Txid = id ∧ vin.Vout = pos))) := by
  induction vins with
  | nil => intro S id pos; simp [addSpent]
  | cons vin rest ih =>
    intro S id pos
    rw [addSpent, ih]
    have key : isSpentOutput (mapInsert S vin.Txid ((mapLookup S vin.Txid).getD [] ++ [vin.Vout])) id pos
        = (isSpentOutput S id pos || decide (vin.Txid = id ∧ vin.Vout = pos)) := by
      by_cases h : id = vin.Txid
      · subst h
        unfold isSpentOutput
        rw [mapLookup_insert_self]
        cases hl : mapLookup S vin.Txid with
        | none => simp
        | some l => simp [List.any_append]
      · unfold isSpentOutput
        rw [mapLookup_insert_ne _ _ _ _ h]
        have : ¬ (vin.Txid = id) := fun e => h e.symm
        simp [this]
    rw [key]
    simp [List.any_cons, Bool.or_assoc]

/-- The output loop appends to the entry of `id` the outputs whose position is not
listed as spent, and leaves the other entries as they are. -/
theorem addUnspent_lookup (S : GoMap (List Int)) (id : Bytes) :
    ∀ (outs : List (Nat × TXOutput)) (U : GoMap TXOutputs) (E : List TXOutput),
      mapLookup U id = entryOf E →
      mapLookup (addUnspent S id U outs) id =
          entryOf (E ++ (outs.filter (fun p => !isSpentOutput S id (p.1 : Int))).map (fun p => p.2)) ∧
        ∀ k, k ≠ id → mapLookup (addUnspent S id U outs) k = mapLookup U k := by
  intro outs
  induction outs with
  | nil => intro U E h; simp [addUnspent, h]
  | cons p rest ih =>
    intro U E h
    obtain ⟨outIdx, out⟩ := p
    unfold addUnspent
    by_cases hs : isSpentOutput S id (outIdx : Int) = true
    · rw [if_pos hs]
      have := ih U E h
      simpa [List.filter, hs] using this
    · rw [if_neg hs]
      have hs' : isSpentOutput S id (outIdx : Int) = false := by simpa using hs
      have hget : ((mapLookup U id).getD ⟨[]⟩).Outputs = E := by
        rw [h]; unfold entryOf
        by_cases hE : E = []
        · simp [hE]
        · simp [hE]
      have h' : mapLookup (mapInsert U id ⟨((mapLookup U id).getD ⟨[]⟩).Outputs ++ [out]⟩) id
          = entryOf (E ++ [out]) := by
        rw [mapLookup_insert_self, hget]
        simp [entryOf]
      obtain ⟨h1, h2⟩ := ih _ _ h'
      refine ⟨?_, ?_⟩
      · rw [h1]; simp [List.filter, hs']
      · intro k hk
        rw [h2 k hk, mapLookup_insert_ne _ _ _ _ hk]

/-- The references of a list of transactions followed by one more. -/
theorem referencedIn_append (before : List Transaction) (tx : Transaction) (id : Bytes) (pos : Int) :
    referencedIn (before ++ [tx]) id pos =
      (referencedIn before id pos ||
        (!IsCoinbase tx && tx.Vin.any (fun vin => decide (vin.Txid = id ∧ vin.Vout = pos)))) := by
  simp [referencedIn, List.any_append]

/-- One round of the transaction loop keeps `spentTXOs` equal to the references of the
transactions visited, and appends the transaction's outputs unreferenced so far. -/
theorem utxoStep_invariant (before : List Transaction) (tx : Transaction)
    (U : GoMap TXOutputs) (S : GoMap (List Int)) (E : Bytes → List TXOutput)
    (hS : ∀ id pos, isSpentOutput S id pos = referencedIn before id pos)
    (hU : ∀ k, mapLookup U k = entryOf (E k)) :
    (∀ id pos, isSpentOutput (utxoStep (U, S) tx).2 id pos = referencedIn (before ++ [tx]) id pos) ∧
    ∀ k, mapLookup (utxoStep (U, S) tx).1 k =
      entryOf (E k ++ (if tx.ID.getD [] = k then unreferencedOutputs before tx else [])) := by
  constructor
  · intro id pos
    rw [referencedIn_append]
    unfold utxoStep
    by_cases hc : IsCoinbase tx = true
    · simp [hc, hS]
    · have hc' : IsCoinbase tx = false := by simpa using hc
      simp [hc', isSpentOutput_addSpent, hS]
  · intro k
    obtain ⟨h1, h2⟩ := addUnspent_lookup S (tx.ID.getD []) tx.Vout.enum U (E (tx.ID.getD []))
      (hU _)
    by_cases hk : tx.ID.getD [] = k
    · subst hk
      simp only [utxoStep, if_true]
      rw [h1]
      unfold unreferencedOutputs
      simp only [hS]
    · simp only [utxoStep, if_neg hk, List.append_nil]
      rw [h2 k (fun e => hk e.symm), hU]

/-- The transaction loop over a list of transactions, from any state that satisfies the
invariant. -/
theorem foldl_utxoStep_lookup :
    ∀ (txs before : List Transaction) (U : GoMap TXOutputs) (S : GoMap (List Int))
      (E : Bytes → List TXOutput),
      (∀ id pos, isSpentOutput S id pos = referencedIn before id pos) →
      (∀ k, mapLookup U k = entryOf (E k)) →
      ∀ k, mapLookup (txs.foldl utxoStep (U, S)).1 k = entryOf (E k ++ unspentAtVisit before txs k) := by
  intro txs
  induction txs with
  | nil => intro before U S E _ hU k; simp [unspentAtVisit, hU]
  | cons tx rest ih =>
    intro before U S E hS hU k
    obtain ⟨h1, h2⟩ := utxoStep_invariant before tx U S E hS hU
    have := ih (before ++ [tx]) (utxoStep (U, S) tx).1 (utxoStep (U, S) tx).2
      (fun k => E k ++ (if tx.ID.getD [] = k then unreferencedOutputs before tx else [])) h1 h2 k
    simp only [List.foldl_cons, unspentAtVisit]
    rw [this, List.append_assoc]

/-- The block loop of `FindUTXO` is the transaction loop over the transactions of the
chain the iterator walks. -/
theorem FindUTXOLoop_eq (db : DB) :
    ∀ (fuel : Nat) (h : Bytes) (chain : List Block) (st : GoMap TXOutputs × GoMap (List Int)),
      iterBlocks db fuel h = some chain →
      FindUTXOLoop db fuel h st = some ((chainTxs chain).foldl utxoStep st).1 := by
  intro fuel
  induction fuel with
  | zero => intro h chain st hc; simp [iterBlocks] at hc
  | succ fuel ih =>
    intro h chain st hc
    unfold iterBlocks at hc
    unfold FindUTXOLoop
    cases hn : Next db h with
    | none => simp [hn] at hc
    | some p =>
      obtain ⟨block, prev⟩ := p
      simp only [hn] at hc ⊢
      by_cases h0 : block.PrevBlockHash.length = 0
      · simp only [h0, if_true, Option.some.injEq] at hc ⊢
        subst hc
        simp [chainTxs]
      · simp only [h0, if_false] at hc ⊢
        cases hr : iterBlocks db fuel prev with
        | none => simp [hr] at hc
        | some rest =>
          simp only [hr, Option.some.injEq] at hc
          subst hc
          rw [ih prev rest _ hr]
          simp [chainTxs]

/-- No entry is left under a key that is the id of no transaction. -/
theorem unspentAtVisit_none (k : Bytes) :
    ∀ (txs before : List Transaction), (∀ t ∈ txs, t.ID.getD [] ≠ k) →
      unspentAtVisit before txs k = [] := by
  intro txs
  induction txs with
  | nil => intro before _; rfl
  | cons tx rest ih =>
    intro before h
    have h1 : tx.ID.getD [] ≠ k := h tx (List.mem_cons_self _ _)
    simp only [unspentAtVisit, if_neg h1, List.nil_append]
    exact ih _ (fun t ht => h t (List.mem_cons_of_mem _ ht))

/-- Under an id carried by one transaction only, the walk leaves the outputs of that
transaction that are unreferenced when it is visited. -/
theorem unspentAtVisit_split (tx : Transaction) (post : List Transaction) :
    ∀ (pre before : List Transaction),
      (∀ t ∈ pre ++ post, t.ID.getD [] ≠ tx.ID.getD []) →
      unspentAtVisit before (pre ++ tx :: post) (tx.ID.getD []) =
        unreferencedOutputs (before ++ pre) tx := by
  intro pre
  induction pre with
  | nil =>
    intro before h
    simp only [List.nil_append, unspentAtVisit, if_true, List.append_nil]
    rw [unspentAtVisit_none _ post _ (fun t ht => h t (by simpa using ht))]
    simp
  | cons p pre ih =>
    intro before h
    have h1 : p.ID.getD [] ≠ tx.ID.getD [] := h p (by simp)
    have hstep : unspentAtVisit before (p :: pre ++ tx :: post) (tx.ID.getD []) =
        unspentAtVisit (before ++ [p]) (pre ++ tx :: post) (tx.ID.getD []) := by
      show unspentAtVisit before (p :: (pre ++ tx :: post)) (tx.ID.getD []) = _
      simp only [unspentAtVisit, if_neg h1, List.nil_append]
    rw [hstep, ih (before ++ [p]) (fun t ht => h t (by simp at ht ⊢; tauto))]
    simp

/-- Claim C5, amended: for every chain the iterator walks from the tip to genesis,
`Blockchain.FindUTXO` returns a map that holds, under each key, the outputs of the
transactions with that id whose `(id, position)` pair is referenced by no input of a
non-coinbase transaction visited before them (in a block nearer the tip, or earlier in the
same block), and holds no entry when there is no such output.  In particular, under the
id of a transaction whose id no other transaction carries, it holds exactly the outputs
of that transaction unreferenced by the transactions visited before it, in output order;
and an id carried by no transaction is not a key. -/
theorem FindUTXO_replay (fuel : Nat) (bc : Blockchain) (chain : List Block)
    (hchain : iterBlocks bc.db fuel bc.tip = some chain) :
    ∃ UTXO, Blockchain.FindUTXO fuel bc = some UTXO ∧
      (∀ k, mapLookup UTXO k = entryOf (unspentAtVisit [] (chainTxs chain) k)) ∧
      (∀ pre tx post, chainTxs chain = pre ++ tx :: post →
        (∀ t ∈ pre ++ post, t.ID.getD [] ≠ tx.ID.getD []) →
        mapLookup UTXO (tx.ID.getD []) = entryOf (unreferencedOutputs pre tx)) ∧
      (∀ k, (∀ t ∈ chainTxs chain, t.ID.getD [] ≠ k) → mapLookup UTXO k = none) := by
  have hall : ∀ k, mapLookup ((chainTxs chain).foldl utxoStep ([], [])).1 k =
      entryOf (unspentAtVisit [] (chainTxs chain) k) := by
    intro k
    have := foldl_utxoStep_lookup (chainTxs chain) [] [] [] (fun _ => [])
      (by intro id pos; simp [isSpentOutput, mapLookup, referencedIn])
      (by intro k; simp [mapLookup, entryOf]) k
    simpa using this
  refine ⟨_, FindUTXOLoop_eq bc.db fuel bc.tip chain _ hchain, hall, ?_, ?_⟩
  · intro pre tx post hsplit hid
    rw [hall, hsplit, unspentAtVisit_split tx post pre [] hid]
    simp
  · intro k hk
    rw [hall, unspentAtVisit_none k _ _ hk]
    simp [entryOf]

set_option maxRecDepth 100000 in
/-- Claim C5, amended, at the ledger `sameBlockState`. -/
theorem FindUTXO_replay_witness :
    ∃ UTXO, Blockchain.FindUTXO 10 sameBlockState = some UTXO ∧
      (∀ k, mapLookup UTXO k = entryOf (unspentAtVisit [] (chainTxs sameBlockChain) k)) ∧
      (∀ pre tx post, chainTxs sameBlockChain = pre ++ tx :: post →
        (∀ t ∈ pre ++ post, t.ID.getD [] ≠ tx.ID.getD []) →
        mapLookup UTXO (tx.ID.getD []) = entryOf (unreferencedOutputs pre tx)) ∧
      (∀ k, (∀ t ∈ chainTxs sameBlockChain, t.ID.getD [] ≠ k) → mapLookup UTXO k = none) :=
  FindUTXO_replay 10 sameBlockState sameBlockChain (by decide)

set_option maxRecDepth 100000 in
/-- Claim C5 as stated fails: in `sameBlockState` the second transaction of the tip block
spends position 0 of the first one, and `FindUTXO` still returns that output, the first
transaction having been visited before the input that references it. -/
theorem FindUTXO_same_block_counterexample :
    ¬ (∀ (fuel : Nat) (bc : Blockchain) (chain : List Block),
        iterBlocks bc.db fuel bc.tip = some chain →
        ∃ UTXO, Blockchain.FindUTXO fuel bc = some UTXO ∧
          ∀ tx ∈ chainTxs chain,
            mapLookup UTXO (tx.ID.getD []) =
              entryOf (unreferencedOutputs (chainTxs chain) tx)) := by
  intro h
  obtain ⟨UTXO, h1, h2⟩ := h 10 sameBlockState sameBlockChain (by decide)
  have h3 : Blockchain.FindUTXO 10 sameBlockState =
      some ((Blockchain.FindUTXO 10 sameBlockState).getD []) := by decide
  rw [h3] at h1
  have h4 := Option.some.inj h1
  subst h4
  have h5 := h2 payBobRaw (by decide)
  revert h5
  decide

/-! ## Signing and verification -/

/-- The scheme of `demoEnv` is a valid signature scheme: a signature made with a key
over a message verifies under the public point of that key over the same message. -/
theorem demoSign_verifies (k : PrivateKey) (rnd : Nat) (msg : Bytes) :
    demoVerify k.X k.Y msg (demoSign k rnd msg).1 (demoSign k rnd msg).2 = true := by
  simp [demoVerify, demoSign]

/-- The outcome of `Verify` does not depend on `HashPubKey`: `Verify` never hashes the
public key an input carries. -/
theorem Verify_ignores_HashPubKey (env : Env) (h : Bytes → Bytes) (tx : Transaction)
    (prevTXs : GoMap Transaction) :
    Verify { env with HashPubKey := h } tx prevTXs = Verify env tx prevTXs := by
  have hloop : ∀ (l : List (Nat × TXInput)) (txCopy : Transaction),
      VerifyLoop { env with HashPubKey := h } prevTXs txCopy l = VerifyLoop env prevTXs txCopy l := by
    intro l
    induction l with
    | nil => intro txCopy; rfl
    | cons p rest ih =>
      intro txCopy
      obtain ⟨inID, vin⟩ := p
      simp only [VerifyLoop]
      cases indexInt (prevTxOf prevTXs vin.Txid).Vout vin.Vout with
      | none => rfl
      | some out => simp only [ih]
  simp only [Verify, hloop]

/-- Two transactions with equal fields are equal. -/
theorem Transaction_eq (a b : Transaction) (h1 : a.ID = b.ID) (h2 : a.Vin = b.Vin)
    (h3 : a.Vout = b.Vout) : a = b := by
  cases a; cases b; simp_all

/-- The inputs after `txCopy.Vin[j].Signature = sig`. -/
theorem setSignature_getElem? (tx : Transaction) (j : Nat) (sig : Bytes) (i : Nat) :
    (setSignature tx j sig).Vin[i]? =
      (tx.Vin[i]?).map (fun v => if i = j then { v with Signature := sig } else v) := by
  simp only [setSignature, List.getElem?_map, List.getElem?_enum]
  cases tx.Vin[i]? <;> simp

/-- The inputs after `txCopy.Vin[j].PubKey = pk`. -/
theorem setPubKey_getElem? (tx : Transaction) (j : Nat) (pk : Bytes) (i : Nat) :
    (setPubKey tx j pk).Vin[i]? =
      (tx.Vin[i]?).map (fun v => if i = j then { v with PubKey := pk } else v) := by
  simp only [setPubKey, List.getElem?_map, List.getElem?_enum]
  cases tx.Vin[i]? <;> simp

/-- The inputs of the trimmed copy. -/
theorem TrimmedCopy_getElem? (tx : Transaction) (i : Nat) :
    (TrimmedCopy tx).Vin[i]? = (tx.Vin[i]?).map trimInput := by
  simp [TrimmedCopy, List.getElem?_map, trimInput]
  rfl

/-- At the end of a round of the loops of `Sign` and `Verify` the working copy is the
trimmed copy again. -/
theorem restore_trimmed (tx : Transaction) (j : Nat) (pk : Bytes) :
    setPubKey (setPubKey (setSignature (TrimmedCopy tx) j []) j pk) j [] = TrimmedCopy tx := by
  have hv : (setPubKey (setPubKey (setSignature (TrimmedCopy tx) j []) j pk) j []).Vin =
      (TrimmedCopy tx).Vin := by
    apply List.ext_getElem?
    intro i
    rw [setPubKey_getElem?, setPubKey_getElem?, setSignature_getElem?, TrimmedCopy_getElem?]
    cases tx.Vin[i]? with
    | none => rfl
    | some v =>
      by_cases h : i = j <;> simp [h, trimInput]
  exact Transaction_eq _ _ rfl hv rfl

/-- The signing loop does not abort when every referenced output exists, and stores
for each input the signature of its payload. -/
theorem SignLoop_eq_foldl (env : Env) (privKey : PrivateKey) (prevTXs : GoMap Transaction)
    (rand : Nat → Nat) (tx0 : Transaction) :
    ∀ (l : List (Nat × TXInput)) (tx : Transaction),
      (∀ p ∈ l, (indexInt (prevTxOf prevTXs p.2.Txid).Vout p.2.Vout).isSome = true) →
      SignLoop env privKey prevTXs rand tx (TrimmedCopy tx0) l =
        some (l.foldl (fun t p => setSignature t p.1
          (storedSignature env privKey prevTXs rand (TrimmedCopy tx0) p)) tx) := by
  intro l
  induction l with
  | nil => intro tx _; rfl
  | cons p rest ih =>
    intro tx h
    obtain ⟨inID, vin⟩ := p
    have hp := h (inID, vin) (List.mem_cons_self _ _)
    simp only at hp
    cases hout : indexInt (prevTxOf prevTXs vin.Txid).Vout vin.Vout with
    | none => rw [hout] at hp; simp at hp
    | some out =>
      simp only [SignLoop, hout, List.foldl_cons, storedSignature]
      rw [restore_trimmed]
      exact ih _ (fun q hq => h q (List.mem_cons_of_mem _ hq))

/-- The inputs after the signatures of the inputs `m`, `m + 1`, ... have been stored. -/
theorem foldl_setSignature_getElem? (g : Nat × TXInput → Bytes) :
    ∀ (L : List TXInput) (m : Nat) (t : Transaction) (i : Nat),
      ((L.enumFrom m).foldl (fun t p => setSignature t p.1 (g p)) t).Vin[i]? =
        (t.Vin[i]?).map (fun v =>
          if m ≤ i then
            match L[i - m]? with
            | some x => { v with Signature := g (i, x) }
            | none => v
          else v) := by
  intro L
  induction L with
  | nil =>
    intro m t i
    simp only [List.enumFrom_nil, List.foldl_nil]
    generalize t.Vin[i]? = o
    cases o <;> simp
  | cons x L ih =>
    intro m t i
    simp only [List.enumFrom_cons, List.foldl_cons]
    rw [ih, setSignature_getElem?]
    cases t.Vin[i]? with
    | none => rfl
    | some v =>
      simp only [Option.map_some']
      by_cases h1 : i = m
      · subst h1
        simp
      · by_cases h2 : m ≤ i
        · have h3 : m + 1 ≤ i := by omega
          have h4 : i - m = (i - (m + 1)) + 1 := by omega
          simp only [h1, h2, h3, if_true, if_false]
          rw [h4, List.getElem?_cons_succ]
        · have h3 : ¬ (m + 1 ≤ i) := by omega
          simp [h1, h2, h3]

/-- Storing signatures changes neither `ID` nor `Vout`. -/
theorem foldl_setSignature_ID (g : Nat × TXInput → Bytes) :
    ∀ (l : List (Nat × TXInput)) (t : Transaction),
      (l.foldl (fun t p => setSignature t p.1 (g p)) t).ID = t.ID ∧
      (l.foldl (fun t p => setSignature t p.1 (g p)) t).Vout = t.Vout := by
  intro l
  induction l with
  | nil => intro t; exact ⟨rfl, rfl⟩
  | cons p rest ih =>
    intro t
    simp only [List.foldl_cons]
    obtain ⟨h1, h2⟩ := ih (setSignature t p.1 (g p))
    exact ⟨h1, h2⟩



/-- The verification loop returns true when every input's referenced output exists and
its signature verifies over the payload rebuilt for it. -/
theorem VerifyLoop_true (env : Env) (prevTXs : GoMap Transaction) (tx0 : Transaction) :
    ∀ (l : List (Nat × TXInput)),
      (∀ p ∈ l, ∃ out, indexInt (prevTxOf prevTXs p.2.Txid).Vout p.2.Vout = some out ∧
        env.ecdsaVerify (SetBytes (p.2.PubKey.take (p.2.PubKey.length / 2)))
          (SetBytes (p.2.PubKey.drop (p.2.PubKey.length / 2)))
          (env.sprintfTx (setPubKey (setSignature (TrimmedCopy tx0) p.1 []) p.1 out.PubKeyHash))
          (SetBytes (p.2.Signature.take (p.2.Signature.length / 2)))
          (SetBytes (p.2.Signature.drop (p.2.Signature.length / 2))) = true) →
      VerifyLoop env prevTXs (TrimmedCopy tx0) l = some true := by
  intro l
  induction l with
  | nil => intro _; rfl
  | cons p rest ih =>
    intro h
    obtain ⟨inID, vin⟩ := p
    obtain ⟨out, hout, hver⟩ := h (inID, vin) (List.mem_cons_self _ _)
    simp only at hout hver
    simp only [VerifyLoop, hout, hver]
    rw [restore_trimmed]
    simpa using ih (fun q hq => h q (List.mem_cons_of_mem _ hq))

/-- Whether a transaction is coinbase depends on the inputs' `Txid` and `Vout` only. -/
theorem IsCoinbase_congr (a b : Transaction)
    (h : a.Vin.map trimInput = b.Vin.map trimInput) : IsCoinbase a = IsCoinbase b := by
  unfold IsCoinbase
  match ha : a.Vin, hb : b.Vin with
  | [], [] => rfl
  | [], _ :: _ => rw [ha, hb] at h; simp at h
  | _ :: _, [] => rw [ha, hb] at h; simp at h
  | [x], [y] =>
    rw [ha, hb] at h
    simp [trimInput] at h
    simp [h.1, h.2]
  | [_], _ :: _ :: _ => rw [ha, hb] at h; simp at h
  | _ :: _ :: _, [_] => rw [ha, hb] at h; simp at h
  | _ :: _ :: _, _ :: _ :: _ => rfl

/-- The guard of `Sign` and `Verify` depends on the inputs' `Txid` only. -/
theorem prevMissing_congr (a b : Transaction) (prevTXs : GoMap Transaction)
    (h : a.Vin.map trimInput = b.Vin.map trimInput) :
    prevMissing a prevTXs = prevMissing b prevTXs := by
  have key : ∀ t : Transaction, prevMissing t prevTXs =
      (t.Vin.map trimInput).any (fun vin => decide ((prevTxOf prevTXs vin.Txid).ID = none)) := by
    intro t
    rw [List.any_map]
    rfl
  rw [key a, key b, h]

/-- The trimmed copy does not depend on signatures and public keys. -/
theorem TrimmedCopy_congr (a b : Transaction) (h1 : a.ID = b.ID)
    (h2 : a.Vin.map trimInput = b.Vin.map trimInput) (h3 : a.Vout = b.Vout) :
    TrimmedCopy a = TrimmedCopy b := by
  apply Transaction_eq
  · exact h1
  · exact h2
  · show a.Vout.map _ = b.Vout.map _
    rw [h3]

/-- Signing then verifying, apart from the encoding of the signature: for a non-coinbase
transaction whose inputs carry the signer's public point, whose previous transactions
are present and whose referenced positions are in range, `Sign` returns a transaction on
which `Verify`, with the same `prevTXs`, returns true, provided the signature scheme is
valid and every signature `(r, s)` that `Sign` stores splits back at its midpoint.  The
payload `Verify` rebuilds for an input is the payload `Sign` signed for it. -/
theorem Sign_then_Verify_of_splitsBack (env : Env) (privKey : PrivateKey)
    (prevTXs : GoMap Transaction) (rand : Nat → Nat) (tx : Transaction)
    (hcb : IsCoinbase tx = false) (hprev : prevMissing tx prevTXs = false)
    (hidx : ∀ vin ∈ tx.Vin, (indexInt (prevTxOf prevTXs vin.Txid).Vout vin.Vout).isSome = true)
    (hkey : ∀ vin ∈ tx.Vin, SetBytes (vin.PubKey.take (vin.PubKey.length / 2)) = privKey.X ∧
      SetBytes (vin.PubKey.drop (vin.PubKey.length / 2)) = privKey.Y)
    (hscheme : ∀ rnd msg, env.ecdsaVerify privKey.X privKey.Y msg
      (env.ecdsaSign privKey rnd msg).1 (env.ecdsaSign privKey rnd msg).2 = true)
    (hsplit : ∀ i msg, i < tx.Vin.length → SplitsBack (env.ecdsaSign privKey (rand i) msg)) :
    ∃ tx', Sign env privKey prevTXs rand tx = some tx' ∧ Verify env tx' prevTXs = some true := by
  -- the inputs of the trimmed copy reference the same outputs
  have hTidx : ∀ p ∈ (TrimmedCopy tx).Vin.enum,
      (indexInt (prevTxOf prevTXs p.2.Txid).Vout p.2.Vout).isSome = true := by
    intro p hp
    obtain ⟨i, x⟩ := p
    rw [List.mk_mem_enum_iff_getElem?, TrimmedCopy_getElem?] at hp
    cases hv : tx.Vin[i]? with
    | none => rw [hv] at hp; simp at hp
    | some v =>
      rw [hv] at hp
      simp only [Option.map_some', Option.some.injEq] at hp
      subst hp
      exact hidx v (List.getElem?_mem hv)
  refine ⟨(List.enum (TrimmedCopy tx).Vin).foldl (fun t p => setSignature t p.1
    (storedSignature env privKey prevTXs rand (TrimmedCopy tx) p)) tx, ?_, ?_⟩
  · simp only [Sign, hcb, hprev]
    exact SignLoop_eq_foldl env privKey prevTXs rand tx _ tx hTidx
  · -- the signed transaction
    generalize hg : storedSignature env privKey prevTXs rand (TrimmedCopy tx) = g
    have hget : ∀ i, ((List.enum (TrimmedCopy tx).Vin).foldl
        (fun t p => setSignature t p.1 (g p)) tx).Vin[i]? =
        (tx.Vin[i]?).map (fun (v : TXInput) => { v with Signature := g (i, trimInput v) }) := by
      intro i
      have := foldl_setSignature_getElem? g (TrimmedCopy tx).Vin 0 tx i
      simp only [Nat.sub_zero, Nat.zero_le, if_true, TrimmedCopy_getElem?] at this
      rw [List.enum, this]
      cases hv : tx.Vin[i]? with
      | none => rfl
      | some v => rfl
    have htrim : (((List.enum (TrimmedCopy tx).Vin).foldl
        (fun t p => setSignature t p.1 (g p)) tx).Vin).map trimInput = tx.Vin.map trimInput := by
      apply List.ext_getElem?
      intro i
      rw [List.getElem?_map, List.getElem?_map, hget]
      cases tx.Vin[i]? <;> simp [trimInput]
    obtain ⟨hid, hvout⟩ := foldl_setSignature_ID g (List.enum (TrimmedCopy tx).Vin) tx
    rw [Verify, IsCoinbase_congr _ tx htrim, prevMissing_congr _ tx prevTXs htrim, hcb, hprev,
      TrimmedCopy_congr _ tx hid htrim hvout]
    simp only [Bool.false_eq_true, if_false]
    apply VerifyLoop_true
    intro p hp
    obtain ⟨i, v'⟩ := p
    rw [List.mk_mem_enum_iff_getElem?, hget] at hp
    cases hv : tx.Vin[i]? with
    | none => rw [hv] at hp; simp at hp
    | some v =>
      rw [hv] at hp
      simp only [Option.map_some', Option.some.injEq] at hp
      subst hp
      have hmem : v ∈ tx.Vin := List.getElem?_mem hv
      have hi := hidx v hmem
      cases hout : indexInt (prevTxOf prevTXs v.Txid).Vout v.Vout with
      | none => rw [hout] at hi; simp at hi
      | some out =>
        refine ⟨out, rfl, ?_⟩
        obtain ⟨hx, hy⟩ := hkey v hmem
        have hsig : g (i, trimInput v) =
            natBytes (env.ecdsaSign privKey (rand i) (env.sprintfTx
              (setPubKey (setSignature (TrimmedCopy tx) i []) i out.PubKeyHash))).1 ++
            natBytes (env.ecdsaSign privKey (rand i) (env.sprintfTx
              (setPubKey (setSignature (TrimmedCopy tx) i []) i out.PubKeyHash))).2 := by
          rw [← hg]
          simp only [storedSignature, trimInput, hout]
        have hlt : i < tx.Vin.length := by
          rcases Nat.lt_or_ge i tx.Vin.length with h | h
          · exact h
          · rw [List.getElem?_eq_none h] at hv; exact Option.noConfusion hv
        obtain ⟨hr, hs⟩ := hsplit i (env.sprintfTx
          (setPubKey (setSignature (TrimmedCopy tx) i []) i out.PubKeyHash)) hlt
        simp only [hx, hy, hsig, hr, hs]
        exact hscheme _ _



/-- A value from 1 to 255 has one byte. -/
theorem natBytes_small (x : Nat) (h0 : 0 < x) (h1 : x < 256) : natBytes x = [x] := by
  unfold natBytes
  obtain ⟨n, rfl⟩ : ∃ n, x = n + 1 := ⟨x - 1, by omega⟩
  have hd : (n + 1) / 256 = 0 := by omega
  have hm : (n + 1) % 256 = n + 1 := by omega
  simp only [natBytesAux, Nat.succ_ne_zero, if_false, hd, hm]
  cases n <;> simp [natBytesAux]

/-- A signature of `demoEnv` made with the draw 5 has two one-byte halves. -/
theorem demoSign_splitsBack (k : PrivateKey) (msg : Bytes) :
    SplitsBack (demoSign k 5 msg) := by
  have h1 : natBytes 5 = [5] := natBytes_small 5 (by omega) (by omega)
  have h2 : natBytes ((k.X + k.Y + SetBytes (demoSha msg) + 5) % 251 + 1) =
      [(k.X + k.Y + SetBytes (demoSha msg) + 5) % 251 + 1] :=
    natBytes_small _ (by omega) (by omega)
  unfold SplitsBack demoSign
  simp only []
  rw [h1, h2]
  generalize (k.X + k.Y + SetBytes (demoSha msg) + 5) % 251 + 1 = s
  simp [SetBytes]

set_option maxRecDepth 100000 in
/-- The hypotheses of `Sign_then_Verify_of_splitsBack` hold for `payBobRaw` signed by
Alice with the draw 5. -/
theorem Sign_then_Verify_demo :
    ∃ tx', Sign demoEnv aliceKey genesisPrevTXs (fun _ => 5) payBobRaw = some tx' ∧
      Verify demoEnv tx' genesisPrevTXs = some true :=
  Sign_then_Verify_of_splitsBack demoEnv aliceKey genesisPrevTXs (fun _ => 5) payBobRaw
    (by decide) (by decide) (by decide) (by decide) (demoSign_verifies aliceKey)
    (fun _ msg _ => demoSign_splitsBack aliceKey msg)

set_option maxRecDepth 100000 in
/-- Claim C2, at a failing input: Carol's key pair is a valid key pair of the signature
scheme; `carolTakes` is not a coinbase transaction; its input references position 1 of
`payBob`, an output locked to Alice's key hash, and carries Carol's public key, whose
hash is not Alice's (`UsesKey` is false); it is signed with Carol's private key.
`Verify` and `VerifyTransaction` return true on it. -/
theorem Verify_accepts_foreign_key :
    (∀ rnd msg, demoEnv.ecdsaVerify carolKey.X carolKey.Y msg
      (demoEnv.ecdsaSign carolKey rnd msg).1 (demoEnv.ecdsaSign carolKey rnd msg).2 = true) ∧
    carolTakes.map IsCoinbase = some false ∧
    carolTakes.map (fun tx => tx.Vin.map (fun vin => (vin.Txid, vin.Vout, vin.PubKey))) =
      some [(payBobID, 1, pubKeyBytes carolKey)] ∧
    payBob.map (fun prev => (indexInt prev.Vout 1).map (fun out => out.PubKeyHash)) =
      some (some (keyHashOf aliceKey)) ∧
    demoEnv.HashPubKey (pubKeyBytes carolKey) ≠ keyHashOf aliceKey ∧
    carolTakes.map (fun tx => tx.Vin.map (fun vin => UsesKey demoEnv vin (keyHashOf aliceKey))) =
      some [false] ∧
    (carolTakes.bind fun tx => payBob.bind fun prev => Verify demoEnv tx [(payBobID, prev)]) =
      some true ∧
    (ledger2.bind fun bc => carolTakes.bind fun tx => VerifyTransaction demoEnv 10 bc tx) =
      some true :=
  ⟨fun rnd msg => demoSign_verifies carolKey rnd msg, by decide⟩

set_option maxRecDepth 100000 in
/-- Claim C3, at a failing input: the signature scheme is valid for Alice's key pair;
`payBobRaw` is not a coinbase transaction, its input carries Alice's public point, the
previous transaction is present and the referenced position is in range.  Signed by
Alice with the draw 5 it verifies.  Signed by Alice with the draw 256 the signature is
`(r, s) = (256, 123)`, stored as the three bytes `[1, 0, 123]`; `Verify` splits them at
`3 / 2 = 1` and reads back `(1, 123)`, and returns false. -/
theorem Sign_then_Verify_rejects :
    (∀ rnd msg, demoEnv.ecdsaVerify aliceKey.X aliceKey.Y msg
      (demoEnv.ecdsaSign aliceKey rnd msg).1 (demoEnv.ecdsaSign aliceKey rnd msg).2 = true) ∧
    IsCoinbase payBobRaw = false ∧
    payBobRaw.Vin.map (fun vin => (SetBytes (vin.PubKey.take (vin.PubKey.length / 2)),
      SetBytes (vin.PubKey.drop (vin.PubKey.length / 2)))) = [(aliceKey.X, aliceKey.Y)] ∧
    prevMissing payBobRaw genesisPrevTXs = false ∧
    payBobRaw.Vin.map (fun vin =>
      (indexInt (prevTxOf genesisPrevTXs vin.Txid).Vout vin.Vout).isSome) = [true] ∧
    ((Sign demoEnv aliceKey genesisPrevTXs (fun _ => 5) payBobRaw).bind fun tx =>
      Verify demoEnv tx genesisPrevTXs) = some true ∧
    (Sign demoEnv aliceKey genesisPrevTXs (fun _ => 256) payBobRaw).map
      (fun tx => tx.Vin.map (fun vin => vin.Signature)) = some [natBytes 256 ++ natBytes 123] ∧
    natBytes 256 ++ natBytes 123 = [1, 0, 123] ∧
    (SetBytes (([1, 0, 123] : Bytes).take (3 / 2)), SetBytes (([1, 0, 123] : Bytes).drop (3 / 2))) =
      (1, 123) ∧
    ((Sign demoEnv aliceKey genesisPrevTXs (fun _ => 256) payBobRaw).bind fun tx =>
      Verify demoEnv tx genesisPrevTXs) = some false :=
  ⟨fun rnd msg => demoSign_verifies aliceKey rnd msg, by decide⟩

/-! ## The UTXO index against the replay -/

set_option maxRecDepth 100000 in
/-- Claim C4, at a failing input: `ledger3` is the genesis ledger, indexed by `Reindex`,
after three `MineBlock` calls on verified transactions, each followed by `Update`.  The
third block spends position 1 of `payBob`, whose position 0 was spent by the second
block.  The persisted index still holds Alice's output of 6 under the id of `payBob`;
the map returned by `Blockchain.FindUTXO` has no such key. -/
theorem Update_diverges_from_replay :
    ledger3.map (fun bc => bc.db.chainstate.map (fun b => bucketGet b payBobID)) =
      some (some (some ⟨[⟨6, keyHashOf aliceKey⟩]⟩)) ∧
    (ledger3.bind (Blockchain.FindUTXO 10)).map (fun UTXO => mapLookup UTXO payBobID) =
      some none := by
  decide

set_option maxRecDepth 100000 in
/-- Claim C6, at a failing input: in `ledger2`, whose index was maintained by `Update`,
and in the same ledger after `Reindex`, `FindSpendableOutputs` for Alice's key hash and
the amount 6 returns the reference `(payBobID, 0)`.  In the chain, position 0 of that
transaction is the output of 4 locked to Bob, not to Alice, and it is referenced by the
input of the transaction of the tip block. -/
theorem FindSpendableOutputs_names_spent_output :
    (ledger2.bind fun bc => UTXOSet.FindSpendableOutputs bc (keyHashOf aliceKey) 6) =
      some (6, [(payBobID, [0])]) ∧
    ((ledger2.bind (UTXOSet.Reindex 10)).bind fun bc =>
      UTXOSet.FindSpendableOutputs bc (keyHashOf aliceKey) 6) = some (6, [(payBobID, [0])]) ∧
    (ledger2.bind fun bc => FindTransaction 10 bc payBobID).map
      (fun r => r.map (fun prev => indexInt prev.Vout 0)) =
      some (some (some ⟨4, keyHashOf bobKey⟩)) ∧
    IsLockedWithKey ⟨4, keyHashOf bobKey⟩ (keyHashOf aliceKey) = false ∧
    (ledger2.bind fun bc => iterBlocks bc.db 10 bc.tip).map
      (fun chain => referencedIn (chainTxs chain) payBobID 0) = some true := by
  decide

/-! ## Idempotence of `AddBlock` -/

/-- After `AddBlock` has returned, the block's hash is a key of the block store. -/
theorem AddBlock_stored_after (bc bc' : Blockchain) (block : Block)
    (h : AddBlock bc block = some bc') : bucketGet bc'.db.blocks block.Hash ≠ none := by
  unfold AddBlock at h
  cases hget : bucketGet bc.db.blocks block.Hash with
  | some v =>
    simp only [hget, Option.some.injEq] at h
    subst h
    rw [hget]; simp
  | none =>
    simp only [hget] at h
    cases hput : bucketPut bc.db.blocks block.Hash (.block block) with
    | none => simp [hput] at h
    | some b1 =>
      obtain ⟨hb1, _, _⟩ := bucketPut_some _ _ _ _ hput
      subst hb1
      simp only [hput] at h
      cases htip : tipBlock (insertEntry bc.db.blocks block.Hash (.block block)) with
      | none => simp [htip] at h
      | some p =>
        obtain ⟨lastHash, last⟩ := p
        simp only [htip] at h
        by_cases hgt : block.Height > last.Height
        · simp only [hgt, if_true, bucketPut_lastKey, Option.some.injEq] at h
          subst h
          simp only
          by_cases hk : block.Hash = lastKey
          · rw [hk, bucketGet_put_self]; simp
          · rw [bucketGet_put_ne _ _ _ _ hk, bucketGet_put_self]; simp
        · simp only [hgt, if_false, Option.some.injEq] at h
          subst h
          simp only
          rw [bucketGet_put_self]; simp

/-- Claim C11: when the block's hash is already a key of the block store, `AddBlock`
returns the ledger state it was given (stored blocks, persisted tip, UTXO bucket and
in-memory tip unchanged); and for every block, `AddBlock` applied a second time to the
state the first application returned gives that same state (an abort of the first
application being the outcome of both). -/
theorem AddBlock_idempotent (bc : Blockchain) (block : Block) :
    (bucketGet bc.db.blocks block.Hash ≠ none → AddBlock bc block = some bc) ∧
      (AddBlock bc block).bind (fun bc' => AddBlock bc' block) = AddBlock bc block := by
  have h1 : ∀ (s : Blockchain), bucketGet s.db.blocks block.Hash ≠ none →
      AddBlock s block = some s := by
    intro s hs
    unfold AddBlock
    cases hget : bucketGet s.db.blocks block.Hash with
    | none => exact absurd hget hs
    | some v => rfl
  refine ⟨h1 bc, ?_⟩
  cases h : AddBlock bc block with
  | none => rfl
  | some bc' =>
    show AddBlock bc' block = some bc'
    exact h1 bc' (AddBlock_stored_after bc bc' block h)

set_option maxRecDepth 100000 in
/-- Claim C11 at the genesis ledger: for its stored genesis block and for a new block. -/
theorem AddBlock_idempotent_witness :
    bucketGet genesisState.db.blocks genesisBlock.Hash ≠ none ∧
      AddBlock genesisState genesisBlock = some genesisState ∧
      (AddBlock genesisState higherBlock).bind (fun bc' => AddBlock bc' higherBlock) =
        AddBlock genesisState higherBlock :=
  ⟨by decide, (AddBlock_idempotent genesisState genesisBlock).1 (by decide),
    (AddBlock_idempotent genesisState higherBlock).2⟩

/-! ## Coinbase transactions -/

/-- Claim C15: `IsCoinbase` is true exactly for a transaction with one input whose `Txid`
is empty and whose `Vout` is -1; for every such transaction `Verify` returns true,
without aborting, for every `prevTXs` map; and the transactions `NewCoinbaseTX` builds
are of this kind. -/
theorem coinbase_recognised (env : Env) (tx : Transaction) :
    (IsCoinbase tx = true ↔ ∃ vin, tx.Vin = [vin] ∧ vin.Txid = [] ∧ vin.Vout = -1) ∧
      (IsCoinbase tx = true → ∀ prevTXs, Verify env tx prevTXs = some true) ∧
      (∀ toAddr data randHex, IsCoinbase (NewCoinbaseTX env toAddr data randHex) = true) := by
  refine ⟨?_, ?_, ?_⟩
  · unfold IsCoinbase
    constructor
    · intro h
      match hv : tx.Vin with
      | [] => rw [hv] at h; simp at h
      | [vin] =>
        rw [hv] at h
        simp only [Bool.and_eq_true, decide_eq_true_eq, List.length_eq_zero] at h
        exact ⟨vin, rfl, h.1, h.2⟩
      | _ :: _ :: _ => rw [hv] at h; simp at h
    · rintro ⟨vin, hv, h1, h2⟩
      rw [hv]
      simp [h1, h2]
  · intro h prevTXs
    simp [Verify, h]
  · intro toAddr data randHex
    simp [NewCoinbaseTX, IsCoinbase]

set_option maxRecDepth 100000 in
/-- Claim C15 at the genesis coinbase transaction and the empty map. -/
theorem coinbase_recognised_witness :
    IsCoinbase genesisTx = true ∧ Verify demoEnv genesisTx [] = some true :=
  ⟨by decide, (coinbase_recognised demoEnv genesisTx).2.1 (by decide) []⟩

/-! ## `Reindex` against the replay -/

/-- The replay reads the bucket `blocks` only: the UTXO bucket does not matter. -/
theorem FindUTXOLoop_chainstate (blocks : Bucket BlockValue) (c₁ c₂ : Option (Bucket TXOutputs)) :
    ∀ (fuel : Nat) (h : Bytes) (st : GoMap TXOutputs × GoMap (List Int)),
      FindUTXOLoop ⟨blocks, c₁⟩ fuel h st = FindUTXOLoop ⟨blocks, c₂⟩ fuel h st := by
  intro fuel
  induction fuel with
  | zero => intro h st; rfl
  | succ fuel ih =>
    intro h st
    simp only [FindUTXOLoop, Next, ih]

/-- A key that is not among the keys of a map is absent. -/
theorem mapLookup_none_of_not_mem {α : Type} (m : GoMap α) (k : Bytes)
    (h : k ∉ mapKeys m) : mapLookup m k = none := by
  induction m with
  | nil => rfl
  | cons p rest ih =>
    obtain ⟨k', v⟩ := p
    simp only [mapKeys, List.map_cons, List.mem_cons, not_or] at h
    have hne : ¬ k' = k := fun e => h.1 e.symm
    simp only [mapLookup, hne, if_false]
    exact ih h.2

/-- The keys after an assignment. -/
theorem mapKeys_insert {α : Type} (m : GoMap α) (k : Bytes) (v : α) :
    mapKeys (mapInsert m k v) = if k ∈ mapKeys m then mapKeys m else mapKeys m ++ [k] := by
  induction m with
  | nil => simp [mapInsert, mapKeys]
  | cons p rest ih =>
    obtain ⟨k', v'⟩ := p
    by_cases h : k' = k
    · subst h
      simp [mapInsert, mapKeys]
    · have h' : ¬ k = k' := fun e => h e.symm
      simp only [mapInsert, h, if_false, mapKeys, List.map_cons, List.mem_cons, h', false_or]
      have ih' := ih
      simp only [mapKeys] at ih'
      rw [ih']
      split <;> simp

/-- Assigning a key keeps the keys distinct. -/
theorem mapKeys_insert_nodup {α : Type} (m : GoMap α) (k : Bytes) (v : α)
    (h : (mapKeys m).Nodup) : (mapKeys (mapInsert m k v)).Nodup := by
  rw [mapKeys_insert]
  split
  · exact h
  · rename_i hk
    exact List.Nodup.append h (List.nodup_singleton k) (by simpa using hk)

/-- The output loop of `FindUTXO` keeps the keys distinct. -/
theorem addUnspent_nodup (S : GoMap (List Int)) (id : Bytes) :
    ∀ (outs : List (Nat × TXOutput)) (U : GoMap TXOutputs),
      (mapKeys U).Nodup → (mapKeys (addUnspent S id U outs)).Nodup := by
  intro outs
  induction outs with
  | nil => intro U h; exact h
  | cons p rest ih =>
    intro U h
    obtain ⟨outIdx, out⟩ := p
    unfold addUnspent
    split
    · exact ih U h
    · exact ih _ (mapKeys_insert_nodup _ _ _ h)

/-- The transaction loop of `FindUTXO` keeps the keys distinct. -/
theorem foldl_utxoStep_nodup :
    ∀ (txs : List Transaction) (st : GoMap TXOutputs × GoMap (List Int)),
      (mapKeys st.1).Nodup → (mapKeys (txs.foldl utxoStep st).1).Nodup := by
  intro txs
  induction txs with
  | nil => intro st h; exact h
  | cons tx rest ih =>
    intro st h
    simp only [List.foldl_cons]
    apply ih
    simp only [utxoStep]
    exact addUnspent_nodup _ _ _ _ h

/-- The map `FindUTXO` returns has distinct keys. -/
theorem FindUTXOLoop_nodup (db : DB) :
    ∀ (fuel : Nat) (h : Bytes) (st : GoMap TXOutputs × GoMap (List Int)) (U : GoMap TXOutputs),
      (mapKeys st.1).Nodup → FindUTXOLoop db fuel h st = some U → (mapKeys U).Nodup := by
  intro fuel
  induction fuel with
  | zero => intro h st U _ hU; simp [FindUTXOLoop] at hU
  | succ fuel ih =>
    intro h st U hst hU
    unfold FindUTXOLoop at hU
    cases hn : Next db h with
    | none => simp [hn] at hU
    | some p =>
      obtain ⟨block, prev⟩ := p
      simp only [hn] at hU
      by_cases h0 : block.PrevBlockHash.length = 0
      · simp only [h0, if_true, Option.some.injEq] at hU
        subst hU
        exact foldl_utxoStep_nodup _ _ hst
      · simp only [h0, if_false] at hU
        exact ih _ _ U (foldl_utxoStep_nodup _ _ hst) hU

/-- The bucket after the entries of a map with distinct keys have been written to it. -/
theorem bucketGet_reindexFill :
    ∀ (m : List (Bytes × TXOutputs)) (b b' : Bucket TXOutputs), (mapKeys m).Nodup →
      reindexFill b m = some b' →
      ∀ k, bucketGet b' k =
        match mapLookup m k with
        | some v => some v
        | none => bucketGet b k := by
  intro m
  induction m with
  | nil =>
    intro b b' _ h k
    simp only [reindexFill, Option.some.injEq] at h
    subst h
    rfl
  | cons p rest ih =>
    intro b b' hnd h k
    obtain ⟨k0, v0⟩ := p
    simp only [mapKeys, List.map_cons, List.nodup_cons] at hnd
    unfold reindexFill at h
    cases hput : bucketPut b k0 v0 with
    | none => rw [hput] at h; cases h
    | some b1 =>
      obtain ⟨hb1, _, _⟩ := bucketPut_some _ _ _ _ hput
      subst hb1
      rw [hput] at h
      rw [ih _ _ hnd.2 h k]
      by_cases hk : k0 = k
      · subst hk
        rw [mapLookup_none_of_not_mem rest k0 hnd.1]
        simp [mapLookup, bucketGet_put_self]
      · have hk' : k ≠ k0 := fun e => hk e.symm
        simp only [mapLookup, hk, if_false]
        rw [bucketGet_put_ne _ _ _ _ hk']

/-- The entries of a map are all written when every key is one the store accepts. -/
theorem reindexFill_total :
    ∀ (m : List (Bytes × TXOutputs)) (b : Bucket TXOutputs),
      (∀ k ∈ mapKeys m, k.length ≠ 0 ∧ k.length ≤ MaxKeySize) →
      ∃ b', reindexFill b m = some b' := by
  intro m
  induction m with
  | nil => intro b _; exact ⟨b, rfl⟩
  | cons p rest ih =>
    intro b hk
    obtain ⟨k0, v0⟩ := p
    have h0 := hk k0 (by simp [mapKeys])
    obtain ⟨b', hb'⟩ := ih (insertEntry b k0 v0)
      (fun k hkm => hk k (by simp only [mapKeys, List.map_cons, List.mem_cons] at hkm ⊢
                             exact Or.inr hkm))
    exact ⟨b', by simp only [reindexFill, bucketPut_of_valid _ _ _ h0.1 h0.2, hb']⟩

/-- The writing of the entries aborts when a key is one the store refuses. -/
theorem reindexFill_keys :
    ∀ (m : List (Bytes × TXOutputs)) (b b' : Bucket TXOutputs), reindexFill b m = some b' →
      ∀ k ∈ mapKeys m, k.length ≠ 0 ∧ k.length ≤ MaxKeySize := by
  intro m
  induction m with
  | nil => intro b b' _ k hk; simp [mapKeys] at hk
  | cons p rest ih =>
    intro b b' h k hk
    obtain ⟨k0, v0⟩ := p
    unfold reindexFill at h
    cases hput : bucketPut b k0 v0 with
    | none => rw [hput] at h; cases h
    | some b1 =>
      obtain ⟨_, h1, h2⟩ := bucketPut_some _ _ _ _ hput
      rw [hput] at h
      simp only [mapKeys, List.map_cons, List.mem_cons] at hk
      rcases hk with e | hk
      · subst e; exact ⟨h1, h2⟩
      · exact ih _ _ h k hk

/-- Claim C17, amended: when the replay `Blockchain.FindUTXO` returns a map all of whose
keys are keys the store accepts (not empty, at most `MaxKeySize` bytes), `Reindex`
returns a ledger with the same blocks and tip whose UTXO bucket holds, under every key,
exactly what the map holds under it: a key is in the bucket iff it is a key of the map,
with the map's output list, whatever the bucket held before; and the replay over the new
state is the same map.  `Reindex` returns in no other case. -/
theorem Reindex_matches_FindUTXO (fuel : Nat) (bc : Blockchain) :
    (∀ UTXO, Blockchain.FindUTXO fuel bc = some UTXO →
      (∀ k ∈ mapKeys UTXO, k.length ≠ 0 ∧ k.length ≤ MaxKeySize) →
      ∃ bc' index, UTXOSet.Reindex fuel bc = some bc' ∧ bc'.db.chainstate = some index ∧
        bc'.tip = bc.tip ∧ bc'.db.blocks = bc.db.blocks ∧
        Blockchain.FindUTXO fuel bc' = some UTXO ∧
        ∀ k, bucketGet index k = mapLookup UTXO k) ∧
    (∀ bc', UTXOSet.Reindex fuel bc = some bc' →
      ∃ UTXO, Blockchain.FindUTXO fuel bc = some UTXO ∧
        ∀ k ∈ mapKeys UTXO, k.length ≠ 0 ∧ k.length ≤ MaxKeySize) := by
  refine ⟨?_, ?_⟩
  · intro UTXO h hkeys
    have h0 : Blockchain.FindUTXO fuel ⟨bc.tip, ⟨bc.db.blocks, some []⟩⟩ = some UTXO := by
      rw [← h]
      exact FindUTXOLoop_chainstate bc.db.blocks _ _ fuel bc.tip _
    have hnd : (mapKeys UTXO).Nodup :=
      FindUTXOLoop_nodup bc.db fuel bc.tip ([], []) UTXO (by simp [mapKeys]) h
    obtain ⟨index, hfill⟩ := reindexFill_total UTXO [] hkeys
    refine ⟨⟨bc.tip, ⟨bc.db.blocks, some index⟩⟩, index, ?_, rfl, rfl, rfl, ?_, ?_⟩
    · simp only [UTXOSet.Reindex, h0, hfill]
    · rw [← h]
      exact FindUTXOLoop_chainstate bc.db.blocks _ _ fuel bc.tip _
    · intro k
      rw [bucketGet_reindexFill UTXO [] index hnd hfill k]
      cases mapLookup UTXO k <;> simp [bucketGet]
  · intro bc' h
    have e : Blockchain.FindUTXO fuel ⟨bc.tip, ⟨bc.db.blocks, some []⟩⟩ =
        Blockchain.FindUTXO fuel bc :=
      FindUTXOLoop_chainstate bc.db.blocks _ _ fuel bc.tip _
    unfold UTXOSet.Reindex at h
    simp only [e] at h
    cases hU : Blockchain.FindUTXO fuel bc with
    | none => rw [hU] at h; cases h
    | some UTXO =>
      rw [hU] at h
      simp only at h
      cases hfill : reindexFill [] UTXO with
      | none => rw [hfill] at h; cases h
      | some index => exact ⟨UTXO, rfl, reindexFill_keys UTXO [] index hfill⟩

set_option maxRecDepth 100000 in
/-- Claim C17, amended, at the ledger `ledger2State`. -/
theorem Reindex_matches_FindUTXO_witness :
    ∃ bc' index, UTXOSet.Reindex 10 ledger2State = some bc' ∧ bc'.db.chainstate = some index ∧
      bc'.tip = ledger2State.tip ∧ bc'.db.blocks = ledger2State.db.blocks ∧
      Blockchain.FindUTXO 10 bc' = some ((Blockchain.FindUTXO 10 ledger2State).getD []) ∧
      ∀ k, bucketGet index k = mapLookup ((Blockchain.FindUTXO 10 ledger2State).getD []) k :=
  (Reindex_matches_FindUTXO 10 ledger2State).1 ((Blockchain.FindUTXO 10 ledger2State).getD [])
    (by decide) (by decide)

set_option maxRecDepth 100000 in
/-- Claim C17 as stated fails: `MineBlock` accepts `nilIdTx`, a transaction without
inputs whose `ID` is nil; on the ledger it returns, `Blockchain.FindUTXO` returns a map
that holds the output of `nilIdTx` under the empty key, and `Reindex` aborts, because
`Put` refuses the empty key: no index that holds the entries of `FindUTXO` is left. -/
theorem Reindex_nil_id_counterexample :
    (MineBlock demoEnv 10 1001 genesisState [nilIdTx] []).map (fun r => r.1) =
      some nilIdState ∧
    (Blockchain.FindUTXO 10 nilIdState).map (fun UTXO => mapLookup UTXO []) =
      some (some ⟨[⟨5, keyHashOf carolKey⟩]⟩) ∧
    UTXOSet.Reindex 10 nilIdState = none := by
  refine ⟨by decide, by decide, by decide⟩

/-! ## The link invariant of the ledger -/

/-- A reachable block is stored under the key it is reached at. -/
theorem Reachable_get (blocks : Bucket BlockValue) (tip k : Bytes) (b : Block)
    (h : Reachable blocks tip k b) : bucketGet blocks k = some (.block b) := by
  cases h with
  | tip _ h => exact h
  | prev _ _ _ _ _ h => exact h

/-- Putting a block `nb` under its hash, then its hash under `l`, and making it the tip
gives a ledger that satisfies the invariant, when the store satisfied the link invariant
from `tip` and `nb.PrevBlockHash` is empty or the key of a block reachable from `tip`.
The new hash may be a key already in use. -/
theorem extend_inv (blocks : Bucket BlockValue) (tip : Bytes) (nb : Block)
    (cs : Option (Bucket TXOutputs))
    (hkey : KeyIsHash blocks) (hl : ∀ x, bucketGet blocks lastKey ≠ some (.block x))
    (hlink : LinkInvAt blocks tip) (hH : nb.Hash ≠ lastKey)
    (hprev : nb.PrevBlockHash.length = 0 ∨ ∃ p, Reachable blocks tip nb.PrevBlockHash p) :
    LedgerInv ⟨nb.Hash, ⟨insertEntry (insertEntry blocks nb.Hash (.block nb)) lastKey
      (.hash nb.Hash), cs⟩⟩ := by
  generalize hB : insertEntry (insertEntry blocks nb.Hash (.block nb)) lastKey (.hash nb.Hash) = B
  have gl : bucketGet B lastKey = some (.hash nb.Hash) := by
    rw [← hB, bucketGet_put_self]
  have gH : bucketGet B nb.Hash = some (.block nb) := by
    rw [← hB, bucketGet_put_ne _ _ _ _ hH, bucketGet_put_self]
  have gold : ∀ k, k ≠ nb.Hash → k ≠ lastKey → bucketGet B k = bucketGet blocks k := by
    intro k h1 h2
    rw [← hB, bucketGet_put_ne _ _ _ _ h2, bucketGet_put_ne _ _ _ _ h1]
  have notl : ∀ k x, bucketGet B k = some (.block x) → k ≠ lastKey := by
    intro k x hx e
    rw [e, gl] at hx
    cases hx
  have notl' : ∀ k x, bucketGet blocks k = some (.block x) → k ≠ lastKey := by
    intro k x hx e
    rw [e] at hx
    exact hl x hx
  have hkey' : KeyIsHash B := by
    intro k b hb
    by_cases h1 : k = nb.Hash
    · subst h1
      rw [gH] at hb
      cases hb
      rfl
    · rw [gold k h1 (notl k b hb)] at hb
      exact hkey k b hb
  have persist : ∀ k x, bucketGet blocks k = some (.block x) →
      ∃ y, bucketGet B k = some (.block y) := by
    intro k x hx
    by_cases h1 : k = nb.Hash
    · subst h1; exact ⟨nb, gH⟩
    · exact ⟨x, by rw [gold k h1 (notl' k x hx)]; exact hx⟩
  have sub : ∀ k b, Reachable B nb.Hash k b →
      (k = nb.Hash ∧ b = nb) ∨ (k ≠ nb.Hash ∧ Reachable blocks tip k b) := by
    intro k b hr
    induction hr with
    | tip b hb =>
      rw [gH] at hb
      cases hb
      exact Or.inl ⟨rfl, rfl⟩
    | prev k b b' _ hne hb' ih =>
      by_cases h1 : b.PrevBlockHash = nb.Hash
      · rw [h1] at hb' ⊢
        rw [gH] at hb'
        cases hb'
        exact Or.inl ⟨rfl, rfl⟩
      · have hb'' : bucketGet blocks b.PrevBlockHash = some (.block b') := by
          rw [← gold _ h1 (notl _ _ hb')]; exact hb'
        rcases ih with ⟨_, hbn⟩ | ⟨_, hr⟩
        · subst hbn
          rcases hprev with h0 | ⟨p, hp⟩
          · exact absurd h0 hne
          · have := Reachable_get _ _ _ _ hp
            rw [hb''] at this
            cases this
            exact Or.inr ⟨h1, hp⟩
        · exact Or.inr ⟨h1, Reachable.prev k b b' hr hne hb''⟩
  refine ⟨gl, ⟨nb, gH⟩, hkey', ?_⟩
  intro k b hr hne
  have present : ∃ x, bucketGet blocks b.PrevBlockHash = some (.block x) := by
    rcases sub k b hr with ⟨_, hbn⟩ | ⟨_, hr'⟩
    · subst hbn
      rcases hprev with h0 | ⟨p, hp⟩
      · exact absurd h0 hne
      · exact ⟨p, Reachable_get _ _ _ _ hp⟩
    · obtain ⟨x, hx, _⟩ := hlink k b hr' hne
      exact ⟨x, hx⟩
  obtain ⟨x, hx⟩ := present
  obtain ⟨y, hy⟩ := persist _ x hx
  exact ⟨y, hy, hkey' _ y hy⟩

/-- Putting a block under a hash that is not yet a key, the tip staying as it is, keeps
the invariant. -/
theorem side_inv (bc : Blockchain) (nb : Block) (hinv : LedgerInv bc)
    (hnew : bucketGet bc.db.blocks nb.Hash = none) :
    LedgerInv ⟨bc.tip, ⟨insertEntry bc.db.blocks nb.Hash (.block nb), bc.db.chainstate⟩⟩ := by
  obtain ⟨hl, ⟨tb, htb⟩, hkey, hlink⟩ := hinv
  have hne1 : lastKey ≠ nb.Hash := by
    intro e; rw [e] at hl; rw [hl] at hnew; cases hnew
  have hne2 : bc.tip ≠ nb.Hash := by
    intro e; rw [e] at htb; rw [htb] at hnew; cases hnew
  have gold : ∀ k, k ≠ nb.Hash →
      bucketGet (insertEntry bc.db.blocks nb.Hash (.block nb)) k = bucketGet bc.db.blocks k :=
    fun k h => bucketGet_put_ne _ _ _ _ h
  have sub : ∀ k b, Reachable (insertEntry bc.db.blocks nb.Hash (.block nb)) bc.tip k b →
      Reachable bc.db.blocks bc.tip k b := by
    intro k b hr
    induction hr with
    | tip b hb =>
      rw [gold _ hne2] at hb
      exact Reachable.tip b hb
    | prev k b b' _ hne hb' ih =>
      obtain ⟨x, hx, _⟩ := hlink k b ih hne
      have h1 : b.PrevBlockHash ≠ nb.Hash := by
        intro e; rw [e] at hx; rw [hx] at hnew; cases hnew
      rw [gold _ h1] at hb'
      exact Reachable.prev k b b' ih hne hb'
  refine ⟨?_, ⟨tb, ?_⟩, ?_, ?_⟩
  · show bucketGet (insertEntry bc.db.blocks nb.Hash (.block nb)) lastKey = _
    rw [gold _ hne1]; exact hl
  · show bucketGet (insertEntry bc.db.blocks nb.Hash (.block nb)) bc.tip = _
    rw [gold _ hne2]; exact htb
  · intro k b hb
    by_cases h1 : k = nb.Hash
    · subst h1
      rw [bucketGet_put_self] at hb
      cases hb
      rfl
    · rw [gold _ h1] at hb
      exact hkey k b hb
  · intro k b hr hne
    obtain ⟨x, hx, hxh⟩ := hlink k b (sub k b hr) hne
    have h1 : b.PrevBlockHash ≠ nb.Hash := by
      intro e; rw [e] at hx; rw [hx] at hnew; cases hnew
    exact ⟨x, by
      show bucketGet (insertEntry bc.db.blocks nb.Hash (.block nb)) b.PrevBlockHash = _
      rw [gold _ h1]; exact hx, hxh⟩



/-- The digest the loop of `Run` returns is the one it was started with or a SHA-256
digest. -/
theorem RunLoop_hash (env : Env) (b : Block) :
    ∀ (fuel nonce : Nat) (hash : Bytes) (n : Nat) (h : Bytes),
      RunLoop env b fuel nonce hash = some (n, h) → h = hash ∨ ∃ data, h = env.sha256 data := by
  intro fuel
  induction fuel with
  | zero =>
    intro nonce hash n h hrun
    simp only [RunLoop, Option.some.injEq, Prod.mk.injEq] at hrun
    exact Or.inl hrun.2.symm
  | succ fuel ih =>
    intro nonce hash n h hrun
    unfold RunLoop at hrun
    by_cases hlt : nonce < maxNonce
    · rw [if_pos hlt] at hrun
      cases hd : prepareData env b (nonce : Int) with
      | none => rw [hd] at hrun; simp at hrun
      | some data =>
        rw [hd] at hrun
        simp only at hrun
        by_cases ht : SetBytes (env.sha256 data) < target
        · rw [if_pos ht] at hrun
          simp only [Option.some.injEq, Prod.mk.injEq] at hrun
          exact Or.inr ⟨data, hrun.2.symm⟩
        · rw [if_neg ht] at hrun
          rcases ih _ _ n h hrun with h1 | h1
          · exact Or.inr ⟨data, h1⟩
          · exact Or.inr h1
    · rw [if_neg hlt] at hrun
      simp only [Option.some.injEq, Prod.mk.injEq] at hrun
      exact Or.inl hrun.2.symm

/-- The digest `Run` returns is a SHA-256 digest. -/
theorem Run_hash_digest (env : Env) (b : Block) (n : Nat) (h : Bytes)
    (hrun : Run env b = some (n, h)) : ∃ data, h = env.sha256 data := by
  have hm : maxNonce = 9223372036854775806 + 1 := by decide
  unfold Run at hrun
  rw [hm] at hrun
  unfold RunLoop at hrun
  have hlt : 0 < maxNonce := by decide
  rw [if_pos hlt] at hrun
  cases hd : prepareData env b ((0 : Nat) : Int) with
  | none => rw [hd] at hrun; simp at hrun
  | some data =>
    rw [hd] at hrun
    simp only at hrun
    by_cases ht : SetBytes (env.sha256 data) < target
    · rw [if_pos ht] at hrun
      simp only [Option.some.injEq, Prod.mk.injEq] at hrun
      exact ⟨data, hrun.2.symm⟩
    · rw [if_neg ht] at hrun
      rcases RunLoop_hash env b _ _ _ n h hrun with h1 | h1
      · exact ⟨data, h1⟩
      · exact h1

/-- The fields of the block `NewBlock` returns. -/
theorem NewBlock_fields (env : Env) (now : Int) (txs : List Transaction) (prev : Bytes)
    (height : Int) (blk : Block) (h : NewBlock env now txs prev height = some blk) :
    blk.Timestamp = now ∧ blk.Transactions = txs ∧ blk.PrevBlockHash = prev ∧
      blk.Height = height ∧ ∃ data, blk.Hash = env.sha256 data := by
  unfold NewBlock at h
  simp only at h
  cases hrun : Run env ⟨now, txs, prev, [], 0, height⟩ with
  | none => rw [hrun] at h; simp at h
  | some p =>
    obtain ⟨nonce, hash⟩ := p
    rw [hrun] at h
    simp only [Option.some.injEq] at h
    subst h
    exact ⟨rfl, rfl, rfl, rfl, Run_hash_digest env _ nonce hash hrun⟩

/-- A digest is not the key `l`. -/
theorem digest_ne_lastKey (env : Env) (hd : DigestsLong env) (data : Bytes) :
    env.sha256 data ≠ lastKey := by
  intro e
  have := hd data
  rw [e] at this
  simp [lastKey] at this

/-- What `CreateBlockchain` did when it returned. -/
theorem CreateBlockchain_some (env : Env) (now : Int) (address : Bytes) (bc : Blockchain)
    (h : CreateBlockchain env now false address = some bc) :
    ∃ genesis, NewBlock env now [NewCoinbaseTX env address genesisCoinbaseData []] [] 0 =
        some genesis ∧
      bc = ⟨genesis.Hash, ⟨insertEntry (insertEntry [] genesis.Hash (.block genesis)) lastKey
        (.hash genesis.Hash), none⟩⟩ := by
  unfold CreateBlockchain at h
  simp only [Bool.false_eq_true, if_false, NewGenesisBlock] at h
  cases hnb : NewBlock env now [NewCoinbaseTX env address genesisCoinbaseData []] [] 0 with
  | none => rw [hnb] at h; simp at h
  | some genesis =>
    rw [hnb] at h
    simp only at h
    cases hput : bucketPut ([] : Bucket BlockValue) genesis.Hash (.block genesis) with
    | none => rw [hput] at h; cases h
    | some b1 =>
      obtain ⟨hb1, _, _⟩ := bucketPut_some _ _ _ _ hput
      subst hb1
      rw [hput] at h
      simp only [bucketPut_lastKey, Option.some.injEq] at h
      exact ⟨genesis, rfl, h.symm⟩

/-- The ledger `CreateBlockchain` returns satisfies the invariant. -/
theorem CreateBlockchain_LedgerInv (env : Env) (hd : DigestsLong env) (now : Int)
    (address : Bytes) (bc : Blockchain)
    (h : CreateBlockchain env now false address = some bc) : LedgerInv bc := by
  obtain ⟨genesis, hnb, hbc⟩ := CreateBlockchain_some env now address bc h
  · subst hbc
    obtain ⟨_, _, hp, _, data, hdata⟩ := NewBlock_fields env _ _ _ _ _ hnb
    apply extend_inv [] [] genesis none
    · intro k b hb; simp [bucketGet] at hb
    · intro x hx; simp [bucketGet] at hx
    · intro k b hr
      have := Reachable_get _ _ _ _ hr
      simp [bucketGet] at this
    · rw [hdata]; exact digest_ne_lastKey env hd data
    · left; rw [hp]; rfl

/-- What the reads of the tip found when they did not abort. -/
theorem tipBlock_some (blocks : Bucket BlockValue) (lastHash : Bytes) (tb : Block)
    (h : tipBlock blocks = some (lastHash, tb)) :
    bucketGet blocks lastKey = some (.hash lastHash) ∧
      bucketGet blocks lastHash = some (.block tb) := by
  unfold tipBlock at h
  cases hl : bucketGet blocks lastKey with
  | none => rw [hl] at h; simp at h
  | some v =>
    cases v with
    | block x => rw [hl] at h; simp at h
    | hash lh =>
      rw [hl] at h
      simp only at h
      cases hb : bucketGet blocks lh with
      | none => rw [hb] at h; simp [DeserializeBlock] at h
      | some w =>
        cases w with
        | hash y => rw [hb] at h; simp [DeserializeBlock] at h
        | block x =>
          rw [hb] at h
          simp only [DeserializeBlock, Option.some.injEq, Prod.mk.injEq] at h
          obtain ⟨h1, h2⟩ := h
          subst h1
          subst h2
          exact ⟨rfl, hb⟩

/-- What `MineBlock` did, up to the end of its `Update`, when it returned. -/
theorem MineBlock_some (env : Env) (fuel : Nat) (now : Int) (bc bc' : Blockchain)
    (txs : List Transaction) (blk : Block)
    (h : MineBlock.stored env fuel now bc txs = some (bc', blk)) :
    ∃ lastHash tb, tipBlock bc.db.blocks = some (lastHash, tb) ∧
      NewBlock env now txs lastHash (wrapInt64 (tb.Height + 1)) = some blk ∧
      bc' = ⟨blk.Hash, ⟨insertEntry (insertEntry bc.db.blocks blk.Hash (.block blk)) lastKey
        (.hash blk.Hash), bc.db.chainstate⟩⟩ := by
  unfold MineBlock.stored at h
  split at h
  · cases ht : tipBlock bc.db.blocks with
    | none => rw [ht] at h; simp at h
    | some p =>
      obtain ⟨lastHash, tb⟩ := p
      rw [ht] at h
      simp only at h
      cases hnb : NewBlock env now txs lastHash (wrapInt64 (tb.Height + 1)) with
      | none => rw [hnb] at h; simp at h
      | some nb =>
        rw [hnb] at h
        simp only at h
        cases hput : bucketPut bc.db.blocks nb.Hash (.block nb) with
        | none => rw [hput] at h; cases h
        | some b1 =>
          obtain ⟨hb1, _, _⟩ := bucketPut_some _ _ _ _ hput
          subst hb1
          rw [hput] at h
          simp only [bucketPut_lastKey, Option.some.injEq, Prod.mk.injEq] at h
          obtain ⟨h1, h2⟩ := h
          subst h2
          exact ⟨lastHash, tb, rfl, hnb, h1.symm⟩
  · simp at h

/-- The block `MineBlock` returns is the block it stored, but for what its
`PrevBlockHash` reads; the ledger does not depend on that. -/
theorem MineBlock_returns (env : Env) (fuel : Nat) (now : Int) (bc bc' : Blockchain)
    (txs : List Transaction) (stale : Bytes) (blk : Block) :
    MineBlock env fuel now bc txs stale = some (bc', blk) ↔
      ∃ stored, MineBlock.stored env fuel now bc txs = some (bc', stored) ∧
        blk = { stored with PrevBlockHash := stale } := by
  unfold MineBlock
  cases hs : MineBlock.stored env fuel now bc txs with
  | none => simp
  | some p =>
    obtain ⟨s, nb⟩ := p
    simp only [Option.some.injEq, Prod.mk.injEq]
    constructor
    · rintro ⟨h1, h2⟩
      exact ⟨nb, ⟨h1, rfl⟩, h2.symm⟩
    · rintro ⟨stored, ⟨h1, h2⟩, h3⟩
      subst h2
      exact ⟨h1, h3.symm⟩

/-- `MineBlock` keeps the invariant. -/
theorem MineBlock_LedgerInv (env : Env) (hd : DigestsLong env) (fuel : Nat) (now : Int)
    (bc bc' : Blockchain) (txs : List Transaction) (blk : Block) (hinv : LedgerInv bc)
    (h : MineBlock.stored env fuel now bc txs = some (bc', blk)) : LedgerInv bc' := by
  obtain ⟨lastHash, tb, ht, hnb, hbc'⟩ := MineBlock_some env fuel now bc bc' txs blk h
  obtain ⟨hl, ⟨tb', htb'⟩, hkey, hlink⟩ := hinv
  obtain ⟨hl', htb⟩ := tipBlock_some _ _ _ ht
  rw [hl] at hl'
  simp only [Option.some.injEq, BlockValue.hash.injEq] at hl'
  subst hl'
  obtain ⟨_, _, hp, _, data, hdata⟩ := NewBlock_fields env _ _ _ _ _ hnb
  rw [hbc']
  apply extend_inv bc.db.blocks bc.tip blk bc.db.chainstate hkey
  · intro x hx; rw [hl] at hx; cases hx
  · exact hlink
  · rw [hdata]; exact digest_ne_lastKey env hd data
  · right
    rw [hp]
    exact ⟨tb, Reachable.tip tb htb⟩

/-- `AddBlock` keeps the invariant for a block that does not become the tip, and for one
that does when its `PrevBlockHash` is empty or the key of a block reachable from the
tip. -/
theorem AddBlock_LedgerInv (bc bc' : Blockchain) (block : Block) (hinv : LedgerInv bc)
    (h : AddBlock bc block = some bc')
    (hcond : bc'.tip = bc.tip ∨ block.PrevBlockHash.length = 0 ∨
      ∃ p, Reachable bc.db.blocks bc.tip block.PrevBlockHash p) : LedgerInv bc' := by
  unfold AddBlock at h
  cases hget : bucketGet bc.db.blocks block.Hash with
  | some v =>
    simp only [hget, Option.some.injEq] at h
    subst h
    exact hinv
  | none =>
    simp only [hget] at h
    cases hput : bucketPut bc.db.blocks block.Hash (.block block) with
    | none => simp [hput] at h
    | some b1 =>
    obtain ⟨hb1, _, _⟩ := bucketPut_some _ _ _ _ hput
    subst hb1
    simp only [hput] at h
    cases htip : tipBlock (insertEntry bc.db.blocks block.Hash (.block block)) with
    | none => simp [htip] at h
    | some p =>
      obtain ⟨lastHash, last⟩ := p
      simp only [htip] at h
      by_cases hgt : block.Height > last.Height
      · simp only [hgt, if_true, bucketPut_lastKey, Option.some.injEq] at h
        subst h
        obtain ⟨hl, ⟨tb, htb⟩, hkey, hlink⟩ := hinv
        have hH : block.Hash ≠ lastKey := by
          intro e; rw [e] at hget; rw [hget] at hl; cases hl
        have hprev : block.PrevBlockHash.length = 0 ∨
            ∃ p, Reachable bc.db.blocks bc.tip block.PrevBlockHash p := by
          rcases hcond with h1 | h1
          · exfalso
            simp only at h1
            rw [← h1] at htb; rw [htb] at hget; cases hget
          · exact h1
        exact extend_inv bc.db.blocks bc.tip block bc.db.chainstate hkey
          (by intro x hx; rw [hl] at hx; cases hx) hlink hH hprev
      · simp only [hgt, if_false, Option.some.injEq] at h
        subst h
        exact side_inv bc block hinv hget

/-- Claim C12, amended: the ledger invariant (every block reachable from the tip, other
than one with an empty `PrevBlockHash`, has a `PrevBlockHash` equal to the hash of a
block present in the store; together with: the key `l` holds the tip, the tip block is
stored, blocks are stored under their own hash) holds after `CreateBlockchain`, is
preserved by `MineBlock`, and is preserved by `AddBlock` for every block that does not
become the tip and for every block that becomes the tip and whose `PrevBlockHash` is
empty or the hash of a block reachable from the tip. -/
theorem ledger_link_invariant (env : Env) (hd : DigestsLong env) :
    (∀ now address bc, CreateBlockchain env now false address = some bc →
      LedgerInv bc ∧ LinkInv bc) ∧
    (∀ fuel now bc txs stale bc' blk, LedgerInv bc →
      MineBlock env fuel now bc txs stale = some (bc', blk) → LedgerInv bc' ∧ LinkInv bc') ∧
    (∀ bc block bc', LedgerInv bc → AddBlock bc block = some bc' →
      (bc'.tip = bc.tip ∨ block.PrevBlockHash.length = 0 ∨
        ∃ p, Reachable bc.db.blocks bc.tip block.PrevBlockHash p) →
      LedgerInv bc' ∧ LinkInv bc') := by
  refine ⟨?_, ?_, ?_⟩
  · intro now address bc h
    have := CreateBlockchain_LedgerInv env hd now address bc h
    exact ⟨this, this.2.2.2⟩
  · intro fuel now bc txs stale bc' blk hinv h
    obtain ⟨stored, hs, _⟩ := (MineBlock_returns env fuel now bc bc' txs stale blk).1 h
    have := MineBlock_LedgerInv env hd fuel now bc bc' txs stored hinv hs
    exact ⟨this, this.2.2.2⟩
  · intro bc block bc' hinv h hc
    have := AddBlock_LedgerInv bc bc' block hinv h hc
    exact ⟨this, this.2.2.2⟩

/-- The digests of `demoEnv` have two bytes. -/
theorem demoEnv_DigestsLong : DigestsLong demoEnv := by
  intro x
  simp [demoEnv, demoSha]

set_option maxRecDepth 100000 in
/-- Claim C12, amended, in `demoEnv`: the genesis ledger, and the genesis ledger after
`AddBlock` of a block of height 1 whose `PrevBlockHash` is the genesis hash. -/
theorem ledger_link_invariant_witness :
    LedgerInv genesisState ∧ LinkInv higherState :=
  have h1 := ((ledger_link_invariant demoEnv demoEnv_DigestsLong).1 1000 (keyHashOf aliceKey)
    genesisState (by decide)).1
  ⟨h1, ((ledger_link_invariant demoEnv demoEnv_DigestsLong).2.2 genesisState higherBlock
    higherState h1 (by decide)
    (Or.inr (Or.inr ⟨genesisBlock, Reachable.tip genesisBlock (by decide)⟩))).2⟩

set_option maxRecDepth 100000 in
/-- Claim C12 as stated fails: `AddBlock` of `danglingBlock`, a block higher than the tip
whose `PrevBlockHash` names no stored block, makes it the tip, and the link invariant
no longer holds. -/
theorem AddBlock_dangling_counterexample :
    ¬ (∀ (bc : Blockchain) (block : Block) (bc' : Blockchain),
        LedgerInv bc → AddBlock bc block = some bc' → LinkInv bc') := by
  intro h
  have h1 : LedgerInv genesisState :=
    CreateBlockchain_LedgerInv demoEnv demoEnv_DigestsLong 1000 (keyHashOf aliceKey)
      genesisState (by decide)
  have h2 : LinkInv danglingState := h genesisState danglingBlock danglingState h1 (by decide)
  have h3 : Reachable danglingState.db.blocks danglingState.tip danglingState.tip danglingBlock :=
    Reachable.tip danglingBlock (by decide)
  obtain ⟨b', hb', _⟩ := h2 _ _ h3 (by decide)
  have h4 : bucketGet danglingState.db.blocks danglingBlock.PrevBlockHash = none := by decide
  rw [h4] at hb'
  cases hb'

/-! ## `MineBlock` -/

/-! ## `MineBlock` -/

/-- The loop of `Run` returns whenever the Merkle root of the block is computed. -/
theorem RunLoop_total (env : Env) (b : Block) (root : Bytes)
    (hroot : HashTransactions env b = some root) :
    ∀ (fuel nonce : Nat) (hash : Bytes), ∃ r, RunLoop env b fuel nonce hash = some r := by
  intro fuel
  induction fuel with
  | zero => intro nonce hash; exact ⟨_, rfl⟩
  | succ fuel ih =>
    intro nonce hash
    unfold RunLoop
    by_cases hlt : nonce < maxNonce
    · rw [if_pos hlt]
      simp only [prepareData, hroot]
      split
      · exact ⟨_, rfl⟩
      · exact ih _ _
    · rw [if_neg hlt]
      exact ⟨_, rfl⟩

/-- The function `NewBlock` returns a block whenever `NewMerkleTree` computes a root. -/
theorem NewBlock_total (env : Env) (now : Int) (txs : List Transaction) (prev : Bytes)
    (height : Int) (hroot : (NewMerkleTree env (txs.map env.gobTx)).isSome = true) :
    ∃ blk, NewBlock env now txs prev height = some blk := by
  have hr : ∃ root, HashTransactions env ⟨now, txs, prev, [], 0, height⟩ = some root := by
    unfold HashTransactions
    cases hm : NewMerkleTree env (txs.map env.gobTx) with
    | none => rw [hm] at hroot; simp at hroot
    | some t => exact ⟨_, rfl⟩
  obtain ⟨root, hroot'⟩ := hr
  obtain ⟨⟨nonce, hash⟩, hrun⟩ := RunLoop_total env _ root hroot' maxNonce 0 (List.replicate 32 0)
  exact ⟨⟨now, txs, prev, hash, (nonce : Int), height⟩, by simp only [NewBlock, Run, hrun]⟩

/-- Wraparound leaves a value within the range of `int` alone. -/
theorem wrapInt64_id (x : Int) (h1 : -9223372036854775808 ≤ x) (h2 : x < 9223372036854775808) :
    wrapInt64 x = x := by
  unfold wrapInt64
  omega

/-- The method `MineBlock` completes its `Update` on a ledger that has its tip block,
for transactions that pass verification and have a Merkle root, when digests are keys
the store accepts. -/
theorem MineBlock_stored_total (env : Env) (hd : DigestsLong env) (hfit : DigestsFit env)
    (fuel : Nat) (now : Int) (bc : Blockchain) (txs : List Transaction) (lastHash : Bytes)
    (tb : Block) (htip : tipBlock bc.db.blocks = some (lastHash, tb))
    (hver : ∀ tx ∈ txs, VerifyTransaction env fuel bc tx = some true)
    (hroot : (NewMerkleTree env (txs.map env.gobTx)).isSome = true) :
    ∃ blk, NewBlock env now txs lastHash (wrapInt64 (tb.Height + 1)) = some blk ∧
      MineBlock.stored env fuel now bc txs =
        some (⟨blk.Hash, ⟨insertEntry (insertEntry bc.db.blocks blk.Hash (.block blk)) lastKey
          (.hash blk.Hash), bc.db.chainstate⟩⟩, blk) := by
  obtain ⟨blk, hnb⟩ := NewBlock_total env now txs lastHash (wrapInt64 (tb.Height + 1)) hroot
  obtain ⟨_, _, _, _, data, hdata⟩ := NewBlock_fields env _ _ _ _ _ hnb
  have hk1 : blk.Hash.length ≠ 0 := by
    have := hd data
    rw [hdata]
    omega
  have hk2 : blk.Hash.length ≤ MaxKeySize := by rw [hdata]; exact hfit data
  have hall : txs.all (fun tx => decide (VerifyTransaction env fuel bc tx = some true)) = true := by
    rw [List.all_eq_true]
    intro tx htx
    simpa using hver tx htx
  refine ⟨blk, hnb, ?_⟩
  simp only [MineBlock.stored, hall, if_true, htip, hnb, bucketPut_of_valid _ _ _ hk1 hk2,
    bucketPut_lastKey]

/-- Claim C14, amended: for a ledger whose tip block has a height below the largest
`int`, and a transaction list that passes verification and for which `NewMerkleTree`
computes a root (so not the empty list), `MineBlock` returns a block whose `Height` is
the tip block's plus 1, stores under the hash of that block the block with the same
fields and the tip hash as `PrevBlockHash`, sets the persisted and the in-memory tip to
its hash, and `GetBestHeight`, which returned the tip block's height, afterwards returns
that height plus 1.  What the `PrevBlockHash` of the returned block reads is left out. -/
theorem MineBlock_extends_tip (env : Env) (hd : DigestsLong env) (hfit : DigestsFit env)
    (fuel : Nat) (now : Int) (bc : Blockchain) (txs : List Transaction) (stale : Bytes)
    (lastHash : Bytes) (tb : Block)
    (htip : tipBlock bc.db.blocks = some (lastHash, tb))
    (hver : ∀ tx ∈ txs, VerifyTransaction env fuel bc tx = some true)
    (hroot : (NewMerkleTree env (txs.map env.gobTx)).isSome = true)
    (hlo : -9223372036854775808 ≤ tb.Height) (hhi : tb.Height < 9223372036854775807) :
    ∃ bc' blk, MineBlock env fuel now bc txs stale = some (bc', blk) ∧
      blk.Height = tb.Height + 1 ∧ blk.Transactions = txs ∧
      bucketGet bc'.db.blocks blk.Hash =
        some (.block { blk with PrevBlockHash := lastHash }) ∧
      bucketGet bc'.db.blocks lastKey = some (.hash blk.Hash) ∧ bc'.tip = blk.Hash ∧
      GetBestHeight bc = some tb.Height ∧ GetBestHeight bc' = some (tb.Height + 1) := by
  obtain ⟨blk, hnb, hmine⟩ := MineBlock_stored_total env hd hfit fuel now bc txs lastHash tb
    htip hver hroot
  obtain ⟨_, htx, hp, hh, data, hdata⟩ := NewBlock_fields env _ _ _ _ _ hnb
  have hH : blk.Hash ≠ lastKey := by rw [hdata]; exact digest_ne_lastKey env hd data
  have g1 : bucketGet (insertEntry (insertEntry bc.db.blocks blk.Hash (.block blk)) lastKey
      (.hash blk.Hash)) blk.Hash = some (.block blk) := by
    rw [bucketGet_put_ne _ _ _ _ hH, bucketGet_put_self]
  have g2 : bucketGet (insertEntry (insertEntry bc.db.blocks blk.Hash (.block blk)) lastKey
      (.hash blk.Hash)) lastKey = some (.hash blk.Hash) := bucketGet_put_self _ _ _
  have hheight : blk.Height = tb.Height + 1 := by
    rw [hh]; exact wrapInt64_id _ (by omega) (by omega)
  have hback : ({ ({ blk with PrevBlockHash := stale } : Block) with
      PrevBlockHash := lastHash } : Block) = blk := by
    cases blk
    simp only at hp
    subst hp
    rfl
  refine ⟨⟨blk.Hash, ⟨insertEntry (insertEntry bc.db.blocks blk.Hash (.block blk)) lastKey
    (.hash blk.Hash), bc.db.chainstate⟩⟩, { blk with PrevBlockHash := stale }, ?_, hheight,
    htx, ?_, g2, rfl, ?_, ?_⟩
  · simp only [MineBlock, hmine]
  · rw [hback]
    exact g1
  · simp only [GetBestHeight, htip]
  · simp only [GetBestHeight, tipBlock, g2, g1, DeserializeBlock, hheight]

/-- The digests of `demoEnv` are keys the store accepts. -/
theorem demoEnv_DigestsFit : DigestsFit demoEnv := by
  intro x
  simp [demoEnv, demoSha, MaxKeySize]

set_option maxRecDepth 100000 in
/-- Claim C14, amended, at the genesis ledger and one coinbase transaction, the returned
block's `PrevBlockHash` reading `[0]`. -/
theorem MineBlock_extends_tip_witness :
    ∃ bc' blk, MineBlock demoEnv 10 1001 genesisState [genesisTx] [0] = some (bc', blk) ∧
      blk.Height = genesisBlock.Height + 1 ∧ blk.Transactions = [genesisTx] ∧
      bucketGet bc'.db.blocks blk.Hash =
        some (.block { blk with PrevBlockHash := genesisBlock.Hash }) ∧
      bucketGet bc'.db.blocks lastKey = some (.hash blk.Hash) ∧ bc'.tip = blk.Hash ∧
      GetBestHeight genesisState = some genesisBlock.Height ∧
      GetBestHeight bc' = some (genesisBlock.Height + 1) :=
  MineBlock_extends_tip demoEnv demoEnv_DigestsLong demoEnv_DigestsFit 10 1001 genesisState
    [genesisTx] [0] genesisBlock.Hash genesisBlock (by decide) (by decide) (by decide)
    (by decide) (by decide)

/-- The function `Run` aborts when the Merkle root of the block is not computed. -/
theorem Run_none (env : Env) (b : Block) (h : HashTransactions env b = none) :
    Run env b = none := by
  have hstep : ∀ (fuel : Nat) (hash : Bytes), RunLoop env b (fuel + 1) 0 hash = none := by
    intro fuel hash
    have h0 : (0 : Nat) < maxNonce := by decide
    simp only [RunLoop, h0, if_true, prepareData, h]
  exact hstep 9223372036854775806 (List.replicate 32 0)

/-- The method `MineBlock` aborts on every list of five or more transactions. -/
theorem MineBlock_none_of_five_le (env : Env) (fuel : Nat) (now : Int) (bc : Blockchain)
    (txs : List Transaction) (stale : Bytes) (h : 5 ≤ txs.length) :
    MineBlock env fuel now bc txs stale = none := by
  have hnb : ∀ prev height, NewBlock env now txs prev height = none := by
    intro prev height
    have hr : Run env ⟨now, txs, prev, [], 0, height⟩ = none := by
      apply Run_none
      unfold HashTransactions
      rw [NewMerkleTree_aborts_of_five_le env _ (by simpa using h)]
    simp only [NewBlock, hr]
  have hs : MineBlock.stored env fuel now bc txs = none := by
    unfold MineBlock.stored
    split
    · cases tipBlock bc.db.blocks with
      | none => rfl
      | some p => simp only [hnb]
    · rfl
  simp only [MineBlock, hs]

set_option maxRecDepth 100000 in
/-- Claim C14 as stated fails: on the genesis ledger the empty transaction list passes
verification and the tip block is there, yet `MineBlock` aborts instead of returning a
block (`NewMerkleTree` reads the first of no nodes); and above a tip block of height
`2^63 - 1`, which `GetBestHeight` reports, the block `MineBlock` returns has the height
`-2^63`, not the previous height plus 1. -/
theorem MineBlock_counterexample :
    (∀ tx ∈ ([] : List Transaction), VerifyTransaction demoEnv 10 genesisState tx = some true) ∧
    tipBlock genesisState.db.blocks = some (genesisBlock.Hash, genesisBlock) ∧
    MineBlock demoEnv 10 1001 genesisState [] genesisBlock.Hash = none ∧
    GetBestHeight maxHeightState = some 9223372036854775807 ∧
    (MineBlock demoEnv 10 1002 maxHeightState [genesisTx] maxHeightBlock.Hash).map
      (fun r => r.2.Height) = some (-9223372036854775808) :=
  ⟨by decide, by decide, by decide, by decide, by decide⟩

/-! ## The iterator over a mined chain -/

/-- The iterator walk from the head of a chain returns the chain, given fuel for it. -/
theorem iterBlocks_of_IsChain (db : DB) :
    ∀ (chain : List Block) (h : Bytes) (fuel : Nat), IsChain db.blocks h chain →
      chain.length ≤ fuel → iterBlocks db fuel h = some chain := by
  intro chain
  induction chain with
  | nil => intro h fuel hc; exact absurd hc (by simp [IsChain])
  | cons b rest ih =>
    intro h fuel hc hlen
    cases fuel with
    | zero => simp at hlen
    | succ fuel =>
      cases rest with
      | nil =>
        obtain ⟨h1, _, h3⟩ := hc
        simp [iterBlocks, Next, h1, DeserializeBlock, h3]
      | cons c rest =>
        obtain ⟨h1, _, h3, h4⟩ := hc
        have := ih b.PrevBlockHash fuel h4 (by simp at hlen ⊢; omega)
        simp [iterBlocks, Next, h1, DeserializeBlock, h3, this]

/-- The loop of `GetBlockHashes` from the head of a chain appends the hashes of the
chain, in order. -/
theorem GetBlockHashesLoop_of_IsChain (db : DB) :
    ∀ (chain : List Block) (h : Bytes) (fuel : Nat) (acc : List Bytes),
      IsChain db.blocks h chain → chain.length ≤ fuel →
      GetBlockHashesLoop db fuel h acc = some (acc ++ chain.map (fun b => b.Hash)) := by
  intro chain
  induction chain with
  | nil => intro h fuel acc hc; exact absurd hc (by simp [IsChain])
  | cons b rest ih =>
    intro h fuel acc hc hlen
    cases fuel with
    | zero => simp at hlen
    | succ fuel =>
      cases rest with
      | nil =>
        obtain ⟨h1, _, h3⟩ := hc
        simp [GetBlockHashesLoop, Next, h1, DeserializeBlock, h3]
      | cons c rest =>
        obtain ⟨h1, _, h3, h4⟩ := hc
        have := ih b.PrevBlockHash fuel (acc ++ [b.Hash]) h4 (by simp at hlen ⊢; omega)
        simp [GetBlockHashesLoop, Next, h1, DeserializeBlock, h3, this]

/-- A put at a key that is the hash of no block of a chain leaves the chain in place. -/
theorem IsChain_put (blocks : Bucket BlockValue) (k : Bytes) (v : BlockValue) :
    ∀ (chain : List Block) (h : Bytes), IsChain blocks h chain →
      k ∉ chain.map (fun b => b.Hash) → IsChain (insertEntry blocks k v) h chain := by
  intro chain
  induction chain with
  | nil => intro h hc; exact absurd hc (by simp [IsChain])
  | cons b rest ih =>
    intro h hc hk
    cases rest with
    | nil =>
      obtain ⟨h1, h2, h3⟩ := hc
      have hne : h ≠ k := by
        intro e; apply hk; simp [h2, e]
      exact ⟨by rw [bucketGet_put_ne _ _ _ _ hne]; exact h1, h2, h3⟩
    | cons c rest =>
      obtain ⟨h1, h2, h3, h4⟩ := hc
      have hne : h ≠ k := by
        intro e; apply hk; simp [h2, e]
      refine ⟨by rw [bucketGet_put_ne _ _ _ _ hne]; exact h1, h2, h3, ?_⟩
      apply ih _ h4
      intro hmem
      apply hk
      simp only [List.map_cons, List.mem_cons] at hmem ⊢
      exact Or.inr hmem

/-- The head of a chain is stored under the hash the chain starts at, and has it. -/
theorem IsChain_head (blocks : Bucket BlockValue) (h : Bytes) (b : Block) (rest : List Block)
    (hc : IsChain blocks h (b :: rest)) : bucketGet blocks h = some (.block b) ∧ b.Hash = h := by
  cases rest with
  | nil => exact ⟨hc.1, hc.2.1⟩
  | cons c rest => exact ⟨hc.1, hc.2.1⟩



/-- The list `heightsDown m` starts with `m`. -/
theorem heightsDown_head (m : Nat) : ∃ rest, heightsDown m = (m : Int) :: rest := by
  cases m with
  | zero => exact ⟨[], rfl⟩
  | succ n => exact ⟨heightsDown n, rfl⟩

/-- After `CreateBlockchain` the chain is the genesis block alone, of height 0. -/
theorem CreateBlockchain_ChainState (env : Env) (hd : DigestsLong env) (now : Int)
    (address : Bytes) (bc : Blockchain) (g : Block)
    (h : CreateBlockchain env now false address = some bc)
    (hg : NewGenesisBlock env now (NewCoinbaseTX env address genesisCoinbaseData []) = some g) :
    ChainState bc [g] 0 := by
  obtain ⟨genesis, hnb, hbc⟩ := CreateBlockchain_some env now address bc h
  have hgg : g = genesis := by
    unfold NewGenesisBlock at hg
    rw [hnb] at hg
    exact (Option.some.inj hg).symm
  subst hgg
  subst hbc
  obtain ⟨_, _, hp, hh, data, hdata⟩ := NewBlock_fields env _ _ _ _ _ hg
  have hH : g.Hash ≠ lastKey := by rw [hdata]; exact digest_ne_lastKey env hd data
  refine ⟨bucketGet_put_self _ _ _, ⟨?_, rfl, ?_⟩, ?_, ?_, rfl⟩
  · show bucketGet (insertEntry (insertEntry [] g.Hash (BlockValue.block g)) lastKey
      (BlockValue.hash g.Hash)) g.Hash = _
    rw [bucketGet_put_ne _ _ _ _ hH, bucketGet_put_self]
  · rw [hp]; rfl
  · intro b hb
    simp only [List.mem_singleton] at hb
    subst hb
    rw [hdata]; exact hd data
  · simp [heightsDown, hh]

/-- The method `MineBlock` puts its block in front of the chain, one higher, when the
hash of the block is new and the height stays in the range of `int`. -/
theorem MineBlock_ChainState (env : Env) (hd : DigestsLong env) (fuel : Nat) (now : Int)
    (bc bc' : Blockchain) (txs : List Transaction) (blk : Block) (chain : List Block) (m : Nat)
    (hs : ChainState bc chain m) (h : MineBlock.stored env fuel now bc txs = some (bc', blk))
    (hnew : blk.Hash ∉ chain.map (fun b => b.Hash)) (hm : m + 1 < 9223372036854775808) :
    ChainState bc' (blk :: chain) (m + 1) := by
  obtain ⟨hl, hc, hlen2, hheights, hlen⟩ := hs
  obtain ⟨lastHash, tb, ht, hnb, hbc'⟩ := MineBlock_some env fuel now bc bc' txs blk h
  obtain ⟨hl', htb⟩ := tipBlock_some _ _ _ ht
  rw [hl] at hl'
  simp only [Option.some.injEq, BlockValue.hash.injEq] at hl'
  subst hl'
  obtain ⟨_, _, hp, hh, data, hdata⟩ := NewBlock_fields env _ _ _ _ _ hnb
  have hH : blk.Hash ≠ lastKey := by rw [hdata]; exact digest_ne_lastKey env hd data
  cases chain with
  | nil => simp at hlen
  | cons c rest =>
    obtain ⟨hc1, hc2⟩ := IsChain_head _ _ _ _ hc
    rw [htb] at hc1
    simp only [Option.some.injEq, BlockValue.block.injEq] at hc1
    subst hc1
    have htbH : tb.Height = (m : Int) := by
      obtain ⟨r, hr⟩ := heightsDown_head m
      rw [hr] at hheights
      simp only [List.map_cons, List.cons.injEq] at hheights
      exact hheights.1
    have hblkH : blk.Height = ((m + 1 : Nat) : Int) := by
      rw [hh, htbH, wrapInt64_id _ (by omega) (by omega)]
      push_cast; rfl
    have hlk : lastKey ∉ (tb :: rest).map (fun b => b.Hash) := by
      intro hmem
      rw [List.mem_map] at hmem
      obtain ⟨b, hb, hbe⟩ := hmem
      have := hlen2 b hb
      rw [hbe] at this
      simp [lastKey] at this
    rw [hbc']
    refine ⟨bucketGet_put_self _ _ _, ⟨?_, rfl, ?_, ?_⟩, ?_, ?_, ?_⟩
    · show bucketGet (insertEntry (insertEntry bc.db.blocks blk.Hash (BlockValue.block blk)) lastKey
        (BlockValue.hash blk.Hash)) blk.Hash = _
      rw [bucketGet_put_ne _ _ _ _ hH, bucketGet_put_self]
    · rw [hp, ← hc2]
      have := hlen2 tb (List.mem_cons_self _ _)
      omega
    · rw [hp]
      exact IsChain_put _ _ _ _ _ (IsChain_put _ _ _ _ _ hc hnew) hlk
    · intro b hb
      rcases List.mem_cons.1 hb with e | hb'
      · subst e
        rw [hdata]; exact hd data
      · exact hlen2 b hb'
    · simp only [List.map_cons, heightsDown, hblkH]
      rw [← hheights]
      rfl
    · simp only [List.length_cons] at hlen ⊢
      omega

/-- The blocks returned by `mineAll` are one for each call, in front of `made`. -/
theorem mineAll_suffix (env : Env) (fuel : Nat) :
    ∀ (calls : List (Int × List Transaction)) (bc : Blockchain) (made : List Block)
      (bcN : Blockchain) (minedN : List Block),
      mineAll env fuel bc made calls = some (bcN, minedN) →
      ∃ new, minedN = new ++ made ∧ new.length = calls.length := by
  intro calls
  induction calls with
  | nil =>
    intro bc made bcN minedN h
    simp only [mineAll, Option.some.injEq, Prod.mk.injEq] at h
    exact ⟨[], by simp [h.2], rfl⟩
  | cons c rest ih =>
    intro bc made bcN minedN h
    obtain ⟨now, txs⟩ := c
    unfold mineAll at h
    cases hm : MineBlock.stored env fuel now bc txs with
    | none => rw [hm] at h; simp at h
    | some p =>
      obtain ⟨bc', blk⟩ := p
      rw [hm] at h
      obtain ⟨new, h1, h2⟩ := ih bc' (blk :: made) bcN minedN h
      exact ⟨new ++ [blk], by simp [h1], by simp [h2]⟩

/-- A run of `MineBlock` calls with pairwise distinct block hashes builds the chain of
the blocks it returns, the newest first, on top of the chain it started from. -/
theorem mineAll_ChainState (env : Env) (hd : DigestsLong env) (fuel : Nat) (g : Block) :
    ∀ (calls : List (Int × List Transaction)) (bc : Blockchain) (made : List Block)
      (bcN : Blockchain) (minedN : List Block),
      ChainState bc (made ++ [g]) made.length →
      mineAll env fuel bc made calls = some (bcN, minedN) →
      ((minedN ++ [g]).map (fun b => b.Hash)).Nodup →
      made.length + calls.length < 9223372036854775808 →
      ChainState bcN (minedN ++ [g]) minedN.length := by
  intro calls
  induction calls with
  | nil =>
    intro bc made bcN minedN hs h _ _
    simp only [mineAll, Option.some.injEq, Prod.mk.injEq] at h
    obtain ⟨h1, h2⟩ := h
    subst h1
    subst h2
    exact hs
  | cons c rest ih =>
    intro bc made bcN minedN hs h hnd hlen
    obtain ⟨now, txs⟩ := c
    have h' := h
    unfold mineAll at h'
    cases hm : MineBlock.stored env fuel now bc txs with
    | none => rw [hm] at h'; simp at h'
    | some p =>
      obtain ⟨bc', blk⟩ := p
      rw [hm] at h'
      simp only at h'
      obtain ⟨new, h1, _⟩ := mineAll_suffix env fuel rest bc' (blk :: made) bcN minedN h'
      have hnew : blk.Hash ∉ (made ++ [g]).map (fun b => b.Hash) := by
        rw [h1] at hnd
        simp only [List.append_assoc, List.cons_append, List.map_append, List.map_cons] at hnd
        have hnd2 := (List.nodup_append.1 hnd).2.1
        have := (List.nodup_cons.1 hnd2).1
        simpa using this
      simp only [List.length_cons] at hlen
      have hs' := MineBlock_ChainState env hd fuel now bc bc' txs blk (made ++ [g]) made.length
        hs hm hnew (by omega)
      exact ih bc' (blk :: made) bcN minedN hs' h' hnd (by simp only [List.length_cons]; omega)

/-- Claim C13: on a ledger built by `CreateBlockchain` followed by `n` calls of
`MineBlock` (`n` below `2^63`, the block hashes pairwise distinct, digests at least two
bytes long), the iterator walk from the tip to the block with an empty `PrevBlockHash`
returns exactly the `n + 1` blocks, the newest first and the genesis block last, their
heights are `n, n - 1, ..., 0` in that order, and `GetBlockHashes` returns their hashes
in the same order. -/
theorem iterator_walks_mined_chain (env : Env) (hd : DigestsLong env) (fuel : Nat) (now : Int)
    (address : Bytes) (calls : List (Int × List Transaction)) (bc0 bcN : Blockchain)
    (g : Block) (mined : List Block)
    (hc : CreateBlockchain env now false address = some bc0)
    (hg : NewGenesisBlock env now (NewCoinbaseTX env address genesisCoinbaseData []) = some g)
    (hm : mineAll env fuel bc0 [] calls = some (bcN, mined))
    (hdistinct : ((mined ++ [g]).map (fun b => b.Hash)).Nodup)
    (hn : calls.length < 9223372036854775808) :
    mined.length = calls.length ∧
    ∀ fuel', calls.length + 1 ≤ fuel' →
      iterBlocks bcN.db fuel' bcN.tip = some (mined ++ [g]) ∧
      (mined ++ [g]).length = calls.length + 1 ∧
      (mined ++ [g]).map (fun b => b.Height) = heightsDown calls.length ∧
      GetBlockHashes fuel' bcN = some ((mined ++ [g]).map (fun b => b.Hash)) := by
  have h0 := CreateBlockchain_ChainState env hd now address bc0 g hc hg
  obtain ⟨new, h1, h2⟩ := mineAll_suffix env fuel calls bc0 [] bcN mined hm
  have hlen : mined.length = calls.length := by rw [h1]; simp [h2]
  have hs := mineAll_ChainState env hd fuel g calls bc0 [] bcN mined h0 hm hdistinct
    (by simpa using hn)
  obtain ⟨_, hchain, _, hheights, hl⟩ := hs
  refine ⟨hlen, ?_⟩
  intro fuel' hf
  have hl' : (mined ++ [g]).length ≤ fuel' := by rw [hl, hlen]; exact hf
  refine ⟨iterBlocks_of_IsChain bcN.db _ _ _ hchain hl', by rw [hl, hlen], ?_, ?_⟩
  · rw [hheights, hlen]
  · have := GetBlockHashesLoop_of_IsChain bcN.db _ _ _ [] hchain hl'
    simpa [GetBlockHashes] using this

set_option maxRecDepth 100000 in
/-- Claim C13 at the genesis ledger of `demoEnv` and three calls of `MineBlock`. -/
theorem iterator_walks_mined_chain_witness :
    threeMined.2.length = 3 ∧
    ∀ fuel', threeCalls.length + 1 ≤ fuel' →
      iterBlocks threeMined.1.db fuel' threeMined.1.tip = some (threeMined.2 ++ [genesisBlock]) ∧
      (threeMined.2 ++ [genesisBlock]).length = threeCalls.length + 1 ∧
      (threeMined.2 ++ [genesisBlock]).map (fun b => b.Height) = heightsDown threeCalls.length ∧
      GetBlockHashes fuel' threeMined.1 =
        some ((threeMined.2 ++ [genesisBlock]).map (fun b => b.Hash)) :=
  iterator_walks_mined_chain demoEnv demoEnv_DigestsLong 10 1000 (keyHashOf aliceKey) threeCalls
    genesisState threeMined.1 genesisBlock threeMined.2 (by decide) (by decide) (by decide)
    (by decide) (by decide)

/-! ## Selection of spendable outputs -/

/-- Every selected output is locked to the key hash. -/
theorem selectWhileBelow_locked (keyHash : Bytes) (amount : Int) :
    ∀ (es : List (Bytes × Nat × TXOutput)) (acc : Int),
      ∀ e ∈ selectWhileBelow keyHash amount acc es, IsLockedWithKey e.2.2 keyHash = true := by
  intro es
  induction es with
  | nil => intro acc e he; simp [selectWhileBelow] at he
  | cons x rest ih =>
    intro acc e he
    unfold selectWhileBelow at he
    split at he
    · rename_i hc
      rcases List.mem_cons.1 he with h | h
      · subst h
        simp only [Bool.and_eq_true] at hc
        exact hc.1
      · exact ih _ e h
    · exact ih _ e he

/-- The selection is a sublist of the scan: it keeps the scan order. -/
theorem selectWhileBelow_sublist (keyHash : Bytes) (amount : Int) :
    ∀ (es : List (Bytes × Nat × TXOutput)) (acc : Int),
      (selectWhileBelow keyHash amount acc es).Sublist es := by
  intro es
  induction es with
  | nil => intro acc; simp [selectWhileBelow]
  | cons x rest ih =>
    intro acc
    unfold selectWhileBelow
    split
    · exact (ih _).cons₂ x
    · exact (ih _).cons x

/-- The selection over two scans in a row. -/
theorem selectWhileBelow_append (keyHash : Bytes) (amount : Int) :
    ∀ (xs ys : List (Bytes × Nat × TXOutput)) (acc : Int),
      selectWhileBelow keyHash amount acc (xs ++ ys) =
        selectWhileBelow keyHash amount acc xs ++
          selectWhileBelow keyHash amount
            (acc + totalValue (selectWhileBelow keyHash amount acc xs)) ys := by
  intro xs
  induction xs with
  | nil => intro ys acc; simp [selectWhileBelow, totalValue]
  | cons x rest ih =>
    intro ys acc
    show selectWhileBelow keyHash amount acc (x :: (rest ++ ys)) = _
    simp only [selectWhileBelow]
    split
    · rw [ih]
      simp only [List.cons_append, totalValue, List.map_cons, List.sum_cons, add_assoc]
    · rw [ih]

/-- The total of two lists in a row. -/
theorem totalValue_append (xs ys : List (Bytes × Nat × TXOutput)) :
    totalValue (xs ++ ys) = totalValue xs + totalValue ys := by
  simp [totalValue]

/-- With non-negative values, the selected total is non-negative and at most the total
of the outputs locked to the key hash. -/
theorem totalValue_select_bounds (keyHash : Bytes) (amount : Int) :
    ∀ (es : List (Bytes × Nat × TXOutput)) (acc : Int), (∀ e ∈ es, 0 ≤ e.2.2.Value) →
      0 ≤ totalValue (selectWhileBelow keyHash amount acc es) ∧
      totalValue (selectWhileBelow keyHash amount acc es) ≤
        totalValue (es.filter (fun e => IsLockedWithKey e.2.2 keyHash)) := by
  intro es
  induction es with
  | nil => intro acc _; simp [selectWhileBelow, totalValue]
  | cons x rest ih =>
    intro acc hnn
    have hx : 0 ≤ x.2.2.Value := hnn x (List.mem_cons_self _ _)
    have hrest : ∀ e ∈ rest, 0 ≤ e.2.2.Value := fun e he => hnn e (List.mem_cons_of_mem _ he)
    unfold selectWhileBelow
    split
    · rename_i hc
      simp only [Bool.and_eq_true] at hc
      obtain ⟨h1, h2⟩ := ih (acc + x.2.2.Value) hrest
      simp only [List.filter_cons, hc.1, if_true]
      simp only [totalValue, List.map_cons, List.sum_cons] at h1 h2 ⊢
      omega
    · obtain ⟨h1, h2⟩ := ih acc hrest
      refine ⟨h1, ?_⟩
      simp only [List.filter_cons]
      split
      · simp only [totalValue, List.map_cons, List.sum_cons] at h1 h2 ⊢
        omega
      · exact h2

/-- With non-negative values, a selection that ends below the amount took every output
locked to the key hash. -/
theorem selectWhileBelow_all (keyHash : Bytes) (amount : Int) :
    ∀ (es : List (Bytes × Nat × TXOutput)) (acc : Int), (∀ e ∈ es, 0 ≤ e.2.2.Value) →
      acc + totalValue (selectWhileBelow keyHash amount acc es) < amount →
      selectWhileBelow keyHash amount acc es =
        es.filter (fun e => IsLockedWithKey e.2.2 keyHash) := by
  intro es
  induction es with
  | nil => intro acc _ _; simp [selectWhileBelow]
  | cons x rest ih =>
    intro acc hnn hlt
    have hrest : ∀ e ∈ rest, 0 ≤ e.2.2.Value := fun e he => hnn e (List.mem_cons_of_mem _ he)
    unfold selectWhileBelow at hlt ⊢
    by_cases hl : IsLockedWithKey x.2.2 keyHash = true
    · by_cases ha : acc < amount
      · simp only [hl, ha, decide_True, Bool.and_self, if_true, List.filter_cons] at hlt ⊢
        rw [ih (acc + x.2.2.Value) hrest
          (by simp only [totalValue, List.map_cons, List.sum_cons] at hlt ⊢; omega)]
      · exfalso
        simp only [hl, ha, decide_False, Bool.and_false, Bool.false_eq_true, if_false] at hlt
        have := (totalValue_select_bounds keyHash amount rest acc hrest).1
        omega
    · simp only [hl, Bool.false_and, Bool.false_eq_true, if_false, List.filter_cons] at hlt ⊢
      exact ih acc hrest hlt

/-- The inner loop of `FindSpendableOutputs` selects as the specification says, while
the total of the locked outputs stays in the range of `int`. -/
theorem spendableOuts_tracks (keyHash : Bytes) (amount : Int) (k : Bytes) :
    ∀ (l : List (Nat × TXOutput)) (st : Int × GoMap (List Int))
      (S : List (Bytes × Nat × TXOutput)),
      Tracks st S → 0 ≤ totalValue S → (∀ p ∈ l, 0 ≤ p.2.Value) →
      totalValue S + totalValue ((l.map (fun p => (k, p.1, p.2))).filter
        (fun e => IsLockedWithKey e.2.2 keyHash)) < 9223372036854775808 →
      Tracks (spendableOuts keyHash amount k st l)
        (S ++ selectWhileBelow keyHash amount (totalValue S) (l.map (fun p => (k, p.1, p.2)))) := by
  intro l
  induction l with
  | nil => intro st S ht _ _ _; simpa [spendableOuts, selectWhileBelow] using ht
  | cons p rest ih =>
    intro st S ht h0 hnn hb
    obtain ⟨outIdx, out⟩ := p
    have hout : 0 ≤ out.Value := hnn (outIdx, out) (List.mem_cons_self _ _)
    have hrest : ∀ p ∈ rest, 0 ≤ p.2.Value := fun e he => hnn e (List.mem_cons_of_mem _ he)
    have hacc : st.1 = totalValue S := ht.1
    simp only [List.map_cons, spendableOuts, selectWhileBelow, hacc]
    by_cases hc : (IsLockedWithKey out keyHash && decide (totalValue S < amount)) = true
    · simp only [hc, if_true]
      have hl : IsLockedWithKey out keyHash = true := by
        simp only [Bool.and_eq_true] at hc; exact hc.1
      simp only [List.map_cons, List.filter_cons, hl, if_true] at hb
      have hb' : totalValue S + out.Value + totalValue ((rest.map (fun p => (k, p.1, p.2))).filter
          (fun e => IsLockedWithKey e.2.2 keyHash)) < 9223372036854775808 := by
        simp only [totalValue, List.map_cons, List.sum_cons] at hb ⊢
        omega
      have hfn := (totalValue_select_bounds keyHash amount (rest.map (fun p => (k, p.1, p.2)))
        0 (by
          intro e he
          rw [List.mem_map] at he
          obtain ⟨q, hq, rfl⟩ := he
          exact hrest q hq)).2
      have hf0 : 0 ≤ totalValue ((rest.map (fun p => (k, p.1, p.2))).filter
          (fun e => IsLockedWithKey e.2.2 keyHash)) := by
        have := (totalValue_select_bounds keyHash amount (rest.map (fun p => (k, p.1, p.2)))
          0 (by
            intro e he
            rw [List.mem_map] at he
            obtain ⟨q, hq, rfl⟩ := he
            exact hrest q hq)).1
        omega
      have hS' : totalValue (S ++ [(k, outIdx, out)]) = totalValue S + out.Value := by
        simp [totalValue]
      have hw : wrapInt64 (totalValue S + out.Value) = totalValue S + out.Value := by
        unfold wrapInt64
        omega
      have ht' : Tracks (wrapInt64 (totalValue S + out.Value),
          mapInsert st.2 k ((mapLookup st.2 k).getD [] ++ [(outIdx : Int)]))
          (S ++ [(k, outIdx, out)]) := by
        refine ⟨by rw [hw, hS'], ?_⟩
        intro k'
        by_cases hk : k' = k
        · subst hk
          rw [mapLookup_insert_self, ht.2 k']
          have hp : positionsAt (S ++ [(k', outIdx, out)]) k' = positionsAt S k' ++ [(outIdx : Int)] := by
            simp [positionsAt]
          unfold selectionAt
          rw [hp]
          by_cases he : positionsAt S k' = []
          · simp [he]
          · simp [he]
        · rw [mapLookup_insert_ne _ _ _ _ hk, ht.2 k']
          have hp : positionsAt (S ++ [(k, outIdx, out)]) k' = positionsAt S k' := by
            simp [positionsAt, List.filter_cons, Ne.symm hk]
          unfold selectionAt
          rw [hp]
      have := ih _ (S ++ [(k, outIdx, out)]) ht' (by rw [hS']; omega) hrest (by rw [hS']; exact hb')
      rw [hS'] at this
      simpa [List.append_assoc] using this
    · simp only [hc, Bool.false_eq_true, if_false]
      have hb' : totalValue S + totalValue ((rest.map (fun p => (k, p.1, p.2))).filter
          (fun e => IsLockedWithKey e.2.2 keyHash)) < 9223372036854775808 := by
        simp only [List.map_cons, List.filter_cons] at hb
        split at hb
        · simp only [totalValue, List.map_cons, List.sum_cons] at hb ⊢
          omega
        · exact hb
      exact ih st S ht h0 hrest hb'



/-- With non-negative values, the total of a filtered list is non-negative. -/
theorem totalValue_filter_nonneg (p : Bytes × Nat × TXOutput → Bool) :
    ∀ (es : List (Bytes × Nat × TXOutput)), (∀ e ∈ es, 0 ≤ e.2.2.Value) →
      0 ≤ totalValue (es.filter p) := by
  intro es
  induction es with
  | nil => intro _; simp [totalValue]
  | cons x rest ih =>
    intro hnn
    have hx : 0 ≤ x.2.2.Value := hnn x (List.mem_cons_self _ _)
    have h := ih (fun e he => hnn e (List.mem_cons_of_mem _ he))
    simp only [List.filter_cons]
    split
    · simp only [totalValue, List.map_cons, List.sum_cons] at h ⊢
      omega
    · exact h

/-- The scan of a bucket starts with the outputs under its first key. -/
theorem scanOutputs_cons (k : Bytes) (v : TXOutputs) (rest : Bucket TXOutputs) :
    scanOutputs ((k, v) :: rest) =
      v.Outputs.enum.map (fun p => (k, p.1, p.2)) ++ scanOutputs rest := by
  simp [scanOutputs]

/-- The cursor loop of `FindSpendableOutputs` selects as the specification says, while
the total of the locked outputs stays in the range of `int`. -/
theorem spendableScan_tracks (keyHash : Bytes) (amount : Int) :
    ∀ (b : Bucket TXOutputs) (st : Int × GoMap (List Int)) (S : List (Bytes × Nat × TXOutput)),
      Tracks st S → 0 ≤ totalValue S → (∀ e ∈ scanOutputs b, 0 ≤ e.2.2.Value) →
      totalValue S + totalValue ((scanOutputs b).filter
        (fun e => IsLockedWithKey e.2.2 keyHash)) < 9223372036854775808 →
      Tracks (spendableScan keyHash amount st b)
        (S ++ selectWhileBelow keyHash amount (totalValue S) (scanOutputs b)) := by
  intro b
  induction b with
  | nil => intro st S ht _ _ _; simpa [spendableScan, scanOutputs, selectWhileBelow] using ht
  | cons kv rest ih =>
    intro st S ht h0 hnn hb
    obtain ⟨k, v⟩ := kv
    rw [scanOutputs_cons] at hnn hb ⊢
    have hnn1 : ∀ e ∈ v.Outputs.enum.map (fun p => (k, p.1, p.2)), 0 ≤ e.2.2.Value :=
      fun e he => hnn e (List.mem_append_left _ he)
    have hnn2 : ∀ e ∈ scanOutputs rest, 0 ≤ e.2.2.Value :=
      fun e he => hnn e (List.mem_append_right _ he)
    have hnn1' : ∀ p ∈ v.Outputs.enum, 0 ≤ p.2.Value := by
      intro p hp
      exact hnn1 (k, p.1, p.2) (List.mem_map.2 ⟨p, hp, rfl⟩)
    rw [List.filter_append, totalValue_append] at hb
    have hf1 := totalValue_filter_nonneg (fun e => IsLockedWithKey e.2.2 keyHash) _ hnn1
    have hf2 := totalValue_filter_nonneg (fun e => IsLockedWithKey e.2.2 keyHash) _ hnn2
    have hin := spendableOuts_tracks keyHash amount k v.Outputs.enum st S ht h0 hnn1' (by omega)
    have hsel := totalValue_select_bounds keyHash amount
      (v.Outputs.enum.map (fun p => (k, p.1, p.2))) (totalValue S) hnn1
    have := ih _ _ hin (by rw [totalValue_append]; omega) hnn2
      (by rw [totalValue_append]; omega)
    rw [totalValue_append, List.append_assoc, ← selectWhileBelow_append] at this
    exact this

/-- The outputs `UTXOSet.FindUTXO` collects are the locked outputs of the scan. -/
theorem scanOutputs_filter_locked (keyHash : Bytes) :
    ∀ (b : Bucket TXOutputs),
      ((scanOutputs b).filter (fun e => IsLockedWithKey e.2.2 keyHash)).map (fun e => e.2.2) =
        (b.map (fun kv => kv.2.Outputs.filter
          (fun out => IsLockedWithKey out keyHash))).flatten := by
  have inner : ∀ (k : Bytes) (l : List TXOutput) (n : Nat),
      (((l.enumFrom n).map (fun p => (k, p.1, p.2))).filter
        (fun e => IsLockedWithKey e.2.2 keyHash)).map (fun e => e.2.2) =
        l.filter (fun out => IsLockedWithKey out keyHash) := by
    intro k l
    induction l with
    | nil => intro n; rfl
    | cons x rest ih =>
      intro n
      simp only [List.enumFrom_cons, List.map_cons, List.filter_cons]
      split
      · simp only [List.map_cons, ih]
      · exact ih _
  intro b
  induction b with
  | nil => rfl
  | cons kv rest ih =>
    obtain ⟨k, v⟩ := kv
    rw [scanOutputs_cons, List.filter_append, List.map_append, ih]
    simp only [List.map_cons, List.flatten_cons]
    rw [List.enum, inner]

/-- Claim C18, amended: for every UTXO index whose outputs have non-negative values and
every key hash whose outputs in the index sum to less than `2^63`, and every amount,
`FindSpendableOutputs` returns the sum of the values of the outputs it selected and the
map that lists them; the selection is that of `selectWhileBelow`: outputs locked to the
key hash, in scan order, each selected exactly when the running total before it is below
the amount.  When the returned total is below the amount, every output locked to the key
hash was selected and the total is the sum of `UTXOSet.FindUTXO`. -/
theorem FindSpendableOutputs_selection (bc : Blockchain) (index : Bucket TXOutputs)
    (keyHash : Bytes) (amount : Int)
    (hidx : bc.db.chainstate = some index)
    (hnn : ∀ kv ∈ index, ∀ out ∈ kv.2.Outputs, 0 ≤ out.Value)
    (hsum : (((UTXOSet.FindUTXO bc keyHash).getD []).map (fun out => out.Value)).sum <
      9223372036854775808) :
    ∃ total sel S, UTXOSet.FindSpendableOutputs bc keyHash amount = some (total, sel) ∧
      S = selectWhileBelow keyHash amount 0 (scanOutputs index) ∧
      total = totalValue S ∧
      (∀ k, mapLookup sel k = selectionAt S k) ∧
      (∀ e ∈ S, IsLockedWithKey e.2.2 keyHash = true) ∧
      S.Sublist (scanOutputs index) ∧
      (total < amount →
        S = (scanOutputs index).filter (fun e => IsLockedWithKey e.2.2 keyHash) ∧
        UTXOSet.FindUTXO bc keyHash = some (S.map (fun e => e.2.2)) ∧
        total = (((UTXOSet.FindUTXO bc keyHash).getD []).map (fun out => out.Value)).sum) := by
  have hnn' : ∀ e ∈ scanOutputs index, 0 ≤ e.2.2.Value := by
    intro e he
    simp only [scanOutputs, List.mem_flatten, List.mem_map] at he
    obtain ⟨l, ⟨kv, hkv, rfl⟩, hel⟩ := he
    rw [List.mem_map] at hel
    obtain ⟨p, hp, rfl⟩ := hel
    have hp' : p.2 ∈ kv.2.Outputs := by
      obtain ⟨i, o⟩ := p
      obtain ⟨hi, ho⟩ := List.mem_enum hp
      rw [show ((i, o) : Nat × TXOutput).2 = o from rfl, ho]
      exact List.getElem_mem _
    exact hnn kv hkv p.2 hp'
  have hfind : UTXOSet.FindUTXO bc keyHash =
      some (((scanOutputs index).filter (fun e => IsLockedWithKey e.2.2 keyHash)).map
        (fun e => e.2.2)) := by
    simp only [UTXOSet.FindUTXO, hidx, scanOutputs_filter_locked]
  have hsumv : (((UTXOSet.FindUTXO bc keyHash).getD []).map (fun out => out.Value)).sum =
      totalValue ((scanOutputs index).filter (fun e => IsLockedWithKey e.2.2 keyHash)) := by
    rw [hfind]
    simp only [Option.getD_some, totalValue, List.map_map]
    rfl
  have h0 : Tracks ((0 : Int), ([] : GoMap (List Int))) [] := by
    refine ⟨rfl, ?_⟩
    intro k
    simp [mapLookup, selectionAt, positionsAt]
  have ht := spendableScan_tracks keyHash amount index _ [] h0 (by simp [totalValue]) hnn'
    (by rw [hsumv] at hsum; simpa [totalValue] using hsum)
  have ht0 : totalValue ([] : List (Bytes × Nat × TXOutput)) = 0 := rfl
  rw [ht0, List.nil_append] at ht
  refine ⟨_, _, _, by simp only [UTXOSet.FindSpendableOutputs, hidx], rfl, ht.1, ht.2,
    selectWhileBelow_locked keyHash amount _ 0, selectWhileBelow_sublist keyHash amount _ 0, ?_⟩
  intro hlt
  have hall := selectWhileBelow_all keyHash amount (scanOutputs index) 0 hnn'
    (by rw [ht.1] at hlt; omega)
  refine ⟨hall, ?_, ?_⟩
  · rw [hfind, hall]
  · rw [hsumv, ht.1, hall]

set_option maxRecDepth 100000 in
/-- Claim C18, amended, at the index of `ledger2State`, Alice's key hash and amount 4. -/
theorem FindSpendableOutputs_selection_witness :
    ∃ total sel S, UTXOSet.FindSpendableOutputs ledger2State (keyHashOf aliceKey) 4 =
        some (total, sel) ∧
      S = selectWhileBelow (keyHashOf aliceKey) 4 0
        (scanOutputs (ledger2State.db.chainstate.getD [])) ∧
      total = totalValue S ∧
      (∀ k, mapLookup sel k = selectionAt S k) ∧
      (∀ e ∈ S, IsLockedWithKey e.2.2 (keyHashOf aliceKey) = true) ∧
      S.Sublist (scanOutputs (ledger2State.db.chainstate.getD [])) ∧
      (total < 4 →
        S = (scanOutputs (ledger2State.db.chainstate.getD [])).filter
          (fun e => IsLockedWithKey e.2.2 (keyHashOf aliceKey)) ∧
        UTXOSet.FindUTXO ledger2State (keyHashOf aliceKey) = some (S.map (fun e => e.2.2)) ∧
        total = (((UTXOSet.FindUTXO ledger2State (keyHashOf aliceKey)).getD []).map
          (fun out => out.Value)).sum) :=
  FindSpendableOutputs_selection ledger2State (ledger2State.db.chainstate.getD [])
    (keyHashOf aliceKey) 4 (by decide) (by decide) (by decide)

set_option maxRecDepth 100000 in
/-- Claim C18 as stated fails: on an index with two outputs of `2^62` locked to one key
hash and the amount `2^63 - 1`, `FindSpendableOutputs` selects both outputs, whose values
sum to `2^63`, and returns the total `-2^63`: below the amount, and neither the sum of
the selected values nor the sum of `UTXOSet.FindUTXO`. -/
theorem FindSpendableOutputs_overflow_counterexample :
    (∀ kv ∈ overflowIndex, ∀ out ∈ kv.2.Outputs, 0 ≤ out.Value) ∧
    UTXOSet.FindSpendableOutputs overflowState (keyHashOf aliceKey) 9223372036854775807 =
      some (-9223372036854775808, [([1], [0, 1])]) ∧
    (((UTXOSet.FindUTXO overflowState (keyHashOf aliceKey)).getD []).map
      (fun out => out.Value)).sum = 9223372036854775808 ∧
    ¬ (∀ (bc : Blockchain) (index : Bucket TXOutputs) (keyHash : Bytes) (amount total : Int)
        (sel : GoMap (List Int)), bc.db.chainstate = some index →
        (∀ kv ∈ index, ∀ out ∈ kv.2.Outputs, 0 ≤ out.Value) →
        UTXOSet.FindSpendableOutputs bc keyHash amount = some (total, sel) →
        total < amount →
        total = (((UTXOSet.FindUTXO bc keyHash).getD []).map (fun out => out.Value)).sum) := by
  refine ⟨by decide, by decide, by decide, ?_⟩
  intro h
  have := h overflowState overflowIndex (keyHashOf aliceKey) 9223372036854775807
    (-9223372036854775808) [([1], [0, 1])] rfl (by decide) (by decide) (by decide)
  revert this
  decide

/-! ## The outputs of `NewUTXOTransaction` -/

/-- The signing loop changes neither `ID` nor `Vout` of the transaction it signs. -/
theorem SignLoop_Vout (env : Env) (privKey : PrivateKey) (prevTXs : GoMap Transaction)
    (rand : Nat → Nat) :
    ∀ (l : List (Nat × TXInput)) (tx txCopy tx' : Transaction),
      SignLoop env privKey prevTXs rand tx txCopy l = some tx' →
      tx'.ID = tx.ID ∧ tx'.Vout = tx.Vout := by
  intro l
  induction l with
  | nil =>
    intro tx txCopy tx' h
    simp only [SignLoop, Option.some.injEq] at h
    subst h
    exact ⟨rfl, rfl⟩
  | cons p rest ih =>
    intro tx txCopy tx' h
    obtain ⟨inID, vin⟩ := p
    unfold SignLoop at h
    simp only at h
    split at h
    · cases h
    · obtain ⟨h1, h2⟩ := ih _ _ _ h
      exact ⟨h1, h2⟩

/-- The method `SignTransaction` changes neither `ID` nor `Vout`. -/
theorem SignTransaction_Vout (env : Env) (fuel : Nat) (bc : Blockchain) (privKey : PrivateKey)
    (rand : Nat → Nat) (tx tx' : Transaction)
    (h : SignTransaction env fuel bc privKey rand tx = some tx') :
    tx'.ID = tx.ID ∧ tx'.Vout = tx.Vout := by
  unfold SignTransaction at h
  split at h
  · cases h
  · unfold Sign at h
    split at h
    · simp only [Option.some.injEq] at h
      subst h
      exact ⟨rfl, rfl⟩
    · split at h
      · cases h
      · exact SignLoop_Vout env privKey _ rand _ _ _ _ h

/-- A transaction found by `FindTransaction` has the id that was looked for. -/
theorem FindTransactionLoop_ID (db : DB) (ID : Bytes) :
    ∀ (fuel : Nat) (h : Bytes) (t : Transaction),
      FindTransactionLoop db ID fuel h = some (some t) → t.ID.getD [] = ID := by
  intro fuel
  induction fuel with
  | zero => intro h t hf; simp [FindTransactionLoop] at hf
  | succ fuel ih =>
    intro h t hf
    unfold FindTransactionLoop at hf
    split at hf
    · cases hf
    · rename_i block prev _
      split at hf
      · rename_i tx hfind
        simp only [Option.some.injEq] at hf
        subst hf
        have := List.find?_some hfind
        simpa using this
      · split at hf
        · cases hf
        · exact ih _ _ hf

/-- The loop that collects the previous transactions does not abort when every input's
transaction is found, and then holds for every input the transaction found for it. -/
theorem collectPrevTXs_found (fuel : Nat) (bc : Blockchain) :
    ∀ (vins : List TXInput) (m : GoMap Transaction),
      (∀ vin ∈ vins, ∃ t, FindTransaction fuel bc vin.Txid = some (some t)) →
      (∀ k t, mapLookup m k = some t → FindTransaction fuel bc k = some (some t)) →
      ∃ m', collectPrevTXs fuel bc m vins = some m' ∧
        (∀ k t, mapLookup m' k = some t → FindTransaction fuel bc k = some (some t)) ∧
        (∀ k, mapLookup m k ≠ none → mapLookup m' k ≠ none) ∧
        (∀ vin ∈ vins, mapLookup m' vin.Txid ≠ none) := by
  intro vins
  induction vins with
  | nil =>
    intro m _ hm
    exact ⟨m, rfl, hm, fun _ h => h, fun _ h => by cases h⟩
  | cons vin rest ih =>
    intro m hall hm
    obtain ⟨t, ht⟩ := hall vin (List.mem_cons_self _ _)
    have hid : t.ID.getD [] = vin.Txid := FindTransactionLoop_ID _ _ _ _ _ ht
    have hm1 : ∀ k t', mapLookup (mapInsert m (t.ID.getD []) t) k = some t' →
        FindTransaction fuel bc k = some (some t') := by
      intro k t' hk
      by_cases hkk : k = t.ID.getD []
      · subst hkk
        rw [mapLookup_insert_self] at hk
        cases hk
        rw [hid]
        exact ht
      · rw [mapLookup_insert_ne _ _ _ _ hkk] at hk
        exact hm k t' hk
    obtain ⟨m', h1, h2, h3, h4⟩ := ih (mapInsert m (t.ID.getD []) t)
      (fun v hv => hall v (List.mem_cons_of_mem _ hv)) hm1
    refine ⟨m', ?_, h2, ?_, ?_⟩
    · simp only [collectPrevTXs, ht, h1]
    · intro k hk
      apply h3
      by_cases hkk : k = t.ID.getD []
      · subst hkk
        rw [mapLookup_insert_self]
        exact fun h => by cases h
      · rw [mapLookup_insert_ne _ _ _ _ hkk]
        exact hk
    · intro v hv
      rcases List.mem_cons.1 hv with e | hv'
      · subst e
        apply h3
        rw [← hid, mapLookup_insert_self]
        exact fun h => by cases h
      · exact h4 v hv'

/-- The method `SignTransaction` returns a transaction when, for every input, the
transaction it names is found on the chain, has an id, and has the position the input
names. -/
theorem SignTransaction_total (env : Env) (fuel : Nat) (bc : Blockchain) (privKey : PrivateKey)
    (rand : Nat → Nat) (tx : Transaction)
    (h : ∀ vin ∈ tx.Vin, ∃ t, FindTransaction fuel bc vin.Txid = some (some t) ∧
      t.ID ≠ none ∧ (indexInt t.Vout vin.Vout).isSome = true) :
    ∃ tx', SignTransaction env fuel bc privKey rand tx = some tx' := by
  obtain ⟨m, hm, hfound, _, hin⟩ := collectPrevTXs_found fuel bc tx.Vin []
    (fun vin hv => by obtain ⟨t, ht, _⟩ := h vin hv; exact ⟨t, ht⟩)
    (fun k t hk => by simp [mapLookup] at hk)
  have hprev : ∀ vin ∈ tx.Vin, ∃ t, prevTxOf m vin.Txid = t ∧
      FindTransaction fuel bc vin.Txid = some (some t) := by
    intro vin hv
    cases hl : mapLookup m vin.Txid with
    | none => exact absurd hl (hin vin hv)
    | some t => exact ⟨t, by simp only [prevTxOf, hl], hfound _ _ hl⟩
  simp only [SignTransaction, hm, Sign]
  split
  · exact ⟨_, rfl⟩
  · have hmiss : prevMissing tx m = false := by
      unfold prevMissing
      rw [List.any_eq_false]
      intro vin hv
      obtain ⟨t, ht1, ht2⟩ := hprev vin hv
      obtain ⟨t', ht', hne, _⟩ := h vin hv
      rw [ht2] at ht'
      cases ht'
      rw [ht1]
      simpa using hne
    simp only [hmiss, Bool.false_eq_true, if_false]
    have hidx : ∀ p ∈ (TrimmedCopy tx).Vin.enum,
        (indexInt (prevTxOf m p.2.Txid).Vout p.2.Vout).isSome = true := by
      intro p hp
      obtain ⟨i, x⟩ := p
      rw [List.mk_mem_enum_iff_getElem?, TrimmedCopy_getElem?] at hp
      cases hv : tx.Vin[i]? with
      | none => rw [hv] at hp; simp at hp
      | some v =>
        rw [hv] at hp
        simp only [Option.map_some', Option.some.injEq] at hp
        subst hp
        have hvm := List.getElem?_mem hv
        obtain ⟨t, ht1, ht2⟩ := hprev v hvm
        obtain ⟨t', ht', _, hi⟩ := h v hvm
        rw [ht2] at ht'
        cases ht'
        show (indexInt (prevTxOf m v.Txid).Vout v.Vout).isSome = true
        rw [ht1]
        exact hi
    exact ⟨_, SignLoop_eq_foldl env privKey m rand tx _ tx hidx⟩

/-- The total returned by the scan of `FindSpendableOutputs` is in the range of `int`. -/
theorem spendableScan_range (keyHash : Bytes) (amount : Int) :
    ∀ (b : Bucket TXOutputs) (st : Int × GoMap (List Int)),
      (-9223372036854775808 ≤ st.1 ∧ st.1 < 9223372036854775808) →
      -9223372036854775808 ≤ (spendableScan keyHash amount st b).1 ∧
        (spendableScan keyHash amount st b).1 < 9223372036854775808 := by
  have inner : ∀ (k : Bytes) (l : List (Nat × TXOutput)) (st : Int × GoMap (List Int)),
      (-9223372036854775808 ≤ st.1 ∧ st.1 < 9223372036854775808) →
      -9223372036854775808 ≤ (spendableOuts keyHash amount k st l).1 ∧
        (spendableOuts keyHash amount k st l).1 < 9223372036854775808 := by
    intro k l
    induction l with
    | nil => intro st h; exact h
    | cons p rest ih =>
      intro st h
      obtain ⟨i, o⟩ := p
      unfold spendableOuts
      split
      · apply ih
        show -9223372036854775808 ≤ wrapInt64 (st.1 + o.Value) ∧
          wrapInt64 (st.1 + o.Value) < 9223372036854775808
        unfold wrapInt64
        omega
      · exact ih st h
  intro b
  induction b with
  | nil => intro st h; exact h
  | cons kv rest ih =>
    intro st h
    obtain ⟨k, v⟩ := kv
    unfold spendableScan
    exact ih _ (inner k _ st h)

/-- The total returned by `FindSpendableOutputs` is in the range of `int`. -/
theorem FindSpendableOutputs_range (bc : Blockchain) (keyHash : Bytes) (amount acc : Int)
    (sel : GoMap (List Int))
    (h : UTXOSet.FindSpendableOutputs bc keyHash amount = some (acc, sel)) :
    -9223372036854775808 ≤ acc ∧ acc < 9223372036854775808 := by
  unfold UTXOSet.FindSpendableOutputs at h
  split at h
  · cases h
  · rename_i b _
    simp only [Option.some.injEq] at h
    have := spendableScan_range keyHash amount b (0, []) (by decide)
    rw [h] at this
    exact this

/-- The outputs of a transaction returned by `NewUTXOTransaction`. -/
theorem NewUTXOTransaction_Vout (env : Env) (fuel : Nat) (rand : Nat → Nat) (wallet : Wallet)
    (toAddr : Bytes) (amount : Int) (bc : Blockchain) (acc : Int) (sel : GoMap (List Int))
    (tx : Transaction)
    (hsel : UTXOSet.FindSpendableOutputs bc (env.HashPubKey wallet.PublicKey) amount =
      some (acc, sel))
    (h : NewUTXOTransaction env fuel rand wallet toAddr amount bc = some tx) :
    amount ≤ acc ∧ tx.Vout = NewTXOutput env amount toAddr ::
      (if acc > amount then [NewTXOutput env (wrapInt64 (acc - amount)) wallet.GetAddress]
        else []) := by
  unfold NewUTXOTransaction at h
  simp only [hsel] at h
  split at h
  · cases h
  · rename_i hlt
    refine ⟨by omega, ?_⟩
    rw [(SignTransaction_Vout env fuel bc _ rand _ _ h).2]
    rfl

/-- Claim C19, amended: when the selected outputs total `acc < amount`,
`NewUTXOTransaction` aborts and builds nothing.  When `acc >= amount` and `acc - amount`
is below `2^63`, every transaction it returns has as first output `amount` to the
recipient, and a second output, `acc - amount` to the sender, exactly when
`acc > amount`, so that the output values sum to `acc`; and it does return a transaction
when every selected key is the id of a transaction found on the chain that has the
positions selected under it. -/
theorem NewUTXOTransaction_outputs (env : Env) (fuel : Nat) (rand : Nat → Nat)
    (wallet : Wallet) (toAddr : Bytes) (amount : Int) (bc : Blockchain) (acc : Int)
    (sel : GoMap (List Int))
    (hsel : UTXOSet.FindSpendableOutputs bc (env.HashPubKey wallet.PublicKey) amount =
      some (acc, sel)) :
    (acc < amount → NewUTXOTransaction env fuel rand wallet toAddr amount bc = none) ∧
    (amount ≤ acc → acc - amount < 9223372036854775808 →
      (∀ tx, NewUTXOTransaction env fuel rand wallet toAddr amount bc = some tx →
        tx.Vout = NewTXOutput env amount toAddr ::
          (if acc > amount then [NewTXOutput env (acc - amount) wallet.GetAddress] else []) ∧
        tx.Vout.head? = some ⟨amount, env.addressKeyHash toAddr⟩ ∧
        (tx.Vout.length = 2 ↔ acc > amount) ∧
        (tx.Vout.map (fun out => out.Value)).sum = acc) ∧
      ((∀ kv ∈ sel, ∃ t, FindTransaction fuel bc kv.1 = some (some t) ∧ t.ID ≠ none ∧
          ∀ i ∈ kv.2, (indexInt t.Vout i).isSome = true) →
        ∃ tx, NewUTXOTransaction env fuel rand wallet toAddr amount bc = some tx)) := by
  refine ⟨?_, ?_⟩
  · intro hlt
    simp only [NewUTXOTransaction, hsel, hlt, if_true]
  · intro hle hrange
    have hw : wrapInt64 (acc - amount) = acc - amount := by
      unfold wrapInt64
      omega
    refine ⟨?_, ?_⟩
    · intro tx htx
      have hv := (NewUTXOTransaction_Vout env fuel rand wallet toAddr amount bc acc sel tx
        hsel htx).2
      rw [hw] at hv
      refine ⟨hv, ?_, ?_, ?_⟩
      · rw [hv]; rfl
      · rw [hv]
        by_cases hgt : acc > amount
        · simp [hgt]
        · simp [hgt]
      · rw [hv]
        by_cases hgt : acc > amount
        · simp [hgt, NewTXOutput]
        · simp only [hgt, if_false, NewTXOutput, List.map_cons, List.map_nil, List.sum_cons,
            List.sum_nil]
          omega
    · intro hfound
      have hnlt : ¬ acc < amount := by omega
      simp only [NewUTXOTransaction, hsel, hnlt, if_false]
      apply SignTransaction_total
      intro vin hv
      simp only [utxoInputs, List.mem_flatten, List.mem_map] at hv
      obtain ⟨l, ⟨kv, hkv, rfl⟩, hvl⟩ := hv
      rw [List.mem_map] at hvl
      obtain ⟨i, hi, rfl⟩ := hvl
      obtain ⟨t, ht, hne, hpos⟩ := hfound kv hkv
      exact ⟨t, ht, hne, hpos i hi⟩

set_option maxRecDepth 100000 in
/-- Claim C19, amended, at the witness of the claim: one spendable output of 10 and the
amount 4 give the outputs 4 to the recipient and 6 to the sender. -/
theorem NewUTXOTransaction_outputs_witness :
    (NewUTXOTransaction demoEnv 10 (fun _ => 5) aliceWallet (keyHashOf bobKey) 4
      ledger0State).map (fun tx => tx.Vout) =
        some [⟨4, keyHashOf bobKey⟩, ⟨6, keyHashOf aliceKey⟩] ∧
    ((10 : Int) < 4 → NewUTXOTransaction demoEnv 10 (fun _ => 5) aliceWallet (keyHashOf bobKey) 4
      ledger0State = none) ∧
    ((4 : Int) ≤ 10 → (10 : Int) - 4 < 9223372036854775808 →
      (∀ tx, NewUTXOTransaction demoEnv 10 (fun _ => 5) aliceWallet (keyHashOf bobKey) 4
          ledger0State = some tx →
        tx.Vout = NewTXOutput demoEnv 4 (keyHashOf bobKey) ::
          (if (10 : Int) > 4 then [NewTXOutput demoEnv (10 - 4) aliceWallet.GetAddress]
            else []) ∧
        tx.Vout.head? = some ⟨4, demoEnv.addressKeyHash (keyHashOf bobKey)⟩ ∧
        (tx.Vout.length = 2 ↔ (10 : Int) > 4) ∧
        (tx.Vout.map (fun out => out.Value)).sum = 10) ∧
      ((∀ kv ∈ [(genesisTxID, [(0 : Int)])], ∃ t,
          FindTransaction 10 ledger0State kv.1 = some (some t) ∧ t.ID ≠ none ∧
          ∀ i ∈ kv.2, (indexInt t.Vout i).isSome = true) →
        ∃ tx, NewUTXOTransaction demoEnv 10 (fun _ => 5) aliceWallet (keyHashOf bobKey) 4
          ledger0State = some tx)) :=
  ⟨by decide, NewUTXOTransaction_outputs demoEnv 10 (fun _ => 5) aliceWallet (keyHashOf bobKey) 4
    ledger0State 10 [(genesisTxID, [0])] (by decide)⟩

set_option maxRecDepth 100000 in
/-- Claim C19 as stated fails at the amount `-2^63`: nothing is selected, `acc = 0` is
above the amount, and the second output pays `-2^63`, not `acc - amount = 2^63`; the
output values sum to `-2^64`, not to `acc`.  And on an index whose key is the id of no
transaction on the chain, `acc = 10 >= 4` and `NewUTXOTransaction` aborts in
`SignTransaction`. -/
theorem NewUTXOTransaction_counterexample :
    UTXOSet.FindSpendableOutputs ledger0State (demoEnv.HashPubKey aliceWallet.PublicKey)
      (-9223372036854775808) = some (0, []) ∧
    (NewUTXOTransaction demoEnv 10 (fun _ => 5) aliceWallet (keyHashOf bobKey)
      (-9223372036854775808) ledger0State).map (fun tx => tx.Vout) =
        some [⟨-9223372036854775808, keyHashOf bobKey⟩,
          ⟨-9223372036854775808, keyHashOf aliceKey⟩] ∧
    UTXOSet.FindSpendableOutputs strayIndexState (demoEnv.HashPubKey aliceWallet.PublicKey) 4 =
      some (10, [([1], [0])]) ∧
    NewUTXOTransaction demoEnv 10 (fun _ => 5) aliceWallet (keyHashOf bobKey) 4
      strayIndexState = none := by
  refine ⟨by decide, by decide, by decide, by decide⟩

/-- Claim C20, amended: every output of a transaction built by `NewCoinbaseTX` has a
non-negative value, and for every non-negative amount and every UTXO index, every output
of a transaction returned by `NewUTXOTransaction` has a non-negative value. -/
theorem built_outputs_nonnegative (env : Env) :
    (∀ (toAddr data randHex : Bytes), ∀ out ∈ (NewCoinbaseTX env toAddr data randHex).Vout,
      0 ≤ out.Value) ∧
    (∀ (fuel : Nat) (rand : Nat → Nat) (wallet : Wallet) (toAddr : Bytes) (amount : Int)
      (bc : Blockchain) (tx : Transaction), 0 ≤ amount →
      NewUTXOTransaction env fuel rand wallet toAddr amount bc = some tx →
      ∀ out ∈ tx.Vout, 0 ≤ out.Value) := by
  refine ⟨?_, ?_⟩
  · intro toAddr data randHex out hout
    simp only [NewCoinbaseTX, NewTXOutput, List.mem_singleton] at hout
    subst hout
    show (0 : Int) ≤ subsidy
    decide
  · intro fuel rand wallet toAddr amount bc tx h0 htx out hout
    cases hsel : UTXOSet.FindSpendableOutputs bc (env.HashPubKey wallet.PublicKey) amount with
    | none => simp [NewUTXOTransaction, hsel] at htx
    | some p =>
      obtain ⟨acc, sel⟩ := p
      obtain ⟨hle, hv⟩ := NewUTXOTransaction_Vout env fuel rand wallet toAddr amount bc acc sel tx
        hsel htx
      obtain ⟨_, hhi⟩ := FindSpendableOutputs_range bc _ amount acc sel hsel
      have hw : wrapInt64 (acc - amount) = acc - amount := by
        unfold wrapInt64
        omega
      rw [hv, hw] at hout
      rcases List.mem_cons.1 hout with e | hout'
      · subst e
        exact h0
      · split at hout'
        · simp only [List.mem_singleton] at hout'
          subst hout'
          show 0 ≤ acc - amount
          omega
        · cases hout'

set_option maxRecDepth 100000 in
/-- Claim C20, amended, at Alice's spend of 4 on `ledger0State`, which is built. -/
theorem built_outputs_nonnegative_witness :
    (NewUTXOTransaction demoEnv 10 (fun _ => 5) aliceWallet (keyHashOf bobKey) 4
      ledger0State).isSome = true ∧
    ∀ out ∈ ((NewUTXOTransaction demoEnv 10 (fun _ => 5) aliceWallet (keyHashOf bobKey) 4
      ledger0State).getD ⟨none, [], []⟩).Vout, 0 ≤ out.Value :=
  ⟨by decide, (built_outputs_nonnegative demoEnv).2 10 (fun _ => 5) aliceWallet
    (keyHashOf bobKey) 4 ledger0State _ (by decide) (by decide)⟩

set_option maxRecDepth 100000 in
/-- Claim C20 as stated fails for a negative amount: for the amount `-5` nothing is
selected, and `NewUTXOTransaction` returns a transaction without inputs whose outputs
are `-5` to the recipient and `5` to the sender. -/
theorem negative_amount_counterexample :
    (∀ kv ∈ ledger0State.db.chainstate.getD [], ∀ out ∈ kv.2.Outputs, 0 ≤ out.Value) ∧
    (NewUTXOTransaction demoEnv 10 (fun _ => 5) aliceWallet (keyHashOf bobKey) (-5)
      ledger0State).map (fun tx => (tx.Vin, tx.Vout)) =
        some ([], [⟨-5, keyHashOf bobKey⟩, ⟨5, keyHashOf aliceKey⟩]) := by
  refine ⟨by decide, by decide⟩

/-! ## The gob round trip -/

/-- Decoding the fields of two sequences in a row. -/
theorem gob_decodeFields_append {α σ : Type} (set : α → Nat × Gob.Value σ → Option α) :
    ∀ (w₁ w₂ : Gob.Struct σ) (v : α),
      Gob.decodeFields set v (w₁ ++ w₂) =
        (Gob.decodeFields set v w₁).bind (fun v' => Gob.decodeFields set v' w₂) := by
  intro w₁
  induction w₁ with
  | nil => intro w₂ v; rfl
  | cons f rest ih =>
    intro w₂ v
    show Gob.decodeFields set v (f :: (rest ++ w₂)) = _
    simp only [Gob.decodeFields]
    cases set v f with
    | none => rfl
    | some v' => exact ih w₂ v'

/-- Decoding the elements of an encoded slice. -/
theorem gob_decodeAll_map {α σ : Type} (enc : α → σ) (dec : σ → Option α) (norm : α → α)
    (h : ∀ x, dec (enc x) = some (norm x)) :
    ∀ (l : List α), Gob.decodeAll dec (l.map enc) = some (l.map norm) := by
  intro l
  induction l with
  | nil => rfl
  | cons x rest ih => simp only [List.map_cons, Gob.decodeAll, h, ih]

/-- A slice field that is not sent stays nil; one that is sent is decoded element by
element. -/
theorem gob_sendSlice_decode {α σ β : Type} (enc : α → σ) (dec : σ → Option α)
    (norm : α → α) (h : ∀ x, dec (enc x) = some (norm x))
    (set : β → Nat × Gob.Value σ → Option β) (upd : β → Option (List α) → β) (n : Nat)
    (v : β) (hv : upd v none = v)
    (hset : ∀ l, set v (n, .elems l) = (Gob.decodeAll dec l).map (fun xs => upd v (some xs)))
    (l : Option (List α)) :
    Gob.decodeFields set v (Gob.sendSlice enc n l) =
      some (upd v (Gob.nilIfEmpty (l.map (fun x => x.map norm)))) := by
  cases l with
  | none => simp [Gob.sendSlice, Gob.decodeFields, Gob.nilIfEmpty, hv]
  | some x =>
    by_cases hx : x.length = 0
    · simp [Gob.sendSlice, Gob.decodeFields, Gob.nilIfEmpty, hv, hx]
    · simp [Gob.sendSlice, Gob.decodeFields, Gob.nilIfEmpty, hx, hset,
        gob_decodeAll_map enc dec norm h]

/-- A `[]byte` field that is not sent stays nil; one that is sent is assigned. -/
theorem gob_sendBytes_decode {σ β : Type} (set : β → Nat × Gob.Value σ → Option β)
    (upd : β → Option Bytes → β) (n : Nat) (v : β) (hv : upd v none = v)
    (hset : ∀ x, set v (n, .bytes x) = some (upd v (some x))) (b : Option Bytes) :
    Gob.decodeFields set v (Gob.sendBytes n b) = some (upd v (Gob.nilIfEmpty b)) := by
  cases b with
  | none => simp [Gob.sendBytes, Gob.decodeFields, Gob.nilIfEmpty, hv]
  | some x =>
    by_cases hx : x.length = 0
    · simp [Gob.sendBytes, Gob.decodeFields, Gob.nilIfEmpty, hv, hx]
    · simp [Gob.sendBytes, Gob.decodeFields, Gob.nilIfEmpty, hx, hset]

/-- An integer field that is not sent stays 0; one that is sent is assigned. -/
theorem gob_sendInt_decode {σ β : Type} (set : β → Nat × Gob.Value σ → Option β)
    (upd : β → Int → β) (n : Nat) (v : β) (hv : upd v 0 = v)
    (hset : ∀ i, set v (n, .int i) = some (upd v i)) (i : Int) :
    Gob.decodeFields set v (Gob.sendInt n i) = some (upd v i) := by
  by_cases hi : i = 0
  · simp [Gob.sendInt, Gob.decodeFields, hi, hv]
  · simp [Gob.sendInt, Gob.decodeFields, hi, hset]

/-- The round trip of a `TXInput`. -/
theorem gob_TXInput_round_trip (v : Gob.TXInput) :
    Gob.TXInput.decode (Gob.TXInput.encode v) = some (Gob.TXInput.norm v) := by
  obtain ⟨a, i, b, c⟩ := v
  simp only [Gob.TXInput.decode, Gob.TXInput.encode, gob_decodeFields_append]
  rw [gob_sendBytes_decode Gob.TXInput.assign (fun v o => { v with Txid := o }) 0
    ⟨none, 0, none, none⟩ rfl (fun x => rfl)]
  simp only [Option.some_bind]
  rw [gob_sendInt_decode Gob.TXInput.assign (fun v i => { v with Vout := i }) 1
    ⟨Gob.nilIfEmpty a, 0, none, none⟩ rfl (fun i => rfl)]
  simp only [Option.some_bind]
  rw [gob_sendBytes_decode Gob.TXInput.assign (fun v o => { v with Signature := o }) 2
    ⟨Gob.nilIfEmpty a, i, none, none⟩ rfl (fun x => rfl)]
  simp only [Option.some_bind]
  rw [gob_sendBytes_decode Gob.TXInput.assign (fun v o => { v with PubKey := o }) 3
    ⟨Gob.nilIfEmpty a, i, Gob.nilIfEmpty b, none⟩ rfl (fun x => rfl)]
  rfl

/-- The round trip of a `TXOutput`. -/
theorem gob_TXOutput_round_trip (v : Gob.TXOutput) :
    Gob.TXOutput.decode (Gob.TXOutput.encode v) = some (Gob.TXOutput.norm v) := by
  obtain ⟨i, a⟩ := v
  simp only [Gob.TXOutput.decode, Gob.TXOutput.encode, gob_decodeFields_append]
  rw [gob_sendInt_decode Gob.TXOutput.assign (fun v i => { v with Value := i }) 0
    ⟨0, none⟩ rfl (fun i => rfl)]
  simp only [Option.some_bind]
  rw [gob_sendBytes_decode Gob.TXOutput.assign (fun v o => { v with PubKeyHash := o }) 1
    ⟨i, none⟩ rfl (fun x => rfl)]
  rfl

/-- The round trip of a `Transaction`. -/
theorem gob_Transaction_round_trip (tx : Gob.Transaction) :
    Gob.Transaction.decode (Gob.Transaction.encode tx) = some (Gob.Transaction.norm tx) := by
  obtain ⟨id, vin, vout⟩ := tx
  simp only [Gob.Transaction.decode, Gob.Transaction.encode, gob_decodeFields_append]
  rw [gob_sendBytes_decode Gob.Transaction.assign (fun v o => { v with ID := o }) 0
    ⟨none, none, none⟩ rfl (fun x => rfl)]
  simp only [Option.some_bind]
  rw [gob_sendSlice_decode Gob.TXInput.encode Gob.TXInput.decode Gob.TXInput.norm
    gob_TXInput_round_trip Gob.Transaction.assign (fun v o => { v with Vin := o }) 1
    ⟨Gob.nilIfEmpty id, none, none⟩ rfl (fun l => rfl)]
  simp only [Option.some_bind]
  rw [gob_sendSlice_decode Gob.TXOutput.encode Gob.TXOutput.decode Gob.TXOutput.norm
    gob_TXOutput_round_trip Gob.Transaction.assign (fun v o => { v with Vout := o }) 2
    ⟨Gob.nilIfEmpty id, Gob.nilIfEmpty (vin.map (fun x => x.map Gob.TXInput.norm)), none⟩ rfl
    (fun l => rfl)]
  rfl

/-- The round trip of a `Block`. -/
theorem gob_Block_round_trip (b : Gob.Block) :
    Gob.Block.decode (Gob.Block.encode b) = some (Gob.Block.norm b) := by
  obtain ⟨ts, txs, prev, hash, nonce, height⟩ := b
  simp only [Gob.Block.decode, Gob.Block.encode, gob_decodeFields_append]
  rw [gob_sendInt_decode Gob.Block.assign (fun v i => { v with Timestamp := i }) 0
    ⟨0, none, none, none, 0, 0⟩ rfl (fun i => rfl)]
  simp only [Option.some_bind]
  rw [gob_sendSlice_decode Gob.Transaction.encode Gob.Transaction.decode Gob.Transaction.norm
    gob_Transaction_round_trip Gob.Block.assign (fun v o => { v with Transactions := o }) 1
    ⟨ts, none, none, none, 0, 0⟩ rfl (fun l => rfl)]
  simp only [Option.some_bind]
  rw [gob_sendBytes_decode Gob.Block.assign (fun v o => { v with PrevBlockHash := o }) 2
    ⟨ts, Gob.nilIfEmpty (txs.map (fun x => x.map Gob.Transaction.norm)), none, none, 0, 0⟩ rfl
    (fun x => rfl)]
  simp only [Option.some_bind]
  rw [gob_sendBytes_decode Gob.Block.assign (fun v o => { v with Hash := o }) 3
    ⟨ts, Gob.nilIfEmpty (txs.map (fun x => x.map Gob.Transaction.norm)), Gob.nilIfEmpty prev,
      none, 0, 0⟩ rfl (fun x => rfl)]
  simp only [Option.some_bind]
  rw [gob_sendInt_decode Gob.Block.assign (fun v i => { v with Nonce := i }) 4
    ⟨ts, Gob.nilIfEmpty (txs.map (fun x => x.map Gob.Transaction.norm)), Gob.nilIfEmpty prev,
      Gob.nilIfEmpty hash, 0, 0⟩ rfl (fun i => rfl)]
  simp only [Option.some_bind]
  rw [gob_sendInt_decode Gob.Block.assign (fun v i => { v with Height := i }) 5
    ⟨ts, Gob.nilIfEmpty (txs.map (fun x => x.map Gob.Transaction.norm)), Gob.nilIfEmpty prev,
      Gob.nilIfEmpty hash, nonce, 0⟩ rfl (fun i => rfl)]
  rfl


/-- Making the empty slice nil changes neither the length nor the elements. -/
theorem gob_nilIfEmpty_getD {α : Type} (o : Option (List α)) :
    (Gob.nilIfEmpty o).getD [] = o.getD [] := by
  cases o with
  | none => rfl
  | some l =>
    cases l with
    | nil => rfl
    | cons x rest => rfl

/-- Claim C16, amended: for every transaction `tx`, `DeserializeTransaction(tx.Serialize())`
returns `tx` with every empty slice made nil, and for every block `b`,
`DeserializeBlock(b.Serialize())` returns `b` with every empty slice made nil: the
integer fields are equal, every slice has the same length and the same elements, and an
empty slice is not told apart from a nil one, both come back nil. -/
theorem gob_round_trip :
    (∀ tx : Gob.Transaction,
      Gob.DeserializeTransaction (Gob.Transaction.Serialize tx) = some (Gob.Transaction.norm tx)) ∧
    (∀ b : Gob.Block, Gob.DeserializeBlock (Gob.Block.Serialize b) = some (Gob.Block.norm b)) ∧
    (∀ o : Option Bytes, (Gob.nilIfEmpty o).getD [] = o.getD []) ∧
    Gob.nilIfEmpty (some ([] : Bytes)) = none :=
  ⟨gob_Transaction_round_trip, gob_Block_round_trip, gob_nilIfEmpty_getD, rfl⟩

set_option maxRecDepth 100000 in
/-- Claim C16 as stated fails: a coinbase transaction, whose input has the empty `Txid`
`[]byte{}`, comes back with a nil `Txid`, and a genesis block, whose `PrevBlockHash` is
`[]byte{}`, comes back with a nil `PrevBlockHash`; neither round trip returns the value
that was serialized. -/
theorem gob_round_trip_counterexample :
    Gob.DeserializeTransaction (Gob.Transaction.Serialize (Gob.coinbaseTx [1, 2] [7] [5, 5])) =
      some ⟨some [1, 2], some [⟨none, -1, none, some [7]⟩], some [⟨10, some [5, 5]⟩]⟩ ∧
    Gob.DeserializeTransaction (Gob.Transaction.Serialize (Gob.coinbaseTx [1, 2] [7] [5, 5])) ≠
      some (Gob.coinbaseTx [1, 2] [7] [5, 5]) ∧
    Gob.genesisBlock.PrevBlockHash = some [] ∧
    (Gob.DeserializeBlock (Gob.Block.Serialize Gob.genesisBlock)).map
      (fun b => b.PrevBlockHash) = some none ∧
    Gob.DeserializeBlock (Gob.Block.Serialize Gob.genesisBlock) ≠ some Gob.genesisBlock := by
  refine ⟨by decide, by decide, rfl, by decide, by decide⟩

/-! ## The nonce search of `Run` -/

/-- The header material is computed for every nonce when it is for one. -/
theorem prepareData_isSome (env : Env) (b : Block) (n : Int) (d : Bytes)
    (h : prepareData env b n = some d) : ∀ k : Int, (prepareData env b k).isSome = true := by
  intro k
  unfold prepareData at h ⊢
  cases hr : HashTransactions env b with
  | none => rw [hr] at h; cases h
  | some root => rfl

/-- The loop of `Run` started at or below the least nonce that meets the target, with
fuel to reach it, returns that nonce and its digest. -/
theorem RunLoop_least (env : Env) (b : Block)
    (hsome : ∀ k : Int, (prepareData env b k).isSome = true) (n0 : Nat) (d0 : Bytes)
    (hn0 : n0 < maxNonce) (hd0 : prepareData env b (n0 : Int) = some d0)
    (hlt : SetBytes (env.sha256 d0) < target) :
    ∀ (fuel nonce : Nat) (hash : Bytes), nonce ≤ n0 → n0 < nonce + fuel →
      (∀ (k : Nat) (d : Bytes), nonce ≤ k → k < n0 → prepareData env b (k : Int) = some d →
        target ≤ SetBytes (env.sha256 d)) →
      RunLoop env b fuel nonce hash = some (n0, env.sha256 d0) := by
  intro fuel
  induction fuel with
  | zero => intro nonce hash h1 h2 _; omega
  | succ fuel ih =>
    intro nonce hash h1 h2 hge
    have hnm : nonce < maxNonce := by omega
    unfold RunLoop
    rw [if_pos hnm]
    by_cases he : nonce = n0
    · subst he
      simp only [hd0, hlt, if_true]
    · cases hd : prepareData env b (nonce : Int) with
      | none =>
        have := hsome (nonce : Int)
        rw [hd] at this
        cases this
      | some d =>
        have hnot : ¬ SetBytes (env.sha256 d) < target := by
          have := hge nonce d (Nat.le_refl _) (by omega) hd
          omega
        simp only [hnot, if_false]
        exact ih (nonce + 1) _ (by omega) (by omega)
          (fun k dk hk1 hk2 hk3 => hge k dk (by omega) hk2 hk3)

/-- Claim C21: for every block for which some nonce in `[0, maxNonce)` has a header
digest below the target, `Run` returns the least such nonce together with the digest of
the header material built with that nonce: that digest is below the target, and the
digest of every smaller nonce, read as an unsigned big-endian integer, is at least the
target. -/
theorem Run_returns_least_nonce (env : Env) (b : Block)
    (hex : ∃ (n : Nat) (d : Bytes), n < maxNonce ∧ prepareData env b (n : Int) = some d ∧
      SetBytes (env.sha256 d) < target) :
    ∃ (n : Nat) (d : Bytes), Run env b = some (n, env.sha256 d) ∧ n < maxNonce ∧
      prepareData env b (n : Int) = some d ∧ SetBytes (env.sha256 d) < target ∧
      ∀ k : Nat, k < n → ∃ dk, prepareData env b (k : Int) = some dk ∧
        target ≤ SetBytes (env.sha256 dk) := by
  classical
  obtain ⟨n1, d1, hn1, hd1, hlt1⟩ := hex
  have hsome := prepareData_isSome env b _ _ hd1
  have hP : ∃ n : Nat, n < maxNonce ∧ ∃ d, prepareData env b (n : Int) = some d ∧
      SetBytes (env.sha256 d) < target := ⟨n1, hn1, d1, hd1, hlt1⟩
  obtain ⟨hn0, d0, hd0, hlt0⟩ := Nat.find_spec hP
  have hmin : ∀ (k : Nat) (d : Bytes), k < Nat.find hP → prepareData env b (k : Int) = some d →
      target ≤ SetBytes (env.sha256 d) := by
    intro k d hk hd
    have hnot := Nat.find_min hP hk
    by_contra hc
    exact hnot ⟨by omega, d, hd, by omega⟩
  refine ⟨Nat.find hP, d0, ?_, hn0, hd0, hlt0, ?_⟩
  · exact RunLoop_least env b hsome _ d0 hn0 hd0 hlt0 maxNonce 0 _ (Nat.zero_le _) (by omega)
      (fun k d _ hk hd => hmin k d hk hd)
  · intro k hk
    cases hd : prepareData env b (k : Int) with
    | none =>
      have := hsome (k : Int)
      rw [hd] at this
      cases this
    | some dk => exact ⟨dk, rfl, hmin k dk hk hd⟩

set_option maxRecDepth 100000 in
/-- Claim C21 in `slowEnv`, where the nonces 0, 1 and 2 miss the target and 3 meets it:
`Run` returns the nonce 3. -/
theorem Run_returns_least_nonce_witness :
    Run slowEnv unminedBlock = some (3, [3]) ∧
    ∃ (n : Nat) (d : Bytes), Run slowEnv unminedBlock = some (n, slowEnv.sha256 d) ∧
      n < maxNonce ∧ prepareData slowEnv unminedBlock (n : Int) = some d ∧
      SetBytes (slowEnv.sha256 d) < target ∧
      ∀ k : Nat, k < n → ∃ dk, prepareData slowEnv unminedBlock (k : Int) = some dk ∧
        target ≤ SetBytes (slowEnv.sha256 dk) :=
  ⟨by decide, Run_returns_least_nonce slowEnv unminedBlock
    ⟨3, (prepareData slowEnv unminedBlock 3).getD [], by decide, by decide, by decide⟩⟩

/-! ## The lookup of a transaction -/

/-- On a walk that ends at a block with an empty `PrevBlockHash`, the loop of
`FindTransaction` returns the first transaction of the walk with the id looked for, or
the error when there is none. -/
theorem FindTransactionLoop_of_chain (db : DB) (ID : Bytes) :
    ∀ (fuel : Nat) (h : Bytes) (chain : List Block), iterBlocks db fuel h = some chain →
      FindTransactionLoop db ID fuel h =
        some ((chainTxs chain).find? (fun tx => decide (tx.ID.getD [] = ID))) := by
  intro fuel
  induction fuel with
  | zero => intro h chain hc; simp [iterBlocks] at hc
  | succ fuel ih =>
    intro h chain hc
    unfold iterBlocks at hc
    unfold FindTransactionLoop
    cases hn : Next db h with
    | none => rw [hn] at hc; cases hc
    | some p =>
      obtain ⟨block, prev⟩ := p
      rw [hn] at hc
      simp only at hc ⊢
      by_cases hlen : block.PrevBlockHash.length = 0
      · rw [if_pos hlen] at hc
        simp only [Option.some.injEq] at hc
        subst hc
        simp only [chainTxs, List.map_cons, List.map_nil, List.flatten_cons, List.flatten_nil,
          List.append_nil]
        cases hf : block.Transactions.find? (fun tx => decide (tx.ID.getD [] = ID)) with
        | none => simp only [hlen, if_true]
        | some tx => rfl
      · rw [if_neg hlen] at hc
        cases hr : iterBlocks db fuel prev with
        | none => rw [hr] at hc; cases hc
        | some rest =>
          rw [hr] at hc
          simp only [Option.some.injEq] at hc
          subst hc
          simp only [chainTxs, List.map_cons, List.flatten_cons, List.find?_append]
          cases hf : block.Transactions.find? (fun tx => decide (tx.ID.getD [] = ID)) with
          | none =>
            simp only [hlen, if_false, Option.or]
            exact ih prev rest hr
          | some tx => rfl

/-- Claim C23: on a ledger whose walk from the tip ends at a block with an empty
`PrevBlockHash`, `FindTransaction` returns a transaction, and no error, exactly when some
block of the walk contains a transaction whose `ID` is `id` (as bytes; `bytes.Compare`
takes a nil `ID` for the empty one); the transaction returned has that `ID` and is the
first match, the blocks taken from the tip backwards and the transactions of a block in
block order; otherwise `FindTransaction` returns the error `Transaction is not found`. -/
theorem FindTransaction_first_match (fuel : Nat) (bc : Blockchain) (ID : Bytes)
    (chain : List Block) (hchain : iterBlocks bc.db fuel bc.tip = some chain) :
    FindTransaction fuel bc ID =
      some ((chainTxs chain).find? (fun tx => decide (tx.ID.getD [] = ID))) ∧
    ((∃ tx, FindTransaction fuel bc ID = some (some tx)) ↔
      ∃ b ∈ chain, ∃ tx ∈ b.Transactions, tx.ID.getD [] = ID) ∧
    (∀ tx, FindTransaction fuel bc ID = some (some tx) →
      tx.ID.getD [] = ID ∧ ∃ before after, chainTxs chain = before ++ tx :: after ∧
        ∀ t ∈ before, t.ID.getD [] ≠ ID) ∧
    ((¬ ∃ b ∈ chain, ∃ tx ∈ b.Transactions, tx.ID.getD [] = ID) →
      FindTransaction fuel bc ID = some none) := by
  have hfind := FindTransactionLoop_of_chain bc.db ID fuel bc.tip chain hchain
  have hmem : (∃ tx, tx ∈ chainTxs chain ∧ tx.ID.getD [] = ID) ↔
      ∃ b ∈ chain, ∃ tx ∈ b.Transactions, tx.ID.getD [] = ID := by
    simp only [chainTxs, List.mem_flatten, List.mem_map]
    constructor
    · rintro ⟨tx, ⟨l, ⟨b, hb, rfl⟩, htx⟩, hid⟩
      exact ⟨b, hb, tx, htx, hid⟩
    · rintro ⟨b, hb, tx, htx, hid⟩
      exact ⟨tx, ⟨_, ⟨b, hb, rfl⟩, htx⟩, hid⟩
  have hfirst : ∀ tx, FindTransaction fuel bc ID = some (some tx) →
      tx.ID.getD [] = ID ∧ ∃ before after, chainTxs chain = before ++ tx :: after ∧
        ∀ t ∈ before, t.ID.getD [] ≠ ID := by
    intro tx htx
    unfold FindTransaction at htx
    rw [hfind] at htx
    simp only [Option.some.injEq] at htx
    obtain ⟨hp, before, after, heq, hbefore⟩ := List.find?_eq_some.1 htx
    refine ⟨by simpa using hp, before, after, heq, ?_⟩
    intro t ht
    simpa using hbefore t ht
  refine ⟨hfind, ?_, hfirst, ?_⟩
  · rw [← hmem]
    constructor
    · rintro ⟨tx, htx⟩
      obtain ⟨hid, before, after, heq, _⟩ := hfirst tx htx
      exact ⟨tx, by rw [heq]; simp, hid⟩
    · rintro ⟨tx, hmemtx, hid⟩
      cases hf : (chainTxs chain).find? (fun tx => decide (tx.ID.getD [] = ID)) with
      | none =>
        rw [List.find?_eq_none] at hf
        exact absurd (by simpa using hid) (hf tx hmemtx)
      | some t =>
        refine ⟨t, ?_⟩
        unfold FindTransaction
        rw [hfind, hf]
  · intro hno
    unfold FindTransaction
    rw [hfind]
    have : (chainTxs chain).find? (fun tx => decide (tx.ID.getD [] = ID)) = none := by
      rw [List.find?_eq_none]
      intro t ht hp
      exact hno (hmem.1 ⟨t, ht, by simpa using hp⟩)
    rw [this]

set_option maxRecDepth 100000 in
/-- Claim C23 at `ledger2State`, whose walk has three blocks: the id of `payBob` is found
in the second block from the tip, and the id `[0]` is not found. -/
theorem FindTransaction_first_match_witness :
    ledger2Chain.length = 3 ∧
    FindTransaction 10 ledger2State payBobID = payBob.map some ∧
    FindTransaction 10 ledger2State [0] = some none ∧
    (FindTransaction 10 ledger2State payBobID =
      some ((chainTxs ledger2Chain).find? (fun tx => decide (tx.ID.getD [] = payBobID))) ∧
    ((∃ tx, FindTransaction 10 ledger2State payBobID = some (some tx)) ↔
      ∃ b ∈ ledger2Chain, ∃ tx ∈ b.Transactions, tx.ID.getD [] = payBobID) ∧
    (∀ tx, FindTransaction 10 ledger2State payBobID = some (some tx) →
      tx.ID.getD [] = payBobID ∧ ∃ before after, chainTxs ledger2Chain = before ++ tx :: after ∧
        ∀ t ∈ before, t.ID.getD [] ≠ payBobID) ∧
    ((¬ ∃ b ∈ ledger2Chain, ∃ tx ∈ b.Transactions, tx.ID.getD [] = payBobID) →
      FindTransaction 10 ledger2State payBobID = some none)) :=
  ⟨by decide, by decide, by decide,
    FindTransaction_first_match 10 ledger2State payBobID ledger2Chain (by decide)⟩

/-! ## The encoding of a stored signature -/

set_option maxRecDepth 100000 in
/-- Claim C24, at failing inputs: signed by Alice with the draw 256, the input of
`payBobRaw` gets the signature `(r, s) = (256, 123)`, stored by `Sign` as the three bytes
`[1, 0, 123]`; the midpoint `3 / 2 = 1` leaves one byte and two bytes, and the split reads
`(1, 123)`.  For `(r, s) = (2^255, 2^247)`, of 32 and 31 bytes, the stored signature has 63
bytes and the split does not give `(r, s)` back.  For `(65536, 5)` the stored signature
`[1, 0, 0, 5]` has two halves of two bytes and the split reads `(256, 5)`.  The pair
`(5, 123)`, of one byte each, does split back. -/
theorem stored_signature_split_fails :
    (Sign demoEnv aliceKey genesisPrevTXs (fun _ => 256) payBobRaw).map
      (fun tx => tx.Vin.map (fun vin => (vin.Signature,
        (vin.Signature.take (vin.Signature.length / 2)).length,
        (vin.Signature.drop (vin.Signature.length / 2)).length,
        SetBytes (vin.Signature.take (vin.Signature.length / 2)),
        SetBytes (vin.Signature.drop (vin.Signature.length / 2))))) =
      some [(natBytes 256 ++ natBytes 123, 1, 2, 1, 123)] ∧
    natBytes 256 ++ natBytes 123 = [1, 0, 123] ∧
    ¬ SplitsBack (256, 123) ∧
    (natBytes (2 ^ 255)).length = 32 ∧ (natBytes (2 ^ 247)).length = 31 ∧
    (natBytes (2 ^ 255) ++ natBytes (2 ^ 247)).length = 63 ∧
    ¬ SplitsBack (2 ^ 255, 2 ^ 247) ∧
    natBytes 65536 ++ natBytes 5 = [1, 0, 0, 5] ∧
    (SetBytes (([1, 0, 0, 5] : Bytes).take (4 / 2)), SetBytes (([1, 0, 0, 5] : Bytes).drop (4 / 2))) =
      (256, 5) ∧
    ¬ SplitsBack (65536, 5) ∧
    SplitsBack (5, 123) := by
  refine ⟨by decide, by decide, by decide, by decide, by decide, by decide, by decide, by decide,
    by decide, by decide, by decide⟩

/-! ## Transactions without inputs -/

/-- Claim C25: a transaction with an empty input list is not a coinbase transaction;
`Verify` returns true on it for every map of previous transactions, and
`VerifyTransaction` for every chain, whatever its outputs are; and `MineBlock`, on every
ledger that has its tip block, returns a block that contains it (digests being keys the
store accepts). -/
theorem empty_inputs_verify (env : Env) (tx : Transaction) (h : tx.Vin = []) :
    IsCoinbase tx = false ∧
    (∀ prevTXs, Verify env tx prevTXs = some true) ∧
    (∀ fuel bc, VerifyTransaction env fuel bc tx = some true) ∧
    (DigestsLong env → DigestsFit env →
      ∀ fuel now bc stale lastHash tb, tipBlock bc.db.blocks = some (lastHash, tb) →
        ∃ bc' blk, MineBlock env fuel now bc [tx] stale = some (bc', blk) ∧
          blk.Transactions = [tx] ∧ bc'.tip = blk.Hash) := by
  have hcb : IsCoinbase tx = false := by simp [IsCoinbase, h]
  have hver : ∀ prevTXs, Verify env tx prevTXs = some true := by
    intro prevTXs
    simp [Verify, hcb, prevMissing, h, VerifyLoop]
  have hvt : ∀ fuel bc, VerifyTransaction env fuel bc tx = some true := by
    intro fuel bc
    have hc : collectPrevTXs fuel bc [] tx.Vin = some [] := by rw [h]; rfl
    simp only [VerifyTransaction, hcb, Bool.false_eq_true, if_false, hc, hver]
  refine ⟨hcb, hver, hvt, ?_⟩
  intro hd hfit fuel now bc stale lastHash tb htip
  obtain ⟨blk, hnb, hmine⟩ := MineBlock_stored_total env hd hfit fuel now bc [tx] lastHash tb
    htip (fun t ht => by
      simp only [List.mem_singleton] at ht
      subst ht
      exact hvt fuel bc)
    (NewMerkleTree_isSome_small env _ (by simp) (by simp))
  obtain ⟨_, htx, _, _, _⟩ := NewBlock_fields env _ _ _ _ _ hnb
  refine ⟨⟨blk.Hash, ⟨insertEntry (insertEntry bc.db.blocks blk.Hash (.block blk)) lastKey
    (.hash blk.Hash), bc.db.chainstate⟩⟩, { blk with PrevBlockHash := stale }, ?_, htx, rfl⟩
  simp only [MineBlock, hmine]

set_option maxRecDepth 100000 in
/-- Claim C25 at `freeMoneyTx`, which has no input and pays 1000 to Carol, on the
genesis ledger: the block `MineBlock` returns contains it. -/
theorem empty_inputs_verify_witness :
    freeMoneyTx.Vout = [⟨1000, keyHashOf carolKey⟩] ∧
    (MineBlock demoEnv 10 1001 genesisState [freeMoneyTx] [0]).map
      (fun r => r.2.Transactions) = some [freeMoneyTx] ∧
    (∀ fuel now bc stale lastHash tb, tipBlock bc.db.blocks = some (lastHash, tb) →
      ∃ bc' blk, MineBlock demoEnv fuel now bc [freeMoneyTx] stale = some (bc', blk) ∧
        blk.Transactions = [freeMoneyTx] ∧ bc'.tip = blk.Hash) ∧
    (IsCoinbase freeMoneyTx = false ∧
    (∀ prevTXs, Verify demoEnv freeMoneyTx prevTXs = some true) ∧
    (∀ fuel bc, VerifyTransaction demoEnv fuel bc freeMoneyTx = some true) ∧
    (DigestsLong demoEnv → DigestsFit demoEnv →
      ∀ fuel now bc stale lastHash tb, tipBlock bc.db.blocks = some (lastHash, tb) →
        ∃ bc' blk, MineBlock demoEnv fuel now bc [freeMoneyTx] stale = some (bc', blk) ∧
          blk.Transactions = [freeMoneyTx] ∧ bc'.tip = blk.Hash)) :=
  ⟨by decide, by decide,
    (empty_inputs_verify demoEnv freeMoneyTx (by decide)).2.2.2 demoEnv_DigestsLong
      demoEnv_DigestsFit,
    empty_inputs_verify demoEnv freeMoneyTx (by decide)⟩

/-! ## What the proof of work commits to -/

/-- Claim C26: two blocks that agree on `PrevBlockHash`, `Transactions`, `Timestamp` and
`Nonce` have the same header material for every nonce, and `Validate` returns the same
result on both, whatever their `Height` and `Hash` fields are. -/
theorem Validate_ignores_height_and_hash (env : Env) (b b' : Block)
    (h1 : b.PrevBlockHash = b'.PrevBlockHash) (h2 : b.Transactions = b'.Transactions)
    (h3 : b.Timestamp = b'.Timestamp) (h4 : b.Nonce = b'.Nonce) :
    (∀ nonce, prepareData env b nonce = prepareData env b' nonce) ∧
      Validate env b = Validate env b' := by
  have hp : ∀ nonce, prepareData env b nonce = prepareData env b' nonce :=
    fun nonce => prepareData_congr env b b' nonce h1 h2 h3
  refine ⟨hp, ?_⟩
  unfold Validate
  rw [h4, hp]

set_option maxRecDepth 100000 in
/-- Claim C26 at the genesis block and the same block with the height 7 and the stored
hash `[0]`: `Validate` is true on both, and `AddBlock` makes the relabelled block the
tip of the genesis ledger. -/
theorem Validate_ignores_height_and_hash_witness :
    relabelledBlock.Height ≠ genesisBlock.Height ∧ relabelledBlock.Hash ≠ genesisBlock.Hash ∧
    Validate demoEnv genesisBlock = some true ∧ Validate demoEnv relabelledBlock = some true ∧
    (AddBlock genesisState relabelledBlock).map (fun bc => bc.tip) = some [0] ∧
    ((∀ nonce, prepareData demoEnv genesisBlock nonce = prepareData demoEnv relabelledBlock nonce) ∧
      Validate demoEnv genesisBlock = Validate demoEnv relabelledBlock) :=
  ⟨by decide, by decide, by decide, by decide, by decide,
    Validate_ignores_height_and_hash demoEnv genesisBlock relabelledBlock rfl rfl rfl rfl⟩

end BlockchainGo
